import Mathlib

/-!
# HEVC SEI parsing engine (`src/wasm/sei_parser.cpp`)

A shallow embedding of `SEIParser` and of the functions it is built from,
followed by the properties proved about them.

Conventions of the embedding.

* A byte is a `Fin 256` (`uint8_t`); a buffer is a `List Byte`, and a C++
  `(pointer, size)` pair into the input is a buffer together with a start
  offset and a size.  Every read of the input goes through `readByte`, which
  answers `Fault.outOfBounds` for an index that is not inside the buffer.
* The parser is built for wasm32 (`src/wasm/bindings.cpp` binds it with
  Emscripten), so `size_t` and `uint32_t` are both 32 bits wide.  Subtractions
  of `size_t` values, the `uint32_t` accumulators and the sum
  `pos + payloadSize` are taken modulo `2 ^ 32`.  Index increments
  (`i + 1`, `pos++`, ...) are plain additions: each one is applied to an index
  that has just been compared with, or read below, a size that fits 32 bits.
* `while` and `for` loops are functions with an explicit fuel argument; a loop
  that would run longer than its fuel answers `Fault.outOfFuel`.
* The `std::vector` produced by `rbspDecode` is a `List Byte`; the decoders
  that receive `decodedPayload.data()` and `decodedPayload.size()` take that
  list.
* `std::string` values are `String`s; a byte copied into a `std::string` is
  the character with that code.
-/

namespace SEI

/-! ## Data model -/

/-- One `uint8_t`. -/
abbrev Byte := Fin 256

/-- The two ways a run of the embedding can stop without a result. -/
inductive Fault where
  | outOfBounds
  | outOfFuel
  deriving DecidableEq, Repr

/-- Number of values of a `size_t` (wasm32). -/
@[irreducible]
def SIZE_T_MOD : Nat := 2 ^ 32

/-- Number of values of a `uint32_t`. -/
@[irreducible]
def UINT32_MOD : Nat := 2 ^ 32

def HEVC_NAL_SEI_PREFIX : Nat := 39

def HEVC_NAL_SEI_SUFFIX : Nat := 40

def SEI_TYPE_USER_DATA_UNREGISTERED : Nat := 5

def SEI_TYPE_TIME_CODE : Nat := 136

/-- The record `struct SEIEntry` of `sei_parser.hpp`. -/
structure SEIEntry where
  type : Nat
  frameNumber : Nat
  payload : List Byte
  jsonPayload : String
  timecodeString : String
  rawBytes : String
  deriving DecidableEq, Repr

/-- The mutable state of a `SEIParser` object. -/
structure SEIParser where
  sequentialFrameCounter : Nat
  deriving DecidableEq, Repr

/-- The state of a `BitReader`: the bytes it reads, their number, and the cursor. -/
structure BitReader where
  data : List Byte
  size : Nat
  bytePos : Nat
  bitPos : Nat
  deriving DecidableEq, Repr

/-! ## Memory access and machine arithmetic -/

/-- Read of `mem[a]`: a fault when `a` is not an index of `mem`. -/
def readByte (mem : List Byte) (a : Nat) : Except Fault Byte :=
  match mem[a]? with
  | some b => .ok b
  | none => .error .outOfBounds

/-- Subtraction of two `size_t` values, `a - b` in C++: the difference modulo
`SIZE_T_MOD`, which is `a - b` when `b ≤ a` and wraps around otherwise. -/
@[irreducible]
def subSize (a b : Nat) : Nat := if b ≤ a then a - b else a + SIZE_T_MOD - b

/-- Bytes of a `std::string` built from raw bytes. -/
def bytesToText (bs : List Byte) : String :=
  String.mk (bs.map fun b => Char.ofNat b.val)

/-- Stream output of a number with `setfill('0')` and `setw(2)` in the given base. -/
def putNum2 (base n : Nat) : String :=
  let digits := Nat.toDigits base n
  String.mk (List.replicate (2 - digits.length) '0' ++ digits)

/-! ## NAL unit scanner -/

/-- Lines 43-50 (and, with the same reads in the same order, the test of
lines 60-61): the length of the start code at `i`, or `0` when there is none. -/
def startCodeLenAt (data : List Byte) (i : Nat) : Except Fault Nat :=
  match readByte data i with
  | .error e => .error e
  | .ok b0 =>
    if b0 = 0 then
      match readByte data (i + 1) with
      | .error e => .error e
      | .ok b1 =>
        if b1 = 0 then
          match readByte data (i + 2) with
          | .error e => .error e
          | .ok b2 =>
            if b2 = 1 then .ok 3
            else if b2 = 0 ∧ i + 3 < data.length then
              match readByte data (i + 3) with
              | .error e => .error e
              | .ok b3 => if b3 = 1 then .ok 4 else .ok 0
            else .ok 0
        else .ok 0
    else .ok 0

/-- Lines 56-66: search of the next start code from `j`; the result is `nalEnd`. -/
def findNextStart (data : List Byte) : Nat → Nat → Except Fault Nat
  | 0, j => if j < subSize data.length 3 then .error .outOfFuel else .ok data.length
  | fuel + 1, j =>
    if j < subSize data.length 3 then
      match startCodeLenAt data j with
      | .error e => .error e
      | .ok len => if len ≠ 0 then .ok j else findNextStart data fuel (j + 1)
    else .ok data.length

/-- Lines 41-76: the scanner loop, from cursor `i` with the units found so far. -/
def findNALUnitsLoop (data : List Byte) :
    Nat → Nat → List (Nat × Nat) → Except Fault (List (Nat × Nat))
  | 0, i, nalUnits =>
    if i < subSize data.length 3 then .error .outOfFuel else .ok nalUnits
  | fuel + 1, i, nalUnits =>
    if i < subSize data.length 3 then
      match startCodeLenAt data i with
      | .error e => .error e
      | .ok startCodeLen =>
        if startCodeLen > 0 then
          match findNextStart data data.length (i + startCodeLen + 1) with
          | .error e => .error e
          | .ok nalEnd =>
            findNALUnitsLoop data fuel nalEnd
              (nalUnits ++ [(i + startCodeLen, subSize nalEnd (i + startCodeLen))])
        else findNALUnitsLoop data fuel (i + 1) nalUnits
    else .ok nalUnits

/-- `SEIParser::findNALUnits(data, dataSize)` with `dataSize = data.length`. -/
def findNALUnits (data : List Byte) : Except Fault (List (Nat × Nat)) :=
  findNALUnitsLoop data (data.length + 1) 0 []

/-! ## RBSP de-escaper -/

/-- Line 143: the test for an emulation-prevention triple at `data[i]`. -/
def emulationAt (mem : List Byte) (data size i : Nat) : Except Fault Bool :=
  if i + 2 < size then
    match readByte mem (data + i) with
    | .error e => .error e
    | .ok b0 =>
      if b0 = 0 then
        match readByte mem (data + (i + 1)) with
        | .error e => .error e
        | .ok b1 =>
          if b1 = 0 then
            match readByte mem (data + (i + 2)) with
            | .error e => .error e
            | .ok b2 => .ok (decide (b2 = 3))
          else .ok false
      else .ok false
  else .ok false

/-- Lines 142-151: the loop of `rbspDecode`. -/
def rbspDecodeLoop (mem : List Byte) (data size : Nat) :
    Nat → Nat → List Byte → Except Fault (List Byte)
  | 0, i, decoded => if i < size then .error .outOfFuel else .ok decoded
  | fuel + 1, i, decoded =>
    if i < size then
      match emulationAt mem data size i with
      | .error e => .error e
      | .ok true =>
        match readByte mem (data + i) with
        | .error e => .error e
        | .ok b0 =>
          match readByte mem (data + (i + 1)) with
          | .error e => .error e
          | .ok b1 => rbspDecodeLoop mem data size fuel (i + 3) (decoded ++ [b0, b1])
      | .ok false =>
        match readByte mem (data + i) with
        | .error e => .error e
        | .ok b0 => rbspDecodeLoop mem data size fuel (i + 1) (decoded ++ [b0])
    else .ok decoded

/-- `SEIParser::rbspDecode(data, size)`, the pointer being `mem + data`. -/
def rbspDecode (mem : List Byte) (data size : Nat) : Except Fault (List Byte) :=
  rbspDecodeLoop mem data size size 0 []

/-! ## Payload decoders -/

/-- `SEIParser::frameNumberFromUUID(uuid)`. -/
def frameNumberFromUUID (uuid : List Byte) : Except Fault Nat :=
  match readByte uuid 0 with
  | .error e => .error e
  | .ok u0 =>
    match readByte uuid 1 with
    | .error e => .error e
    | .ok u1 =>
      match readByte uuid 2 with
      | .error e => .error e
      | .ok u2 =>
        match readByte uuid 3 with
        | .error e => .error e
        | .ok u3 =>
          .ok (((u0.val <<< 24) ||| (u1.val <<< 16) ||| (u2.val <<< 8) ||| u3.val)
            % UINT32_MOD)

/-- `SEIParser::bytesToHex(data, size)` on the bytes of a vector. -/
def bytesToHex (data : List Byte) : String :=
  let shown := (data.take 32).foldl (fun ss b => ss ++ putNum2 16 b.val ++ " ") ""
  if data.length > 32 then shown ++ "..." else shown

/-- `SEIParser::parseUserDataUnregistered(payload, payloadSize, frameNumber)`. -/
def parseUserDataUnregistered (payload : List Byte) (frameNumber : Nat) : SEIEntry :=
  let entry : SEIEntry :=
    { type := SEI_TYPE_USER_DATA_UNREGISTERED, frameNumber := frameNumber,
      payload := [], jsonPayload := "", timecodeString := "", rawBytes := "" }
  if payload.length < 16 then
    { entry with jsonPayload := "\x7b\x7d" }
  else
    let jsonSize := payload.length - 16
    let json := if jsonSize > 0 then bytesToText (payload.drop 16) else "\x7b\x7d"
    { entry with jsonPayload := json, payload := payload, rawBytes := bytesToHex payload }

/-- `BitReader::BitReader(data, size)`. -/
def BitReader.new (data : List Byte) : BitReader :=
  { data := data, size := data.length, bytePos := 0, bitPos := 0 }

/-- Lines 259-273: the loop of `readBits`, with `n` bits still to read. -/
def BitReader.readBitsLoop : Nat → Nat → BitReader → Except Fault (Nat × BitReader)
  | 0, value, r => .ok (value, r)
  | n + 1, value, r =>
    if r.bytePos ≥ r.size then .ok (value, r)
    else
      match readByte r.data r.bytePos with
      | .error e => .error e
      | .ok b =>
        let bit := (b.val >>> (7 - r.bitPos)) &&& 1
        let value := ((value <<< 1) ||| bit) % UINT32_MOD
        if r.bitPos + 1 ≥ 8 then
          BitReader.readBitsLoop n value { r with bitPos := 0, bytePos := r.bytePos + 1 }
        else
          BitReader.readBitsLoop n value { r with bitPos := r.bitPos + 1 }

/-- `BitReader::readBits(numBits)`: the value read and the reader afterwards. -/
def BitReader.readBits (r : BitReader) (numBits : Nat) : Except Fault (Nat × BitReader) :=
  BitReader.readBitsLoop numBits 0 r

/-- `BitReader::hasMoreBits()`. -/
def BitReader.hasMoreBits (r : BitReader) : Bool := decide (r.bytePos < r.size)

/-- Lines 221-227: the four fields written through the string stream. -/
def formatTimecode (hours minutes seconds n_frames : Nat) : String :=
  putNum2 10 hours ++ ":" ++ putNum2 10 minutes ++ ":" ++ putNum2 10 seconds ++ ":"
    ++ putNum2 10 n_frames

/-- Lines 199-227: the reads of the timecode fields and the formatted string.
Nothing in the `try` block throws, so the `catch` branch has no counterpart. -/
def readTimecode (r0 : BitReader) : Except Fault String :=
  match r0.readBits 2 with
  | .error e => .error e
  | .ok (_num_clock_ts, r1) =>
  match r1.readBits 1 with
  | .error e => .error e
  | .ok (_units_field_based_flag, r2) =>
  match r2.readBits 5 with
  | .error e => .error e
  | .ok (_counting_type, r3) =>
  match r3.readBits 1 with
  | .error e => .error e
  | .ok (full_timestamp_flag, r4) =>
  match r4.readBits 1 with
  | .error e => .error e
  | .ok (_discontinuity_flag, r5) =>
  match r5.readBits 1 with
  | .error e => .error e
  | .ok (_cnt_dropped_flag, r6) =>
  match r6.readBits 9 with
  | .error e => .error e
  | .ok (n_frames, r7) =>
    if full_timestamp_flag ≠ 0 then
      match r7.readBits 6 with
      | .error e => .error e
      | .ok (seconds, r8) =>
      match r8.readBits 6 with
      | .error e => .error e
      | .ok (minutes, r9) =>
      match r9.readBits 5 with
      | .error e => .error e
      | .ok (hours, _) => .ok (formatTimecode hours minutes seconds n_frames)
    else .ok (formatTimecode 0 0 0 n_frames)

/-- `SEIParser::parseTimecode(payload, payloadSize, frameNumber)`. -/
def parseTimecode (payload : List Byte) (frameNumber : Nat) : Except Fault SEIEntry :=
  let entry : SEIEntry :=
    { type := SEI_TYPE_TIME_CODE, frameNumber := frameNumber, payload := payload,
      jsonPayload := "", timecodeString := "", rawBytes := bytesToHex payload }
  if payload.length = 0 then
    .ok { entry with timecodeString := "--:--:--:--" }
  else
    match readTimecode (BitReader.new payload) with
    | .error e => .error e
    | .ok s => .ok { entry with timecodeString := s }

/-! ## SEI message extractor -/

/-- Lines 92-95 and 101-104: the run of `0xFF` bytes of an escaped value.
The result is the accumulated value and the cursor after the run. -/
def readEscape (mem : List Byte) (seiData seiSize : Nat) :
    Nat → Nat → Nat → Except Fault (Nat × Nat)
  | 0, value, pos => if pos < seiSize then .error .outOfFuel else .ok (value, pos)
  | fuel + 1, value, pos =>
    if pos < seiSize then
      match readByte mem (seiData + pos) with
      | .error e => .error e
      | .ok b =>
        if b = 0xFF then
          readEscape mem seiData seiSize fuel ((value + 255) % UINT32_MOD) (pos + 1)
        else .ok (value, pos)
    else .ok (value, pos)

/-- Lines 117-127: the dispatch on the payload type. -/
def dispatchPayload (self : SEIParser) (payloadType : Nat) (decodedPayload : List Byte)
    (entries : List SEIEntry) : Except Fault (List SEIEntry × SEIParser) :=
  if payloadType = SEI_TYPE_USER_DATA_UNREGISTERED then
    if decodedPayload.length ≥ 16 then
      match frameNumberFromUUID decodedPayload with
      | .error e => .error e
      | .ok frameNum =>
        .ok (entries ++ [parseUserDataUnregistered decodedPayload frameNum], self)
    else .ok (entries, self)
  else if payloadType = SEI_TYPE_TIME_CODE then
    match parseTimecode decodedPayload self.sequentialFrameCounter with
    | .error e => .error e
    | .ok entry =>
      .ok (entries ++ [entry],
        { self with sequentialFrameCounter := (self.sequentialFrameCounter + 1) % UINT32_MOD })
  else .ok (entries, self)

/-- Lines 90-134: one iteration of the message loop at cursor `pos`.
The answer `none` is a `break`; otherwise the new cursor, entries and parser. -/
def seiMessage (self : SEIParser) (mem : List Byte) (seiData seiSize pos : Nat)
    (entries : List SEIEntry) : Except Fault (Option (Nat × List SEIEntry × SEIParser)) :=
  match readEscape mem seiData seiSize (seiSize + 1) 0 pos with
  | .error e => .error e
  | .ok (typeAcc, pos1) =>
    if pos1 ≥ seiSize then .ok none
    else
      match readByte mem (seiData + pos1) with
      | .error e => .error e
      | .ok tb =>
        let payloadType := (typeAcc + tb.val) % UINT32_MOD
        match readEscape mem seiData seiSize (seiSize + 1) 0 (pos1 + 1) with
        | .error e => .error e
        | .ok (sizeAcc, pos2) =>
          if pos2 ≥ seiSize then .ok none
          else
            match readByte mem (seiData + pos2) with
            | .error e => .error e
            | .ok sb =>
              let payloadSize := (sizeAcc + sb.val) % UINT32_MOD
              let pos3 := pos2 + 1
              if (pos3 + payloadSize) % SIZE_T_MOD > seiSize then .ok none
              else
                match rbspDecode mem (seiData + pos3) payloadSize with
                | .error e => .error e
                | .ok decodedPayload =>
                  match dispatchPayload self payloadType decodedPayload entries with
                  | .error e => .error e
                  | .ok (entries1, self1) =>
                    let pos4 := (pos3 + payloadSize) % SIZE_T_MOD
                    if pos4 < seiSize then
                      match readByte mem (seiData + pos4) with
                      | .error e => .error e
                      | .ok ab =>
                        if ab = 0x80 then .ok (some (pos4 + 1, entries1, self1))
                        else .ok (some (pos4, entries1, self1))
                    else .ok (some (pos4, entries1, self1))

/-- Lines 89-135: the message loop. -/
def parseSEILoop (mem : List Byte) (seiData seiSize : Nat) :
    Nat → Nat → List SEIEntry → SEIParser → Except Fault (List SEIEntry × SEIParser)
  | 0, pos, entries, self =>
    if pos < seiSize then .error .outOfFuel else .ok (entries, self)
  | fuel + 1, pos, entries, self =>
    if pos < seiSize then
      match seiMessage self mem seiData seiSize pos entries with
      | .error e => .error e
      | .ok none => .ok (entries, self)
      | .ok (some (pos1, entries1, self1)) =>
        parseSEILoop mem seiData seiSize fuel pos1 entries1 self1
    else .ok (entries, self)

/-- `SEIParser::parseSEINAL(nalData, nalSize, entries)`, the pointer being
`mem + nalData`. -/
def parseSEINAL (self : SEIParser) (mem : List Byte) (nalData nalSize : Nat)
    (entries : List SEIEntry) : Except Fault (List SEIEntry × SEIParser) :=
  if nalSize < 3 then .ok (entries, self)
  else parseSEILoop mem (nalData + 2) (nalSize - 2) (nalSize - 2) 0 entries self

/-! ## Parser -/

/-- Lines 17-32: the loop of `parse` over the units the scanner found. -/
def parseUnits (data : List Byte) :
    List (Nat × Nat) → SEIParser → List SEIEntry → Except Fault (List SEIEntry × SEIParser)
  | [], self, entries => .ok (entries, self)
  | (offset, size) :: rest, self, entries =>
    if size < 2 then parseUnits data rest self entries
    else
      match readByte data offset with
      | .error e => .error e
      | .ok h0 =>
        let nalUnitType := (h0.val >>> 1) &&& 0x3F
        if nalUnitType = HEVC_NAL_SEI_PREFIX ∨ nalUnitType = HEVC_NAL_SEI_SUFFIX then
          match parseSEINAL self data offset size entries with
          | .error e => .error e
          | .ok (entries1, self1) => parseUnits data rest self1 entries1
        else parseUnits data rest self entries

/-- `SEIParser::parse(data, dataSize)` with `dataSize = data.length`: the entries
returned and the parser afterwards. -/
def parse (self : SEIParser) (data : List Byte) : Except Fault (List SEIEntry × SEIParser) :=
  match findNALUnits data with
  | .error e => .error e
  | .ok nalUnits => parseUnits data nalUnits { self with sequentialFrameCounter := 0 } []

/-! ## Vocabulary of the statements -/

/-- Length of the start code that begins at index `i` of `data` (`3` for
`00 00 01`, `4` for `00 00 00 01`), or `0` when none begins there. -/
def scLen (data : List Byte) (i : Nat) : Nat :=
  if data[i]? = some 0 ∧ data[i + 1]? = some 0 then
    if data[i + 2]? = some 1 then 3
    else if data[i + 2]? = some 0 ∧ data[i + 3]? = some 1 then 4
    else 0
  else 0

/-- Whether the three bytes `a b c` occur consecutively in the list. -/
def containsTriple (a b c : Byte) : List Byte → Bool
  | x :: y :: z :: rest =>
    (decide (x = a) && decide (y = b) && decide (z = c)) || containsTriple a b c (y :: z :: rest)
  | _ => false

/-- The start code `00 00 00 01` (long) or `00 00 01`. -/
def startCode (long : Bool) : List Byte :=
  if long then [0, 0, 0, 1] else [0, 0, 1]

/-- The bytes of a stream made of units, each a start code and a body. -/
def concatUnits : List (Bool × List Byte) → List Byte
  | [] => []
  | u :: us => startCode u.1 ++ u.2 ++ concatUnits us

/-- The `(offset, length)` of each body of `concatUnits us` when the stream
starts at index `base`. -/
def unitBounds : Nat → List (Bool × List Byte) → List (Nat × Nat)
  | _, [] => []
  | base, u :: us =>
    (base + (startCode u.1).length, u.2.length)
      :: unitBounds (base + (startCode u.1).length + u.2.length) us

/-- Side condition on a stream of units for the scanner to find exactly their
bodies: every body is non-empty and free of `00 00 01`, and every body but the
last does not end in `00`. -/
def UnitsOK : List (Bool × List Byte) → Prop
  | [] => True
  | [u] => u.2 ≠ [] ∧ containsTriple 0 0 1 u.2 = false
  | u :: v :: us =>
    u.2 ≠ [] ∧ containsTriple 0 0 1 u.2 = false ∧ u.2[u.2.length - 1]? ≠ some 0
      ∧ UnitsOK (v :: us)

/-- The bytes `mem[a], ..., mem[a + n - 1]`: what a `(pointer, size)` pair denotes. -/
def slice (mem : List Byte) (a n : Nat) : List Byte := (mem.drop a).take n

/-- De-escaping written on lists: a leading `00 00 03` becomes `00 00`, any other
byte is kept.  `rbspDecode` is proved below to compute this function. -/
def unescapeList : List Byte → List Byte
  | a :: b :: c :: rest =>
    if a = 0 ∧ b = 0 ∧ c = 3 then 0 :: 0 :: unescapeList rest
    else a :: unescapeList (b :: c :: rest)
  | l => l

/-- Specification side of the round trip, written from the words of the claim: the
emulation-prevention encoder.  It copies the bytes left to right and, `zeros` being
the number of consecutive `0x00` bytes emitted since the start, the last other byte
or the last inserted byte, inserts `0x03` after the second one. -/
def escapeFrom : Nat → List Byte → List Byte
  | _, [] => []
  | zeros, b :: rest =>
    if b = 0 then
      if zeros + 1 = 2 then b :: 3 :: escapeFrom 0 rest
      else b :: escapeFrom (zeros + 1) rest
    else b :: escapeFrom 0 rest

/-- Specification side of the round trip: emulation-prevention encoding of a byte
sequence, the zero count starting at 0. -/
def escape (s : List Byte) : List Byte := escapeFrom 0 s

/-- Big-endian unsigned 32-bit value of the first four bytes of a list. -/
def beU32 (p : List Byte) : Nat :=
  (p.getD 0 0).val * 2 ^ 24 + (p.getD 1 0).val * 2 ^ 16 + (p.getD 2 0).val * 2 ^ 8
    + (p.getD 3 0).val

/-- The records of type TimeCode of an output sequence, in order. -/
def timeCodes (out : List SEIEntry) : List SEIEntry :=
  out.filter fun e => decide (e.type = SEI_TYPE_TIME_CODE)

/-- Sum of the lengths of a list of `(offset, length)` pairs. -/
def sumLengths (units : List (Nat × Nat)) : Nat := (units.map Prod.snd).sum

/-- `WellNumbered c new c'`: the records `new` can be appended while the timecode
counter goes from `c` to `c'`.  Each record is either a UserDataUnregistered record
with at least 16 payload bytes whose frame number is the big-endian value of the
first four, or a TimeCode record that carries the current counter value, after
which the counter is incremented as a `uint32_t`. -/
def WellNumbered : Nat → List SEIEntry → Nat → Prop
  | c, [], c' => c' = c
  | c, e :: rest, c' =>
    (e.type = SEI_TYPE_USER_DATA_UNREGISTERED ∧ 16 ≤ e.payload.length
        ∧ e.frameNumber = beU32 e.payload ∧ WellNumbered c rest c')
      ∨ (e.type = SEI_TYPE_TIME_CODE ∧ e.frameNumber = c
        ∧ WellNumbered ((c + 1) % UINT32_MOD) rest c')

/-- A stream of two SEI units used to instantiate the statements: a prefix
unit with an empty TimeCode message, a UserDataUnregistered message of 16 bytes, a
TimeCode message of one byte and the `0x80` trailer, then a suffix unit with an empty
TimeCode message and the trailer. -/
def exampleStream : List Byte :=
  [0, 0, 1, 0x4E, 1, 0x88, 0, 5, 16, 0, 0, 0, 0x2A, 1, 2, 3, 4, 5, 6, 7, 8, 9, 10, 11, 12,
    0x88, 1, 0x10, 0x80, 0, 0, 1, 0x50, 1, 0x88, 0, 0x80]

/-- The UserDataUnregistered record of `exampleStream`. -/
def exampleUserData : SEIEntry :=
  { type := 5, frameNumber := 42,
    payload := [0, 0, 0, 42, 1, 2, 3, 4, 5, 6, 7, 8, 9, 10, 11, 12],
    jsonPayload := "\x7b\x7d", timecodeString := "",
    rawBytes := "00 00 00 2a 01 02 03 04 05 06 07 08 09 0a 0b 0c " }

/-- The records `parse` returns for `exampleStream`. -/
def exampleRecords : List SEIEntry :=
  [{ type := 136, frameNumber := 0, payload := [], jsonPayload := "",
     timecodeString := "--:--:--:--", rawBytes := "" },
   exampleUserData,
   { type := 136, frameNumber := 1, payload := [16], jsonPayload := "",
     timecodeString := "00:00:00:00", rawBytes := "10 " },
   { type := 136, frameNumber := 2, payload := [], jsonPayload := "",
     timecodeString := "--:--:--:--", rawBytes := "" }]

/-- Bit `k` of a byte sequence, bits numbered from 0 with the most significant bit
of each byte first. -/
def bitAt (payload : List Byte) (k : Nat) : Nat :=
  ((payload.getD (k / 8) 0).val >>> (7 - k % 8)) &&& 1

/-- The unsigned integer whose binary numeral is bits `start, ..., start + len - 1`. -/
def bitField (payload : List Byte) (start len : Nat) : Nat :=
  (List.range' start len).foldl (fun v k => 2 * v + bitAt payload k) 0

/-- The reader over `data` whose cursor stands before bit `p`. -/
def readerAt (data : List Byte) (p : Nat) : BitReader :=
  { data := data, size := data.length, bytePos := p / 8, bitPos := p % 8 }

/-- The decimal numeral of `n`, left-padded with `'0'` to at least two characters. -/
def pad2 (n : Nat) : String :=
  String.mk (List.replicate (2 - (toString n).length) '0') ++ toString n

/-- The two decimal digits of a number below 100. -/
def decimalDigits2 (n : Nat) : List Char :=
  [Nat.digitChar (n / 10), Nat.digitChar (n % 10)]

/-- The three decimal digits of a number below 1000. -/
def decimalDigits3 (n : Nat) : List Char :=
  [Nat.digitChar (n / 100), Nat.digitChar (n / 10 % 10), Nat.digitChar (n % 10)]

/-- One lowercase hexadecimal digit. -/
def hexDigitLower (d : Nat) : Char :=
  if d < 10 then Char.ofNat (48 + d) else Char.ofNat (97 + (d - 10))

/-- The hex preview of a payload, capped at 32 bytes: for each of the first 32 bytes
two lowercase hexadecimal digits and a space, then `...` when there are more. -/
def hexPreview (payload : List Byte) : String :=
  String.mk (((payload.take 32).map fun b =>
      [hexDigitLower (b.val / 16), hexDigitLower (b.val % 16), ' ']).flatten
    ++ if payload.length > 32 then ['.', '.', '.'] else [])

/-- What the scanner guarantees of one `(offset, length)` pair: the body lies inside
the buffer behind the bytes `00 00 01`, and it ends at the end of the buffer or where
a start code begins. -/
def UnitWellPlaced (data : List Byte) (u : Nat × Nat) : Prop :=
  3 ≤ u.1 ∧ u.1 + u.2 ≤ data.length
    ∧ data[u.1 - 3]? = some 0 ∧ data[u.1 - 2]? = some 0 ∧ data[u.1 - 1]? = some 1
    ∧ (u.1 + u.2 = data.length ∨ scLen data (u.1 + u.2) ≠ 0)

/-- The type field `(first byte >> 1) & 0x3F` of the unit that begins at `offset`. -/
def nalTypeAt (data : List Byte) (offset : Nat) : Option Nat :=
  data[offset]?.map fun h0 => (h0.val >>> 1) &&& 0x3F

/-- The type filter: a unit of at least 2 bytes whose type field is 39 or 40. -/
def isSEIUnit (data : List Byte) (u : Nat × Nat) : Bool :=
  decide (2 ≤ u.2 ∧ (nalTypeAt data u.1 = some 39 ∨ nalTypeAt data u.1 = some 40))

/-- The records `parseSEINAL` produces for each unit of a list, each from an empty
output, concatenated in the order of the list, the parser being threaded through. -/
def extractUnits (data : List Byte) :
    List (Nat × Nat) → SEIParser → Except Fault (List SEIEntry × SEIParser)
  | [], self => .ok ([], self)
  | u :: rest, self =>
    match parseSEINAL self data u.1 u.2 [] with
    | .error e => .error e
    | .ok (recs, self1) =>
      match extractUnits data rest self1 with
      | .error e => .error e
      | .ok (more, self2) => .ok (recs ++ more, self2)

/-- An extractor result with `entries` put in front of its records. -/
def withEntries (entries : List SEIEntry) :
    Except Fault (List SEIEntry × SEIParser) → Except Fault (List SEIEntry × SEIParser)
  | .error e => .error e
  | .ok (recs, self) => .ok (entries ++ recs, self)

/-- The `0xFF` escape of a number: `v / 255` bytes `0xFF`, then the byte `v % 255`. -/
def escBytes (v : Nat) : List Byte :=
  List.replicate (v / 255) 0xFF ++ [⟨v % 255, by omega⟩]

/-- A stream of one SEI unit (`00 00 01`, header `4E 01`) whose only message has the
type byte `05`, a size escape of `n` bytes `0xFF` closed by `00`, and no payload. -/
def overflowUnit (n : Nat) : List Byte :=
  [0, 0, 1, 0x4E, 1, 5] ++ (List.replicate n 0xFF ++ [0])

/-- The stream `overflowUnit` with `2 ^ 24` escape bytes: 16777223 bytes, declaring a
payload of `255 * 2 ^ 24 = 4278190080` bytes at the very end of the buffer. -/
def overflowStream : List Byte := overflowUnit 16777216

/-- One SEI message as bytes: the type and the payload length, each with the `0xFF`
escape, then the raw payload. -/
def encodeMessage (t : Nat) (raw : List Byte) : List Byte :=
  escBytes t ++ (escBytes raw.length ++ raw)

/-- The bytes of a sequence of messages, each given by its type and raw payload. -/
def encodeMessages : List (Nat × List Byte) → List Byte
  | [] => []
  | m :: ms => encodeMessage m.1 m.2 ++ encodeMessages ms

/-- A list of bytes without one leading `0x80`, if it has one. -/
def dropAlign : List Byte → List Byte
  | b :: rest => if b = 0x80 then rest else b :: rest
  | [] => []

/-- An SEI NAL unit as bytes: a 2-byte header, the messages, and optionally one final
`0x80`. -/
def seiUnit (h0 h1 : Byte) (msgs : List (Nat × List Byte)) (trailing : Bool) : List Byte :=
  [h0, h1] ++ (encodeMessages msgs ++ if trailing then [0x80] else [])

/-- An escape result with its cursor moved up by `c`. -/
def shiftEscape (c : Nat) : Except Fault (Nat × Nat) → Except Fault (Nat × Nat)
  | .error e => .error e
  | .ok (v, p) => .ok (v, c + p)

/-- A message step with its cursor moved up by `c`. -/
def shiftStep (c : Nat) :
    Except Fault (Option (Nat × List SEIEntry × SEIParser)) →
      Except Fault (Option (Nat × List SEIEntry × SEIParser))
  | .error e => .error e
  | .ok none => .ok none
  | .ok (some (p, entries, self)) => .ok (some (c + p, entries, self))

end SEI

/-! # Properties -/

namespace SEI

/-! ## Memory access and machine arithmetic: basic facts -/

theorem readByte_of_lt {mem : List Byte} {a : Nat} (h : a < mem.length) :
    readByte mem a = .ok mem[a] := by
  simp [readByte, List.getElem?_eq_getElem h]

theorem readByte_of_ge {mem : List Byte} {a : Nat} (h : mem.length ≤ a) :
    readByte mem a = .error .outOfBounds := by
  simp [readByte, List.getElem?_eq_none h]

theorem readByte_eq_ok {mem : List Byte} {a : Nat} {b : Byte} :
    readByte mem a = .ok b ↔ mem[a]? = some b := by
  unfold readByte
  cases h : mem[a]? <;> simp

theorem readByte_ok_lt {mem : List Byte} {a : Nat} {b : Byte} (h : readByte mem a = .ok b) :
    a < mem.length := by
  rw [readByte_eq_ok] at h
  exact (List.getElem?_eq_some_iff.mp h).1

theorem subSize_eq {a b : Nat} (hb : b ≤ a) : subSize a b = a - b := by
  unfold subSize
  rw [if_pos hb]

theorem subSize_eq_mod {a b : Nat} (ha : a < SIZE_T_MOD) (hb : b < SIZE_T_MOD) :
    subSize a b = (a + SIZE_T_MOD - b) % SIZE_T_MOD := by
  unfold subSize
  unfold SIZE_T_MOD at *
  split <;> omega

theorem lt_subSize_three_of_short {n i : Nat} (hn : n < 3) (hi : i < 3) :
    i < subSize n 3 := by
  unfold subSize SIZE_T_MOD
  rw [if_neg (by omega)]
  omega

/-! ## Scanner -/

theorem startCodeLenAt_eq {data : List Byte} {i : Nat} (h : i + 2 < data.length) :
    startCodeLenAt data i = .ok (scLen data i) := by
  have h0 : i < data.length := by omega
  have h1 : i + 1 < data.length := by omega
  unfold startCodeLenAt scLen
  rw [readByte_of_lt h0, readByte_of_lt h1, readByte_of_lt h]
  simp only [List.getElem?_eq_getElem h0, List.getElem?_eq_getElem h1,
    List.getElem?_eq_getElem h, Option.some.injEq]
  by_cases c0 : data[i] = 0
  · by_cases c1 : data[i + 1] = 0
    · by_cases c2 : data[i + 2] = 1
      · simp [c0, c1, c2]
      · by_cases h3 : i + 3 < data.length
        · rw [readByte_of_lt h3]
          simp only [List.getElem?_eq_getElem h3, Option.some.injEq]
          by_cases c3 : data[i + 2] = 0 <;> by_cases c4 : data[i + 3] = 1 <;>
            simp [c0, c1, c2, c3, c4, h3]
        · have : data[i + 3]? = none := List.getElem?_eq_none (by omega)
          simp [c0, c1, c2, h3, this]
    · simp [c0, c1]
  · simp [c0]


theorem findNextStart_found {data : List Byte}
    {e : Nat} (he : e + 3 < data.length) (hsc : scLen data e ≠ 0) :
    ∀ (fuel j : Nat), j ≤ e → e - j < fuel → (∀ k, j ≤ k → k < e → scLen data k = 0) →
      findNextStart data fuel j = .ok e := by
  have hb : subSize data.length 3 = data.length - 3 := subSize_eq (by omega)
  intro fuel
  induction fuel with
  | zero => intro j _ h; omega
  | succ fuel ih =>
    intro j hj hf hk
    rw [findNextStart, hb, if_pos (by omega), startCodeLenAt_eq (by omega)]
    by_cases hje : j = e
    · subst hje
      simp [hsc]
    · have hz := hk j (le_refl _) (by omega)
      simp only [hz, ne_eq, not_true_eq_false, if_false]
      exact ih (j + 1) (by omega) (by omega) (fun k h1 h2 => hk k (by omega) h2)

theorem findNextStart_none {data : List Byte}
    (h3 : 3 ≤ data.length) :
    ∀ (fuel j : Nat), data.length - 3 - j ≤ fuel →
      (∀ k, j ≤ k → k + 3 < data.length → scLen data k = 0) →
      findNextStart data fuel j = .ok data.length := by
  have hb : subSize data.length 3 = data.length - 3 := subSize_eq h3
  intro fuel
  induction fuel with
  | zero =>
    intro j hf _
    rw [findNextStart, hb, if_neg (by omega)]
  | succ fuel ih =>
    intro j hf hk
    rw [findNextStart, hb]
    by_cases hj : j < data.length - 3
    · rw [if_pos hj, startCodeLenAt_eq (by omega)]
      have hz := hk j (le_refl _) (by omega)
      simp only [hz, ne_eq, not_true_eq_false, if_false]
      exact ih (j + 1) (by omega) (fun k h1 h2 => hk k (by omega) h2)
    · rw [if_neg hj]

theorem findNALUnitsLoop_done {data : List Byte} {fuel i : Nat} {acc : List (Nat × Nat)}
    (h : ¬ i < subSize data.length 3) : findNALUnitsLoop data fuel i acc = .ok acc := by
  cases fuel <;> rw [findNALUnitsLoop, if_neg h]

theorem getElem?_append_add {α : Type} (pre l : List α) (q : Nat) :
    (pre ++ l)[pre.length + q]? = l[q]? := by
  rw [List.getElem?_append_right (by omega)]
  congr 1
  omega

theorem scLen_shift (pre l : List Byte) (q : Nat) :
    scLen (pre ++ l) (pre.length + q) = scLen l q := by
  unfold scLen
  have e1 : pre.length + q + 1 = pre.length + (q + 1) := by omega
  have e2 : pre.length + q + 2 = pre.length + (q + 2) := by omega
  have e3 : pre.length + q + 3 = pre.length + (q + 3) := by omega
  rw [e1, e2, e3]
  simp only [getElem?_append_add]

theorem scLen_startCode (long : Bool) (t : List Byte) :
    scLen (startCode long ++ t) 0 = (startCode long).length := by
  cases long <;> simp [scLen, startCode]

theorem scLen_ne_zero {data : List Byte} {q : Nat} (h : scLen data q ≠ 0) :
    data[q]? = some 0 ∧ data[q + 1]? = some 0 ∧
      (data[q + 2]? = some 1 ∨ (data[q + 2]? = some 0 ∧ data[q + 3]? = some 1)) := by
  unfold scLen at h
  by_cases c : data[q]? = some 0 ∧ data[q + 1]? = some 0
  · rw [if_pos c] at h
    refine ⟨c.1, c.2, ?_⟩
    by_cases c2 : data[q + 2]? = some 1
    · exact Or.inl c2
    · rw [if_neg c2] at h
      by_cases c3 : data[q + 2]? = some 0 ∧ data[q + 3]? = some 1
      · exact Or.inr c3
      · rw [if_neg c3] at h
        exact absurd rfl h
  · rw [if_neg c] at h
    exact absurd rfl h

theorem containsTriple_false {a b c : Byte} :
    ∀ (l : List Byte), containsTriple a b c l = false →
      ∀ q, ¬ (l[q]? = some a ∧ l[q + 1]? = some b ∧ l[q + 2]? = some c) := by
  intro l
  induction l with
  | nil => intro _ q h; simp at h
  | cons x t ih =>
    intro h q hq
    match t, ih, h, hq with
    | [], _, _, hq => simp at hq
    | [y], _, _, hq => simp at hq
    | y :: z :: rest, ih, h, hq =>
      simp only [containsTriple, Bool.or_eq_false_iff] at h
      cases q with
      | zero =>
        simp only [List.getElem?_cons_zero, Nat.zero_add, List.getElem?_cons_succ,
          Option.some.injEq] at hq
        simp [hq.1, hq.2.1, hq.2.2] at h
      | succ q =>
        obtain ⟨a0, a1, a2⟩ := hq
        have e2 : q + 1 + 2 = (q + 2) + 1 := by omega
        rw [List.getElem?_cons_succ] at a0 a1
        rw [e2, List.getElem?_cons_succ] at a2
        exact ih h.2 q ⟨a0, a1, a2⟩

theorem scLen_append_body {body rest : List Byte}
    (hno : containsTriple 0 0 1 body = false)
    (hlast : rest = [] ∨ body[body.length - 1]? ≠ some 0) {q : Nat} (hq : q < body.length) :
    scLen (body ++ rest) q = 0 := by
  have hno := containsTriple_false body hno
  by_contra hne
  obtain ⟨h0, h1, h2⟩ := scLen_ne_zero hne
  rcases hlast with hr | hl
  · subst hr
    simp only [List.append_nil] at h0 h1 h2
    rcases h2 with h2 | ⟨h2, h3⟩
    · exact hno q ⟨h0, h1, h2⟩
    · exact hno (q + 1) ⟨h1, h2, h3⟩
  · have hin : ∀ t, t < body.length → (body ++ rest)[t]? = body[t]? :=
      fun t ht => List.getElem?_append_left ht
    rw [hin q hq] at h0
    by_cases c1 : q + 1 < body.length
    · rw [hin _ c1] at h1
      by_cases c2 : q + 2 < body.length
      · rcases h2 with h2 | ⟨h2, h3⟩
        · rw [hin _ c2] at h2
          exact hno q ⟨h0, h1, h2⟩
        · rw [hin _ c2] at h2
          by_cases c3 : q + 3 < body.length
          · rw [hin _ c3] at h3
            exact hno (q + 1) ⟨h1, h2, h3⟩
          · have : body.length - 1 = q + 2 := by omega
            rw [this] at hl
            exact hl h2
      · have : body.length - 1 = q + 1 := by omega
        rw [this] at hl
        exact hl h1
    · have : body.length - 1 = q := by omega
      rw [this] at hl
      exact hl h0


theorem startCode_length (long : Bool) :
    3 ≤ (startCode long).length ∧ (startCode long).length ≤ 4 := by
  cases long <;> simp [startCode]

theorem scan_units : ∀ (us : List (Bool × List Byte)) (data pre : List Byte) (fuel : Nat)
    (acc : List (Nat × Nat)), us ≠ [] → UnitsOK us → data = pre ++ concatUnits us →
    (concatUnits us).length ≤ fuel →
    findNALUnitsLoop data fuel pre.length acc = .ok (acc ++ unitBounds pre.length us) := by
  intro us
  induction us with
  | nil => intro _ _ _ _ h; exact absurd rfl h
  | cons u us ih =>
    intro data pre fuel acc _ hok hdata hfuel
    obtain ⟨hsc3, hsc4⟩ := startCode_length u.1
    have hd1 : data = pre ++ (startCode u.1 ++ (u.2 ++ concatUnits us)) := by
      rw [hdata]; simp [concatUnits, List.append_assoc]
    have hd2 : data = (pre ++ startCode u.1) ++ (u.2 ++ concatUnits us) := by
      rw [hd1]; simp [List.append_assoc]
    have hd3 : data = (pre ++ startCode u.1 ++ u.2) ++ concatUnits us := by
      rw [hd1]; simp [List.append_assoc]
    have hbody : u.2 ≠ [] := by
      cases us with
      | nil => exact hok.1
      | cons v r => exact hok.1
    have hno : containsTriple 0 0 1 u.2 = false := by
      cases us with
      | nil => exact hok.2
      | cons v r => exact hok.2.1
    have hbl : 0 < u.2.length := List.length_pos.mpr hbody
    have hn : data.length
        = pre.length + (startCode u.1).length + u.2.length + (concatUnits us).length := by
      rw [hd1]; simp only [List.length_append]; omega
    have hcl : (concatUnits (u :: us)).length
        = (startCode u.1).length + u.2.length + (concatUnits us).length := by
      simp only [concatUnits, List.length_append]
    obtain ⟨f, rfl⟩ : ∃ f, fuel = f + 1 := ⟨fuel - 1, by omega⟩
    have hb : subSize data.length 3 = data.length - 3 := subSize_eq (by omega)
    have hsc : scLen data pre.length = (startCode u.1).length := by
      have := scLen_shift pre (startCode u.1 ++ (u.2 ++ concatUnits us)) 0
      rw [Nat.add_zero, ← hd1] at this
      rw [this, scLen_startCode]
    have hin : ∀ q, q < u.2.length → (us = [] ∨ u.2[u.2.length - 1]? ≠ some 0) →
        scLen data (pre.length + (startCode u.1).length + q) = 0 := by
      intro q hq hl
      have := scLen_shift (pre ++ startCode u.1) (u.2 ++ concatUnits us) q
      rw [List.length_append, ← hd2] at this
      rw [this]
      refine scLen_append_body hno ?_ hq
      rcases hl with hl | hl
      · left; rw [hl]; rfl
      · right; exact hl
    rw [findNALUnitsLoop, hb, if_pos (by omega), startCodeLenAt_eq (by omega), hsc]
    simp only [gt_iff_lt, show 0 < (startCode u.1).length from by omega, if_true]
    cases us with
    | nil =>
      have hT : (concatUnits ([] : List (Bool × List Byte))).length = 0 := rfl
      rw [hT] at hn
      rw [findNextStart_none (by omega) _ _ (by omega)]
      · simp only []
        rw [findNALUnitsLoop_done (by rw [hb]; omega)]
        have : subSize data.length (pre.length + (startCode u.1).length) = u.2.length := by
          rw [subSize_eq (by omega)]; omega
        rw [this]
        rfl
      · intro k hk1 hk2
        have := hin (k - (pre.length + (startCode u.1).length)) (by omega) (Or.inl rfl)
        rwa [show pre.length + (startCode u.1).length
          + (k - (pre.length + (startCode u.1).length)) = k from by omega] at this
    | cons v r =>
      obtain ⟨hv3, hv4⟩ := startCode_length v.1
      have hvbody : v.2 ≠ [] := by
        cases r with
        | nil => exact hok.2.2.2.1
        | cons w r2 => exact hok.2.2.2.1
      have hvl : 0 < v.2.length := List.length_pos.mpr hvbody
      have hcv : (concatUnits (v :: r)).length
          = (startCode v.1).length + v.2.length + (concatUnits r).length := by
        simp only [concatUnits, List.length_append]
      have hse : scLen data (pre.length + (startCode u.1).length + u.2.length)
          = (startCode v.1).length := by
        have := scLen_shift (pre ++ startCode u.1 ++ u.2) (concatUnits (v :: r)) 0
        rw [Nat.add_zero, ← hd3, List.length_append, List.length_append] at this
        rw [this]
        simp only [concatUnits, List.append_assoc]
        exact scLen_startCode v.1 _
      rw [findNextStart_found (e := pre.length + (startCode u.1).length + u.2.length)
        (by omega) (by rw [hse]; omega) _ _ (by omega) (by omega)]
      · simp only []
        have : subSize (pre.length + (startCode u.1).length + u.2.length)
            (pre.length + (startCode u.1).length) = u.2.length := by
          rw [subSize_eq (by omega)]; omega
        rw [this]
        have := ih data (pre ++ startCode u.1 ++ u.2) f
          (acc ++ [(pre.length + (startCode u.1).length, u.2.length)]) (by simp) hok.2.2.2
          hd3 (by omega)
        rw [List.length_append, List.length_append] at this
        rw [this]
        simp [unitBounds, List.append_assoc]
      · intro k hk1 hk2
        have := hin (k - (pre.length + (startCode u.1).length)) (by omega) (Or.inr hok.2.2.1)
        rwa [show pre.length + (startCode u.1).length
          + (k - (pre.length + (startCode u.1).length)) = k from by omega] at this


theorem unitsOK_of_forall : ∀ (us : List (Bool × List Byte)),
    (∀ u ∈ us, u.2 ≠ [] ∧ containsTriple 0 0 1 u.2 = false ∧ u.2.getLast? ≠ some 0) →
    UnitsOK us := by
  intro us
  induction us with
  | nil => intro _; trivial
  | cons u us ih =>
    intro h
    have hu := h u (List.mem_cons_self _ _)
    have hrest := ih (fun w hw => h w (List.mem_cons_of_mem _ hw))
    cases us with
    | nil => exact ⟨hu.1, hu.2.1⟩
    | cons v r =>
      refine ⟨hu.1, hu.2.1, ?_, hrest⟩
      rw [← List.getLast?_eq_getElem?]
      exact hu.2.2

theorem unitBounds_slices : ∀ (us : List (Bool × List Byte)) (pre : List Byte),
    List.Forall₂ (fun (p : Nat × Nat) (u : Bool × List Byte) =>
      ((pre ++ concatUnits us).drop p.1).take p.2 = u.2) (unitBounds pre.length us) us := by
  intro us
  induction us with
  | nil => intro _; exact List.Forall₂.nil
  | cons u us ih =>
    intro pre
    refine List.Forall₂.cons ?_ ?_
    · have : pre ++ concatUnits (u :: us)
          = (pre ++ startCode u.1) ++ (u.2 ++ concatUnits us) := by
        simp [concatUnits, List.append_assoc]
      rw [this, ← List.length_append, List.drop_left, List.take_left]
    · have := ih (pre ++ startCode u.1 ++ u.2)
      have e : pre ++ startCode u.1 ++ u.2 ++ concatUnits us = pre ++ concatUnits (u :: us) := by
        simp [concatUnits, List.append_assoc]
      rw [e, List.length_append, List.length_append] at this
      exact this

/-- C4. For a buffer that is a concatenation of at least one unit, each a 3-byte or
4-byte start code followed by a non-empty body that contains no `00 00 01` triple and
does not end in `0x00`, `findNALUnits` returns exactly one `(offset, length)` pair per
unit, in order, and the pair of a unit delimits exactly the body of that unit. -/
theorem findNALUnits_concatUnits (us : List (Bool × List Byte)) (hne : us ≠ [])
    (hbody : ∀ u ∈ us, u.2 ≠ [] ∧ containsTriple 0 0 1 u.2 = false ∧ u.2.getLast? ≠ some 0) :
    findNALUnits (concatUnits us) = .ok (unitBounds 0 us) ∧
      List.Forall₂ (fun (p : Nat × Nat) (u : Bool × List Byte) =>
        ((concatUnits us).drop p.1).take p.2 = u.2) (unitBounds 0 us) us := by
  constructor
  · have := scan_units us (concatUnits us) [] ((concatUnits us).length + 1) [] hne
      (unitsOK_of_forall us hbody) rfl (by omega)
    simpa [findNALUnits] using this
  · simpa using unitBounds_slices us []

theorem findNALUnits_concatUnits_witness :
    findNALUnits (concatUnits [(false, [0x4E, 0, 0, 2]), (true, [0x26, 0x01])])
        = .ok (unitBounds 0 [(false, [0x4E, 0, 0, 2]), (true, [0x26, 0x01])]) ∧
      List.Forall₂ (fun (p : Nat × Nat) (u : Bool × List Byte) =>
        ((concatUnits [(false, [0x4E, 0, 0, 2]), (true, [0x26, 0x01])]).drop p.1).take p.2
          = u.2)
        (unitBounds 0 [(false, [0x4E, 0, 0, 2]), (true, [0x26, 0x01])])
        [(false, [0x4E, 0, 0, 2]), (true, [0x26, 0x01])] :=
  findNALUnits_concatUnits [(false, [0x4E, 0, 0, 2]), (true, [0x26, 0x01])] (by decide)
    (by decide)


/-! ## RBSP de-escaper -/

theorem slice_zero (mem : List Byte) (a : Nat) : slice mem a 0 = [] := by
  simp [slice]

theorem slice_succ {mem : List Byte} {a : Nat} (h : a < mem.length) (n : Nat) :
    slice mem a (n + 1) = mem[a] :: slice mem (a + 1) n := by
  unfold slice
  rw [List.drop_eq_getElem_cons h, List.take_succ_cons]

theorem slice_length {mem : List Byte} {a n : Nat} (h : a + n ≤ mem.length) :
    (slice mem a n).length = n := by
  simp [slice]
  omega

theorem unescapeList_short {l : List Byte} (h : l.length < 3) : unescapeList l = l := by
  match l, h with
  | [], _ => rfl
  | [_], _ => rfl
  | [_, _], _ => rfl

theorem emulationAt_eq {mem : List Byte} {data size i : Nat} (hin : data + size ≤ mem.length)
    (h : i + 2 < size) :
    emulationAt mem data size i = .ok (decide (mem[data + i]? = some 0
      ∧ mem[data + (i + 1)]? = some 0 ∧ mem[data + (i + 2)]? = some 3)) := by
  have h0 : data + i < mem.length := by omega
  have h1 : data + (i + 1) < mem.length := by omega
  have h2 : data + (i + 2) < mem.length := by omega
  unfold emulationAt
  rw [if_pos h, readByte_of_lt h0, readByte_of_lt h1, readByte_of_lt h2]
  simp only [List.getElem?_eq_getElem h0, List.getElem?_eq_getElem h1,
    List.getElem?_eq_getElem h2, Option.some.injEq]
  by_cases c0 : mem[data + i] = 0 <;> by_cases c1 : mem[data + (i + 1)] = 0 <;>
    simp [c0, c1]

theorem rbspDecodeLoop_eq {mem : List Byte} {data size : Nat} (hin : data + size ≤ mem.length) :
    ∀ (fuel i : Nat) (decoded : List Byte), i ≤ size → size - i ≤ fuel →
      rbspDecodeLoop mem data size fuel i decoded
        = .ok (decoded ++ unescapeList (slice mem (data + i) (size - i))) := by
  intro fuel
  induction fuel with
  | zero =>
    intro i decoded hi hf
    have : size - i = 0 := by omega
    rw [rbspDecodeLoop, if_neg (by omega), this, slice_zero]
    simp [unescapeList]
  | succ fuel ih =>
    intro i decoded hi hf
    rw [rbspDecodeLoop]
    by_cases hlt : i < size
    · rw [if_pos hlt]
      have h0 : data + i < mem.length := by omega
      by_cases h2 : i + 2 < size
      · have h1' : data + (i + 1) < mem.length := by omega
        have h2' : data + (i + 2) < mem.length := by omega
        have hs : slice mem (data + i) (size - i)
            = mem[data + i] :: mem[data + (i + 1)] :: mem[data + (i + 2)]
              :: slice mem (data + (i + 3)) (size - (i + 3)) := by
          rw [show size - i = (size - (i + 3)) + 1 + 1 + 1 from by omega, slice_succ h0,
            slice_succ (show data + i + 1 < mem.length from by omega),
            slice_succ (show data + i + 1 + 1 < mem.length from by omega)]
          rfl
        rw [emulationAt_eq hin h2, readByte_of_lt h0, hs]
        simp only [List.getElem?_eq_getElem h0, List.getElem?_eq_getElem h1',
          List.getElem?_eq_getElem h2', Option.some.injEq]
        by_cases c : mem[data + i] = 0 ∧ mem[data + (i + 1)] = 0 ∧ mem[data + (i + 2)] = 3
        · simp only [c, and_self, decide_True]
          rw [readByte_of_lt h1']
          simp only []
          rw [ih (i + 3) _ (by omega) (by omega)]
          simp [unescapeList, c.1, c.2.1]
        · simp only [c, decide_False]
          rw [ih (i + 1) _ (by omega) (by omega)]
          have hs1 : slice mem (data + (i + 1)) (size - (i + 1))
              = mem[data + (i + 1)] :: mem[data + (i + 2)]
                :: slice mem (data + (i + 3)) (size - (i + 3)) := by
            rw [show size - (i + 1) = (size - (i + 3)) + 1 + 1 from by omega, slice_succ h1',
              slice_succ (show data + (i + 1) + 1 < mem.length from by omega)]
            rfl
          rw [hs1]
          simp [unescapeList, c]
      · have he : emulationAt mem data size i = .ok false := by
          unfold emulationAt
          rw [if_neg h2]
        rw [he, readByte_of_lt h0]
        simp only []
        rw [ih (i + 1) _ (by omega) (by omega)]
        have hs : slice mem (data + i) (size - i)
            = mem[data + i] :: slice mem (data + (i + 1)) (size - (i + 1)) := by
          rw [show size - i = (size - (i + 1)) + 1 from by omega, slice_succ h0]
          rfl
        rw [hs, unescapeList_short (l := mem[data + i] :: _)
          (by simp only [List.length_cons]; rw [slice_length (by omega)]; omega),
          unescapeList_short (by rw [slice_length (by omega)]; omega)]
        simp
    · have : size - i = 0 := by omega
      rw [if_neg hlt, this, slice_zero]
      simp [unescapeList]

theorem rbspDecode_eq {mem : List Byte} {data size : Nat} (hin : data + size ≤ mem.length) :
    rbspDecode mem data size = .ok (unescapeList (slice mem data size)) := by
  unfold rbspDecode
  rw [rbspDecodeLoop_eq hin size 0 [] (by omega) (by omega)]
  simp


theorem unescapeList_cons_ne {a : Byte} (ha : a ≠ 0) (l : List Byte) :
    unescapeList (a :: l) = a :: unescapeList l := by
  match l with
  | [] => rfl
  | [_] => rfl
  | b :: c :: rest => simp [unescapeList, ha]

theorem unescapeList_cons_cons_ne (a : Byte) {b : Byte} (hb : b ≠ 0) (l : List Byte) :
    unescapeList (a :: b :: l) = a :: unescapeList (b :: l) := by
  match l with
  | [] => rfl
  | c :: rest => simp [unescapeList, hb]

theorem unescapeList_escapeFrom : ∀ (s : List Byte),
    unescapeList (escapeFrom 0 s) = s ∧ unescapeList (0 :: escapeFrom 1 s) = 0 :: s := by
  intro s
  induction s with
  | nil => exact ⟨rfl, rfl⟩
  | cons b r ih =>
    by_cases hb : b = 0
    · subst hb
      refine ⟨?_, ?_⟩
      · simpa [escapeFrom] using ih.2
      · simp [escapeFrom, unescapeList, ih.1]
    · refine ⟨?_, ?_⟩
      · simp only [escapeFrom, if_neg hb]
        rw [unescapeList_cons_ne hb, ih.1]
      · simp only [escapeFrom, if_neg hb]
        rw [unescapeList_cons_cons_ne 0 hb, unescapeList_cons_ne hb, ih.1]

/-- C5. RBSP round trip: for every byte sequence `s`, de-escaping the
emulation-prevention encoding of `s` (a `0x03` inserted after every two consecutive
`0x00` bytes emitted) returns `s` itself. -/
theorem rbspDecode_escape (s : List Byte) :
    rbspDecode (escape s) 0 (escape s).length = .ok s := by
  rw [rbspDecode_eq (by omega)]
  simp [slice, escape, (unescapeList_escapeFrom s).1]


/-! ## Message extractor -/

theorem mod_uint32 {x : Nat} (h : x < 2 ^ 32) : x % UINT32_MOD = x := by
  unfold UINT32_MOD
  exact Nat.mod_eq_of_lt h

theorem mod_size {x : Nat} (h : x < SIZE_T_MOD) : x % SIZE_T_MOD = x :=
  Nat.mod_eq_of_lt h

theorem readEscape_stop {mem : List Byte} {seiData seiSize pos : Nat} {b : Byte}
    (hpos : pos < seiSize) (hb : mem[seiData + pos]? = some b) (hne : b ≠ 0xFF)
    (fuel value : Nat) :
    readEscape mem seiData seiSize (fuel + 1) value pos = .ok (value, pos) := by
  rw [readEscape, if_pos hpos, readByte_eq_ok.mpr hb]
  simp only [hne, if_false]

theorem seiMessage_simple {self self1 : SEIParser} {mem : List Byte}
    {seiData seiSize pos : Nat} {entries entries1 : List SEIEntry} {t s : Byte}
    {dec : List Byte}
    (ht : mem[seiData + pos]? = some t) (ht' : t ≠ 0xFF)
    (hs : mem[seiData + (pos + 1)]? = some s) (hs' : s ≠ 0xFF)
    (hfit : pos + 2 + s.val ≤ seiSize) (hsz : seiSize < SIZE_T_MOD)
    (hmem : seiData + seiSize ≤ mem.length)
    (hdec : rbspDecode mem (seiData + (pos + 2)) s.val = .ok dec)
    (hdisp : dispatchPayload self t.val dec entries = .ok (entries1, self1)) :
    seiMessage self mem seiData seiSize pos entries =
      .ok (some (if pos + 2 + s.val < seiSize ∧ mem[seiData + (pos + 2 + s.val)]? = some 0x80
        then pos + 2 + s.val + 1 else pos + 2 + s.val, entries1, self1)) := by
  have htv : (0 + t.val) % UINT32_MOD = t.val := by
    rw [Nat.zero_add]; exact mod_uint32 (by omega)
  have hsv : (0 + s.val) % UINT32_MOD = s.val := by
    rw [Nat.zero_add]; exact mod_uint32 (by omega)
  have hp4 : (pos + 1 + 1 + s.val) % SIZE_T_MOD = pos + 2 + s.val := by
    rw [mod_size (by omega)]
  unfold seiMessage
  rw [readEscape_stop (by omega) ht ht']
  simp only []
  rw [if_neg (by omega), readByte_eq_ok.mpr ht]
  simp only []
  rw [readEscape_stop (by omega) hs hs']
  simp only []
  rw [if_neg (by omega), readByte_eq_ok.mpr hs]
  simp only [htv, hsv, hp4]
  rw [if_neg (by omega), show pos + 1 + 1 = pos + 2 from rfl, hdec]
  simp only [hdisp]
  by_cases hlt : pos + 2 + s.val < seiSize
  · rw [if_pos hlt]
    have hin : seiData + (pos + 2 + s.val) < mem.length := by omega
    rw [readByte_of_lt hin]
    simp only [List.getElem?_eq_getElem hin, Option.some.injEq, hlt, true_and]
    by_cases hab : mem[seiData + (pos + 2 + s.val)] = 0x80
    · rw [if_pos hab, if_pos hab]
    · rw [if_neg hab, if_neg hab]
  · rw [if_neg hlt, if_neg (fun h => hlt h.1)]


theorem shl_or {a b i : Nat} (h : b < 2 ^ i) : a <<< i ||| b = a * 2 ^ i + b := by
  rw [Nat.shiftLeft_eq, Nat.mul_comm, ← Nat.mul_add_lt_is_or h]

theorem be_or_eq (a b c d : Byte) :
    ((a.val <<< 24) ||| (b.val <<< 16) ||| (c.val <<< 8) ||| d.val) % UINT32_MOD
      = a.val * 2 ^ 24 + b.val * 2 ^ 16 + c.val * 2 ^ 8 + d.val := by
  have ha := a.isLt
  have hb := b.isLt
  have hc := c.isLt
  have hd := d.isLt
  rw [Nat.or_assoc, Nat.or_assoc, shl_or (show d.val < 2 ^ 8 from by omega),
    shl_or (show c.val * 2 ^ 8 + d.val < 2 ^ 16 from by omega),
    shl_or (show b.val * 2 ^ 16 + (c.val * 2 ^ 8 + d.val) < 2 ^ 24 from by omega),
    mod_uint32 (by omega)]
  omega

theorem frameNumberFromUUID_eq {uuid : List Byte} (h : 4 ≤ uuid.length) :
    frameNumberFromUUID uuid = .ok (beU32 uuid) := by
  match uuid, h with
  | a :: b :: c :: d :: rest, _ =>
    simp only [frameNumberFromUUID, readByte, List.getElem?_cons_zero, List.getElem?_cons_succ,
      beU32, List.getD_cons_zero, List.getD_cons_succ]
    rw [be_or_eq]

theorem dispatchPayload_user_data {self : SEIParser} {dec : List Byte}
    (entries : List SEIEntry) (h : 16 ≤ dec.length) :
    dispatchPayload self 5 dec entries
      = .ok (entries ++ [parseUserDataUnregistered dec (beU32 dec)], self) := by
  unfold dispatchPayload
  rw [if_pos (by rfl), if_pos (by omega), frameNumberFromUUID_eq (by omega)]

theorem dispatchPayload_user_data_short {self : SEIParser} {dec : List Byte}
    (entries : List SEIEntry) (h : dec.length < 16) :
    dispatchPayload self 5 dec entries = .ok (entries, self) := by
  unfold dispatchPayload
  rw [if_pos (by rfl), if_neg (by omega)]

theorem parseUserDataUnregistered_full {payload : List Byte} (frameNumber : Nat)
    (h : 16 ≤ payload.length) :
    parseUserDataUnregistered payload frameNumber =
      { type := 5, frameNumber := frameNumber, payload := payload,
        jsonPayload := if payload.length = 16 then "\x7b\x7d" else bytesToText (payload.drop 16),
        timecodeString := "", rawBytes := bytesToHex payload } := by
  unfold parseUserDataUnregistered
  rw [if_neg (by omega)]
  by_cases h16 : payload.length = 16
  · simp [h16, SEI_TYPE_USER_DATA_UNREGISTERED]
  · have : payload.length - 16 > 0 := by omega
    simp [h16, this, SEI_TYPE_USER_DATA_UNREGISTERED]

theorem parseSEILoop_done {mem : List Byte} {seiData seiSize fuel pos : Nat}
    {entries : List SEIEntry} {self : SEIParser} (h : ¬ pos < seiSize) :
    parseSEILoop mem seiData seiSize fuel pos entries self = .ok (entries, self) := by
  cases fuel <;> rw [parseSEILoop, if_neg h]

theorem slice_append_right (pre l : List Byte) : slice (pre ++ l) pre.length l.length = l := by
  simp [slice]

theorem slice_append_mid (pre l post : List Byte) :
    slice (pre ++ (l ++ post)) pre.length l.length = l := by
  simp [slice]

theorem unescapeList_of_clean : ∀ (l : List Byte), containsTriple 0 0 3 l = false →
    unescapeList l = l := by
  intro l
  induction l with
  | nil => intro _; rfl
  | cons a t ih =>
    intro h
    match t, ih, h with
    | [], _, _ => rfl
    | [_], _, _ => rfl
    | b :: c :: rest, ih, h =>
      simp only [containsTriple, Bool.or_eq_false_iff] at h
      have hne : ¬ (a = 0 ∧ b = 0 ∧ c = 3) := by
        intro hh
        simp [hh.1, hh.2.1, hh.2.2] at h
      simp only [unescapeList, if_neg hne]
      rw [ih h.2]


theorem parse_eq_parseUnits {self : SEIParser} {data : List Byte} {units : List (Nat × Nat)}
    (h : findNALUnits data = .ok units) :
    parse self data = parseUnits data units { sequentialFrameCounter := 0 } [] := by
  simp only [parse, h]


theorem findNALUnits_single_unit (long : Bool) {body : List Byte}
    (hbody : body ≠ []) (hno : containsTriple 0 0 1 body = false) :
    findNALUnits (startCode long ++ body) = .ok [((startCode long).length, body.length)] := by
  have hd : startCode long ++ body = [] ++ concatUnits [(long, body)] := by
    simp only [concatUnits, List.append_nil, List.nil_append]
  have hok : UnitsOK [(long, body)] := ⟨hbody, hno⟩
  have hf : (concatUnits [(long, body)]).length ≤ (startCode long ++ body).length + 1 := by
    simp only [concatUnits, List.append_nil]; omega
  have := scan_units [(long, body)] (startCode long ++ body) []
    ((startCode long ++ body).length + 1) [] (List.cons_ne_nil _ _) hok hd hf
  simpa [findNALUnits, unitBounds] using this

theorem parseUnits_single_sei {self : SEIParser} {data : List Byte} {offset size : Nat}
    {h0 : Byte} (entries : List SEIEntry) (hsize : 2 ≤ size)
    (hread : data[offset]? = some h0)
    (htype : (h0.val >>> 1) &&& 0x3F = 39 ∨ (h0.val >>> 1) &&& 0x3F = 40) :
    parseUnits data [(offset, size)] self entries = parseSEINAL self data offset size entries := by
  rw [parseUnits, if_neg (by omega), readByte_eq_ok.mpr hread]
  simp only [HEVC_NAL_SEI_PREFIX, HEVC_NAL_SEI_SUFFIX, htype, if_true]
  cases h : parseSEINAL self data offset size entries with
  | error e => rfl
  | ok r =>
    obtain ⟨e1, s1⟩ := r
    simp only [parseUnits]

theorem parseSEINAL_single_message {self self1 : SEIParser} {mem : List Byte}
    {nalData nalSize : Nat} {entries entries1 : List SEIEntry} (hsize : 3 ≤ nalSize)
    (hmsg : seiMessage self mem (nalData + 2) (nalSize - 2) 0 entries
      = .ok (some (nalSize - 2, entries1, self1))) :
    parseSEINAL self mem nalData nalSize entries = .ok (entries1, self1) := by
  unfold parseSEINAL
  rw [if_neg (by omega)]
  obtain ⟨f, hf⟩ : ∃ f, nalSize - 2 = f + 1 := ⟨nalSize - 3, by omega⟩
  rw [hf] at hmsg ⊢
  rw [parseSEILoop, if_pos (by omega), hmsg]
  simp only []
  rw [parseSEILoop_done (by omega)]


theorem parse_single_message_unit (self : SEIParser) (long : Bool) (h0 h1 t n : Byte)
    (R : List Byte) {entries1 : List SEIEntry} {self1 : SEIParser}
    (htype : (h0.val >>> 1) &&& 0x3F = 39 ∨ (h0.val >>> 1) &&& 0x3F = 40)
    (hn : n.val = R.length) (htff : t ≠ 0xFF) (hnff : n ≠ 0xFF)
    (hbody : containsTriple 0 0 1 (h0 :: h1 :: t :: n :: R) = false)
    (hdisp : dispatchPayload { sequentialFrameCounter := 0 } t.val (unescapeList R) []
      = .ok (entries1, self1)) :
    parse self (startCode long ++ (h0 :: h1 :: t :: n :: R)) = .ok (entries1, self1) := by
  obtain ⟨hsc3, hsc4⟩ := startCode_length long
  have hn255 : R.length < 256 := by rw [← hn]; exact n.isLt
  have hdata2 : startCode long ++ (h0 :: h1 :: t :: n :: R)
      = (startCode long ++ [h0, h1, t, n]) ++ R := by simp
  rw [parse_eq_parseUnits (findNALUnits_single_unit long (List.cons_ne_nil _ _) hbody)]
  have hget : ∀ q, (startCode long ++ (h0 :: h1 :: t :: n :: R))[(startCode long).length + q]?
      = (h0 :: h1 :: t :: n :: R)[q]? := fun q => getElem?_append_add _ _ q
  have hlen : (startCode long ++ (h0 :: h1 :: t :: n :: R)).length
      = (startCode long).length + 4 + R.length := by
    simp only [List.length_append, List.length_cons]; omega
  rw [parseUnits_single_sei [] (by simp only [List.length_cons]; omega)
    (by have := hget 0; simpa using this) htype]
  refine parseSEINAL_single_message (by simp only [List.length_cons]; omega) ?_
  have hdec : rbspDecode (startCode long ++ (h0 :: h1 :: t :: n :: R))
      ((startCode long).length + 2 + (0 + 2)) n.val = .ok (unescapeList R) := by
    rw [rbspDecode_eq (by rw [hlen]; omega), hdata2, hn]
    have := slice_append_right (startCode long ++ [h0, h1, t, n]) R
    simp only [List.length_append, List.length_cons, List.length_nil] at this
    rw [show (startCode long).length + 2 + (0 + 2) = (startCode long).length + (0 + 1 + 1 + 1 + 1)
      from by omega, this]
  have hmsg := @seiMessage_simple { sequentialFrameCounter := 0 } _
    (startCode long ++ (h0 :: h1 :: t :: n :: R))
    ((startCode long).length + 2) ((h0 :: h1 :: t :: n :: R).length - 2)
    0 [] _ t n _
    (by rw [show (startCode long).length + 2 + 0 = (startCode long).length + 2 from rfl, hget]; simp)
    htff
    (by rw [show (startCode long).length + 2 + (0 + 1) = (startCode long).length + 3 from rfl,
      hget]; simp)
    hnff (by simp only [List.length_cons]; omega)
    (by simp only [List.length_cons]; unfold SIZE_T_MOD; omega)
    (by rw [hlen]; simp only [List.length_cons]; omega)
    hdec hdisp
  rw [hmsg, if_neg (by simp only [List.length_cons]; omega)]
  simp only [List.length_cons, List.nil_append]
  rw [show 0 + 2 + n.val = R.length + 1 + 1 + 1 + 1 - 2 from by omega]

theorem parse_single_user_data_raw (self : SEIParser) (long : Bool) (h0 h1 n : Byte)
    (R : List Byte)
    (htype : (h0.val >>> 1) &&& 0x3F = 39 ∨ (h0.val >>> 1) &&& 0x3F = 40)
    (hn : n.val = R.length) (hnff : n ≠ 0xFF)
    (hbody : containsTriple 0 0 1 (h0 :: h1 :: 5 :: n :: R) = false)
    (h16 : 16 ≤ (unescapeList R).length) :
    parse self (startCode long ++ (h0 :: h1 :: 5 :: n :: R)) =
      .ok ([parseUserDataUnregistered (unescapeList R) (beU32 (unescapeList R))],
        { sequentialFrameCounter := 0 }) :=
  parse_single_message_unit self long h0 h1 5 n R htype hn (by decide) hnff hbody
    (dispatchPayload_user_data [] h16)

/-- Counterexample to C2 as stated: with the UUID prefix written raw as `00 00 00 01`
the scanner ends the SEI unit in front of it, and `parse` returns no record. -/
theorem parse_raw_uuid_prefix_splits :
    parse ⟨0⟩ (startCode false ++ [0x4E, 0x01, 5, 20]
        ++ [0, 0, 0, 1, 16, 2, 3, 4, 5, 6, 7, 8, 9, 10, 11, 12] ++ [0x74, 0x65, 0x73, 0x74])
      = .ok ([], ⟨0⟩) := by
  with_unfolding_all rfl

/-- C2 (amended). For a buffer made of one start code, a 2-byte SEI-prefix NAL header
(first byte `0x4E`), a payloadType byte 5, a payloadSize byte 21, the UUID prefix
`00 00 00 01` written with its emulation-prevention byte as `00 00 03 00 01`, twelve
further UUID bytes holding no `00 00 01` and no `00 00 03`, and the four ASCII bytes
of `test`, `parse` returns exactly one record, of type 5, with frame number 1 and
`jsonPayload` equal to `test`. -/
theorem parse_end_to_end_escaped (self : SEIParser) (long : Bool) (h1 : Byte) (U : List Byte)
    (hU : U.length = 12) (hU1 : containsTriple 0 0 1 U = false)
    (hU3 : containsTriple 0 0 3 U = false) :
    parse self (startCode long ++ [0x4E, h1, 5, 21] ++ [0, 0, 3, 0, 1] ++ U
        ++ [0x74, 0x65, 0x73, 0x74]) =
      .ok ([{ type := 5, frameNumber := 1,
              payload := [0, 0, 0, 1] ++ U ++ [0x74, 0x65, 0x73, 0x74],
              jsonPayload := "test", timecodeString := "",
              rawBytes := bytesToHex ([0, 0, 0, 1] ++ U ++ [0x74, 0x65, 0x73, 0x74]) }],
        { sequentialFrameCounter := 0 }) := by
  match U, hU, hU1, hU3 with
  | [u0, u1, u2, u3, u4, u5, u6, u7, u8, u9, u10, u11], _, hU1, hU3 =>
    have hdata : startCode long ++ [0x4E, h1, 5, 21] ++ [0, 0, 3, 0, 1]
          ++ [u0, u1, u2, u3, u4, u5, u6, u7, u8, u9, u10, u11] ++ [0x74, 0x65, 0x73, 0x74]
        = startCode long ++ (0x4E :: h1 :: 5 :: 21 :: [0, 0, 3, 0, 1, u0, u1, u2, u3, u4, u5, u6,
            u7, u8, u9, u10, u11, 0x74, 0x65, 0x73, 0x74]) := by simp
    have hbody : containsTriple 0 0 1 (0x4E :: h1 :: 5 :: 21 :: [0, 0, 3, 0, 1, u0, u1, u2, u3,
        u4, u5, u6, u7, u8, u9, u10, u11, 0x74, 0x65, 0x73, 0x74]) = false := by
      simp only [containsTriple, Bool.or_eq_false_iff] at hU1 ⊢
      simp [hU1]
    have hun : unescapeList [0, 0, 3, 0, 1, u0, u1, u2, u3, u4, u5, u6, u7, u8, u9, u10, u11,
        0x74, 0x65, 0x73, 0x74]
        = [0, 0, 0, 1, u0, u1, u2, u3, u4, u5, u6, u7, u8, u9, u10, u11, 0x74, 0x65, 0x73, 0x74] := by
      have hc : containsTriple 0 0 3 [0, 1, u0, u1, u2, u3, u4, u5, u6, u7, u8, u9, u10, u11,
          0x74, 0x65, 0x73, 0x74] = false := by
        simp only [containsTriple, Bool.or_eq_false_iff] at hU3 ⊢
        simp [hU3]
      rw [unescapeList, if_pos ⟨rfl, rfl, rfl⟩, unescapeList_of_clean _ hc]
    rw [hdata, parse_single_user_data_raw self long 0x4E h1 21 _ (by decide) (by rfl) (by decide)
      hbody (by rw [hun]; simp), hun, parseUserDataUnregistered_full _ (by simp)]
    have hfn : beU32 [0, 0, 0, 1, u0, u1, u2, u3, u4, u5, u6, u7, u8, u9, u10, u11,
        0x74, 0x65, 0x73, 0x74] = 1 := by
      simp [beU32]
    have hjs : bytesToText (List.drop 16 [0, 0, 0, 1, u0, u1, u2, u3, u4, u5, u6, u7, u8, u9,
        u10, u11, 0x74, 0x65, 0x73, 0x74]) = "test" := by
      simp only [List.drop_succ_cons, List.drop_zero]
      decide
    rw [hfn, hjs, if_neg (by simp)]
    rfl

theorem parse_end_to_end_escaped_witness :
    parse ⟨0⟩ (startCode false ++ [0x4E, 0x01, 5, 21] ++ [0, 0, 3, 0, 1]
        ++ [16, 2, 3, 4, 5, 6, 7, 8, 9, 10, 11, 12] ++ [0x74, 0x65, 0x73, 0x74]) =
      .ok ([{ type := 5, frameNumber := 1,
              payload := [0, 0, 0, 1] ++ [16, 2, 3, 4, 5, 6, 7, 8, 9, 10, 11, 12]
                ++ [0x74, 0x65, 0x73, 0x74],
              jsonPayload := "test", timecodeString := "",
              rawBytes := bytesToHex ([0, 0, 0, 1] ++ [16, 2, 3, 4, 5, 6, 7, 8, 9, 10, 11, 12]
                ++ [0x74, 0x65, 0x73, 0x74]) }],
        { sequentialFrameCounter := 0 }) :=
  parse_end_to_end_escaped ⟨0⟩ false 0x01 [16, 2, 3, 4, 5, 6, 7, 8, 9, 10, 11, 12]
    (by decide) (by decide) (by decide)


theorem findNALUnits_short (data : List Byte) (h : data.length < 3) :
    findNALUnits data = .error .outOfBounds := by
  have h0 := @lt_subSize_three_of_short data.length 0 h (by omega)
  have h1 := @lt_subSize_three_of_short data.length 1 h (by omega)
  have h2 := @lt_subSize_three_of_short data.length 2 h (by omega)
  rcases data with _ | ⟨a, _ | ⟨b, _ | ⟨c, rest⟩⟩⟩
  · simp only [List.length_nil] at h0
    simp only [findNALUnits, findNALUnitsLoop, List.length_nil, if_pos h0, startCodeLenAt,
      readByte, List.getElem?_nil]
  · simp only [List.length_singleton] at h0 h1
    simp only [findNALUnits, List.length_singleton]
    rw [findNALUnitsLoop, List.length_singleton, if_pos h0]
    by_cases ha : a = 0
    · simp [startCodeLenAt, readByte, ha]
    · have hs : startCodeLenAt [a] 0 = .ok 0 := by simp [startCodeLenAt, readByte, ha]
      rw [hs]
      simp only [gt_iff_lt, Nat.lt_irrefl, if_false]
      rw [findNALUnitsLoop, List.length_singleton, if_pos h1]
      simp [startCodeLenAt, readByte]
  · simp only [List.length_cons, List.length_nil, Nat.zero_add, Nat.reduceAdd] at h0 h1 h2
    simp only [findNALUnits, List.length_cons, List.length_nil, Nat.zero_add, Nat.reduceAdd]
    rw [findNALUnitsLoop, List.length_cons, List.length_singleton, if_pos h0]
    by_cases ha : a = 0
    · by_cases hb : b = 0
      · simp [startCodeLenAt, readByte, ha, hb]
      · have hs : startCodeLenAt [a, b] 0 = .ok 0 := by simp [startCodeLenAt, readByte, ha, hb]
        rw [hs]
        simp only [gt_iff_lt, Nat.lt_irrefl, if_false]
        rw [findNALUnitsLoop, List.length_cons, List.length_singleton, if_pos h1]
        by_cases hb0 : b = 0
        · exact absurd hb0 hb
        · have hs1 : startCodeLenAt [a, b] (0 + 1) = .ok 0 := by
            simp [startCodeLenAt, readByte, hb0]
          rw [hs1]
          simp only [gt_iff_lt, Nat.lt_irrefl, if_false]
          rw [findNALUnitsLoop, List.length_cons, List.length_singleton, if_pos h2]
          simp [startCodeLenAt, readByte]
    · have hs : startCodeLenAt [a, b] 0 = .ok 0 := by simp [startCodeLenAt, readByte, ha]
      rw [hs]
      simp only [gt_iff_lt, Nat.lt_irrefl, if_false]
      rw [findNALUnitsLoop, List.length_cons, List.length_singleton, if_pos h1]
      by_cases hb : b = 0
      · simp [startCodeLenAt, readByte, hb]
      · have hs1 : startCodeLenAt [a, b] (0 + 1) = .ok 0 := by
          simp [startCodeLenAt, readByte, hb]
        rw [hs1]
        simp only [gt_iff_lt, Nat.lt_irrefl, if_false]
        rw [findNALUnitsLoop, List.length_cons, List.length_singleton, if_pos h2]
        simp [startCodeLenAt, readByte]
  · simp only [List.length_cons] at h
    omega

/-- C1 (failing inputs). On every buffer shorter than three bytes, the empty buffer
included, the scanner loop bound `dataSize - 3` wraps around and `parse` reads
outside the buffer instead of returning a sequence. -/
theorem parse_short_buffer_faults (self : SEIParser) (data : List Byte)
    (h : data.length < 3) : parse self data = .error .outOfBounds := by
  simp only [parse, findNALUnits_short data h]

theorem parse_short_buffer_faults_witness :
    parse ⟨0⟩ [] = .error .outOfBounds ∧ parse ⟨0⟩ [0x4E] = .error .outOfBounds
      ∧ parse ⟨0⟩ [0, 0] = .error .outOfBounds :=
  ⟨parse_short_buffer_faults ⟨0⟩ [] (by decide), parse_short_buffer_faults ⟨0⟩ [0x4E] (by decide),
    parse_short_buffer_faults ⟨0⟩ [0, 0] (by decide)⟩


theorem seiMessage_some {self self1 : SEIParser} {mem : List Byte} {seiData seiSize pos pos1 : Nat}
    {entries entries1 : List SEIEntry}
    (h : seiMessage self mem seiData seiSize pos entries = .ok (some (pos1, entries1, self1))) :
    ∃ ty dec, dispatchPayload self ty dec entries = .ok (entries1, self1) := by
  unfold seiMessage at h
  split at h
  · cases h
  · split at h
    · cases h
    · split at h
      · cases h
      · try simp only [] at h
        split at h
        · cases h
        · split at h
          · cases h
          · split at h
            · cases h
            · try simp only [] at h
              split at h
              · cases h
              · split at h
                · cases h
                · split at h
                  · cases h
                  · rename_i x e1 s1 hd
                    have he : e1 = entries1 ∧ s1 = self1 := by
                      split at h
                      · split at h
                        · cases h
                        · split at h <;>
                          · simp only [Except.ok.injEq, Option.some.injEq, Prod.mk.injEq] at h
                            exact h.2
                      · simp only [Except.ok.injEq, Option.some.injEq, Prod.mk.injEq] at h
                        exact h.2
                    rw [he.1, he.2] at hd
                    exact ⟨_, _, hd⟩


/-! ## Invariants of the output sequence -/

theorem startCodeLenAt_ok {data : List Byte} {i len : Nat}
    (h : startCodeLenAt data i = .ok len) :
    i < data.length ∧ (len = 0 ∨ (3 ≤ len ∧ i + len ≤ data.length)) := by
  unfold startCodeLenAt at h
  split at h
  · cases h
  · rename_i b0 h0
    have l0 := readByte_ok_lt h0
    refine ⟨l0, ?_⟩
    split at h
    · split at h
      · cases h
      · rename_i b1 h1
        split at h
        · split at h
          · cases h
          · rename_i b2 h2
            have l2 := readByte_ok_lt h2
            split at h
            · cases h; right; omega
            · split at h
              · rename_i hc
                split at h
                · cases h
                · split at h
                  · cases h; right; omega
                  · cases h; left; rfl
              · cases h; left; rfl
        · cases h; left; rfl
    · cases h; left; rfl

theorem findNextStart_ok {data : List Byte} :
    ∀ (fuel j e : Nat), findNextStart data fuel j = .ok e →
      e = data.length ∨ (j ≤ e ∧ e + 3 ≤ data.length) := by
  intro fuel
  induction fuel with
  | zero =>
    intro j e h
    rw [findNextStart] at h
    split at h
    · cases h
    · cases h; left; rfl
  | succ fuel ih =>
    intro j e h
    rw [findNextStart] at h
    split at h
    · split at h
      · cases h
      · rename_i len hl
        split at h
        · rename_i hne
          cases h
          have := (startCodeLenAt_ok hl).2
          right; omega
        · rcases ih _ _ h with h1 | h1
          · left; exact h1
          · right; omega
    · cases h; left; rfl

theorem sumLengths_cons (u : Nat × Nat) (us : List (Nat × Nat)) :
    sumLengths (u :: us) = u.2 + sumLengths us := by
  simp [sumLengths]

theorem findNALUnitsLoop_sum {data : List Byte} :
    ∀ (fuel i : Nat) (acc r : List (Nat × Nat)), findNALUnitsLoop data fuel i acc = .ok r →
      i ≤ data.length → ∃ new, r = acc ++ new ∧ sumLengths new + i ≤ data.length := by
  intro fuel
  induction fuel with
  | zero =>
    intro i acc r h hi
    rw [findNALUnitsLoop] at h
    split at h
    · cases h
    · cases h
      exact ⟨[], by simp, by simp [sumLengths]; exact hi⟩
  | succ fuel ih =>
    intro i acc r h hi
    rw [findNALUnitsLoop] at h
    split at h
    · split at h
      · cases h
      · rename_i len hl
        obtain ⟨hlt, hlen⟩ := startCodeLenAt_ok hl
        split at h
        · rename_i hpos
          split at h
          · cases h
          · rename_i nalEnd hn
            have hb : i + len ≤ nalEnd ∧ nalEnd ≤ data.length := by
              rcases findNextStart_ok _ _ _ hn with h1 | h1 <;> omega
            obtain ⟨new, hr, hs⟩ := ih _ _ _ h hb.2
            refine ⟨(i + len, subSize nalEnd (i + len)) :: new, ?_, ?_⟩
            · rw [hr]; simp
            · rw [sumLengths_cons, subSize_eq hb.1]
              simp only []
              omega
        · obtain ⟨new, hr, hs⟩ := ih _ _ _ h (by omega)
          exact ⟨new, hr, by omega⟩
    · cases h
      exact ⟨[], by simp, by simp [sumLengths]; exact hi⟩

theorem findNALUnits_sum {data : List Byte} {units : List (Nat × Nat)}
    (h : findNALUnits data = .ok units) : sumLengths units ≤ data.length := by
  obtain ⟨new, hr, hs⟩ := findNALUnitsLoop_sum _ _ _ _ h (Nat.zero_le _)
  rw [hr]
  simpa using hs


theorem parseTimecode_ok {payload : List Byte} {frameNumber : Nat} {e : SEIEntry}
    (h : parseTimecode payload frameNumber = .ok e) :
    e.type = SEI_TYPE_TIME_CODE ∧ e.frameNumber = frameNumber ∧ e.payload = payload
      ∧ e.jsonPayload = "" ∧ e.rawBytes = bytesToHex payload := by
  unfold parseTimecode at h
  simp only [] at h
  split at h
  · cases h
    exact ⟨rfl, rfl, rfl, rfl, rfl⟩
  · split at h
    · cases h
    · cases h
      exact ⟨rfl, rfl, rfl, rfl, rfl⟩

theorem wellNumbered_nil (c : Nat) : WellNumbered c [] c := by
  simp [WellNumbered]

theorem wellNumbered_append {c c1 c2 : Nat} {a b : List SEIEntry} :
    WellNumbered c a c1 → WellNumbered c1 b c2 → WellNumbered c (a ++ b) c2 := by
  induction a generalizing c with
  | nil =>
    intro ha hb
    simp only [WellNumbered] at ha
    subst ha
    simpa using hb
  | cons e rest ih =>
    intro ha hb
    simp only [WellNumbered, List.cons_append] at ha ⊢
    rcases ha with ⟨h1, h2, h3, h4⟩ | ⟨h1, h2, h3⟩
    · exact Or.inl ⟨h1, h2, h3, ih h4 hb⟩
    · exact Or.inr ⟨h1, h2, ih h3 hb⟩

theorem dispatchPayload_inv {self self1 : SEIParser} {ty : Nat} {dec : List Byte}
    {entries entries1 : List SEIEntry}
    (h : dispatchPayload self ty dec entries = .ok (entries1, self1)) :
    ∃ new, entries1 = entries ++ new
      ∧ WellNumbered self.sequentialFrameCounter new self1.sequentialFrameCounter
      ∧ new.length ≤ 1 := by
  unfold dispatchPayload at h
  split at h
  · split at h
    · rename_i h16
      rw [frameNumberFromUUID_eq (by omega)] at h
      simp only [Except.ok.injEq, Prod.mk.injEq] at h
      refine ⟨[parseUserDataUnregistered dec (beU32 dec)], h.1.symm, ?_, by simp⟩
      rw [← h.2, parseUserDataUnregistered_full _ h16]
      exact Or.inl ⟨rfl, h16, rfl, wellNumbered_nil _⟩
    · simp only [Except.ok.injEq, Prod.mk.injEq] at h
      refine ⟨[], by simp [h.1], ?_, by simp⟩
      rw [← h.2]
      exact wellNumbered_nil _
  · split at h
    · split at h
      · cases h
      · rename_i e he
        obtain ⟨h1, h2, -⟩ := parseTimecode_ok he
        simp only [Except.ok.injEq, Prod.mk.injEq] at h
        refine ⟨[e], h.1.symm, ?_, by simp⟩
        rw [← h.2]
        exact Or.inr ⟨h1, h2, wellNumbered_nil _⟩
    · simp only [Except.ok.injEq, Prod.mk.injEq] at h
      refine ⟨[], by simp [h.1], ?_, by simp⟩
      rw [← h.2]
      exact wellNumbered_nil _

theorem parseSEILoop_inv {mem : List Byte} {seiData seiSize : Nat} :
    ∀ (fuel pos : Nat) (entries entries1 : List SEIEntry) (self self1 : SEIParser),
      parseSEILoop mem seiData seiSize fuel pos entries self = .ok (entries1, self1) →
      ∃ new, entries1 = entries ++ new
        ∧ WellNumbered self.sequentialFrameCounter new self1.sequentialFrameCounter
        ∧ new.length ≤ fuel := by
  intro fuel
  induction fuel with
  | zero =>
    intro pos entries entries1 self self1 h
    rw [parseSEILoop] at h
    split at h
    · cases h
    · simp only [Except.ok.injEq, Prod.mk.injEq] at h
      refine ⟨[], by simp [h.1], ?_, by simp⟩
      rw [← h.2]
      exact wellNumbered_nil _
  | succ fuel ih =>
    intro pos entries entries1 self self1 h
    rw [parseSEILoop] at h
    split at h
    · split at h
      · cases h
      · simp only [Except.ok.injEq, Prod.mk.injEq] at h
        refine ⟨[], by simp [h.1], ?_, by simp⟩
        rw [← h.2]
        exact wellNumbered_nil _
      · rename_i p2 e2 s2 hm
        obtain ⟨ty, dec, hd⟩ := seiMessage_some hm
        obtain ⟨n1, hn1, hw1, hl1⟩ := dispatchPayload_inv hd
        obtain ⟨n2, hn2, hw2, hl2⟩ := ih _ _ _ _ _ h
        refine ⟨n1 ++ n2, ?_, wellNumbered_append hw1 hw2, ?_⟩
        · rw [hn2, hn1, List.append_assoc]
        · simp only [List.length_append]; omega
    · simp only [Except.ok.injEq, Prod.mk.injEq] at h
      refine ⟨[], by simp [h.1], ?_, by simp⟩
      rw [← h.2]
      exact wellNumbered_nil _

theorem parseSEINAL_inv {self self1 : SEIParser} {mem : List Byte} {nalData nalSize : Nat}
    {entries entries1 : List SEIEntry}
    (h : parseSEINAL self mem nalData nalSize entries = .ok (entries1, self1)) :
    ∃ new, entries1 = entries ++ new
      ∧ WellNumbered self.sequentialFrameCounter new self1.sequentialFrameCounter
      ∧ new.length ≤ nalSize := by
  unfold parseSEINAL at h
  split at h
  · simp only [Except.ok.injEq, Prod.mk.injEq] at h
    refine ⟨[], by simp [h.1], ?_, by simp⟩
    rw [← h.2]
    exact wellNumbered_nil _
  · obtain ⟨new, h1, h2, h3⟩ := parseSEILoop_inv _ _ _ _ _ _ h
    exact ⟨new, h1, h2, by omega⟩

theorem parseUnits_inv {data : List Byte} :
    ∀ (units : List (Nat × Nat)) (self self1 : SEIParser) (entries entries1 : List SEIEntry),
      parseUnits data units self entries = .ok (entries1, self1) →
      ∃ new, entries1 = entries ++ new
        ∧ WellNumbered self.sequentialFrameCounter new self1.sequentialFrameCounter
        ∧ new.length ≤ sumLengths units := by
  intro units
  induction units with
  | nil =>
    intro self self1 entries entries1 h
    simp only [parseUnits, Except.ok.injEq, Prod.mk.injEq] at h
    refine ⟨[], by simp [h.1], ?_, by simp⟩
    rw [← h.2]
    exact wellNumbered_nil _
  | cons u rest ih =>
    intro self self1 entries entries1 h
    obtain ⟨offset, size⟩ := u
    rw [parseUnits] at h
    rw [sumLengths_cons]
    split at h
    · obtain ⟨new, h1, h2, h3⟩ := ih _ _ _ _ h
      exact ⟨new, h1, h2, by omega⟩
    · split at h
      · cases h
      · simp only [] at h
        split at h
        · split at h
          · cases h
          · rename_i e2 s2 hp
            obtain ⟨n1, hn1, hw1, hl1⟩ := parseSEINAL_inv hp
            obtain ⟨n2, hn2, hw2, hl2⟩ := ih _ _ _ _ h
            refine ⟨n1 ++ n2, ?_, wellNumbered_append hw1 hw2, ?_⟩
            · rw [hn2, hn1, List.append_assoc]
            · simp only [List.length_append]; omega
        · obtain ⟨new, h1, h2, h3⟩ := ih _ _ _ _ h
          exact ⟨new, h1, h2, by omega⟩

theorem parse_inv {self self1 : SEIParser} {data : List Byte} {out : List SEIEntry}
    (h : parse self data = .ok (out, self1)) :
    WellNumbered 0 out self1.sequentialFrameCounter ∧ out.length ≤ data.length := by
  unfold parse at h
  split at h
  · cases h
  · rename_i units hu
    obtain ⟨new, h1, h2, h3⟩ := parseUnits_inv _ _ _ _ _ h
    have := findNALUnits_sum hu
    simp only [List.nil_append] at h1
    rw [h1]
    exact ⟨h2, by omega⟩


theorem parse_exampleStream (self : SEIParser) :
    parse self exampleStream = .ok (exampleRecords, { sequentialFrameCounter := 3 }) := by
  with_unfolding_all rfl

theorem timeCodes_cons (e : SEIEntry) (rest : List SEIEntry) :
    timeCodes (e :: rest)
      = if e.type = SEI_TYPE_TIME_CODE then e :: timeCodes rest else timeCodes rest := by
  unfold timeCodes
  rw [List.filter_cons]
  simp only [decide_eq_true_eq]

theorem wellNumbered_timeCodes : ∀ (new : List SEIEntry) (c c1 : Nat),
    WellNumbered c new c1 → c + (timeCodes new).length < 2 ^ 32 →
    (timeCodes new).map (fun e => e.frameNumber) = List.range' c (timeCodes new).length := by
  intro new
  induction new with
  | nil => intro c c1 _ _; simp [timeCodes]
  | cons e rest ih =>
    intro c c1 hw hlen
    simp only [WellNumbered] at hw
    rw [timeCodes_cons] at hlen ⊢
    rcases hw with ⟨h1, -, -, h4⟩ | ⟨h1, h2, h3⟩
    · have hne : ¬ e.type = SEI_TYPE_TIME_CODE := by
        rw [h1]; decide
      rw [if_neg hne] at hlen ⊢
      exact ih c c1 h4 hlen
    · rw [if_pos h1] at hlen ⊢
      simp only [List.length_cons] at hlen
      rw [mod_uint32 (by omega)] at h3
      simp only [List.map_cons, List.length_cons, List.range'_succ, h2]
      rw [ih (c + 1) c1 h3 (by omega)]

theorem wellNumbered_user_data : ∀ (new : List SEIEntry) (c c1 : Nat),
    WellNumbered c new c1 → ∀ e ∈ new, e.type = SEI_TYPE_USER_DATA_UNREGISTERED →
      16 ≤ e.payload.length ∧ e.frameNumber = beU32 e.payload := by
  intro new
  induction new with
  | nil => intro c c1 _ e he; simp at he
  | cons x rest ih =>
    intro c c1 hw e he ht
    simp only [WellNumbered] at hw
    rcases List.mem_cons.mp he with hx | hr
    · subst hx
      rcases hw with ⟨-, h2, h3, -⟩ | ⟨h1, -, -⟩
      · exact ⟨h2, h3⟩
      · rw [h1] at ht
        exact absurd ht (by decide)
    · rcases hw with ⟨-, -, -, h4⟩ | ⟨-, -, h3⟩
      · exact ih _ _ h4 e hr ht
      · exact ih _ _ h3 e hr ht

/-- C6. For every buffer, the records of type TimeCode in the output of `parse`
carry the frame numbers `0, 1, 2, ...` in order of appearance: the `k`-th one,
counting from zero, has frame number `k`, whatever records are interleaved. -/
theorem timecode_frame_numbers (self self1 : SEIParser) (data : List Byte)
    (out : List SEIEntry) (hlen : data.length < SIZE_T_MOD)
    (h : parse self data = .ok (out, self1)) :
    (timeCodes out).map (fun e => e.frameNumber) = List.range (timeCodes out).length
      ∧ ∀ (k : Nat) (e : SEIEntry), (timeCodes out)[k]? = some e → e.frameNumber = k := by
  obtain ⟨hw, hl⟩ := parse_inv h
  have hfl : (timeCodes out).length ≤ out.length := by
    unfold timeCodes
    exact List.length_filter_le _ _
  have hlt : 0 + (timeCodes out).length < 2 ^ 32 := by
    unfold SIZE_T_MOD at hlen
    omega
  have hm := wellNumbered_timeCodes out 0 _ hw hlt
  rw [← List.range_eq_range'] at hm
  refine ⟨hm, ?_⟩
  intro k e hk
  have h1 : ((timeCodes out).map (fun e => e.frameNumber))[k]? = some e.frameNumber := by
    rw [List.getElem?_map, hk]
    rfl
  rw [hm] at h1
  have hkl : k < (timeCodes out).length := (List.getElem?_eq_some_iff.mp hk).1
  rw [List.getElem?_range hkl] at h1
  exact (Option.some.inj h1).symm

theorem timecode_frame_numbers_witness :
    (timeCodes exampleRecords).map (fun e => e.frameNumber)
        = List.range (timeCodes exampleRecords).length
      ∧ ∀ (k : Nat) (e : SEIEntry), (timeCodes exampleRecords)[k]? = some e → e.frameNumber = k :=
  timecode_frame_numbers ⟨7⟩ ⟨3⟩ exampleStream exampleRecords
    (by unfold SIZE_T_MOD; decide) (parse_exampleStream ⟨7⟩)

/-- C7. For every buffer, every record of type UserDataUnregistered in the output of
`parse` has a payload of at least 16 bytes and a frame number equal to the big-endian
unsigned 32-bit value of its first four payload bytes; a payload that starts with
`00 00 00 2A` therefore gives frame number 42. -/
theorem user_data_frame_number (self self1 : SEIParser) (data : List Byte)
    (out : List SEIEntry) (h : parse self data = .ok (out, self1)) :
    ∀ e ∈ out, e.type = SEI_TYPE_USER_DATA_UNREGISTERED →
      16 ≤ e.payload.length
        ∧ e.frameNumber = (e.payload.getD 0 0).val * 2 ^ 24 + (e.payload.getD 1 0).val * 2 ^ 16
            + (e.payload.getD 2 0).val * 2 ^ 8 + (e.payload.getD 3 0).val
        ∧ (e.payload.take 4 = [0x00, 0x00, 0x00, 0x2A] → e.frameNumber = 42) := by
  intro e he ht
  obtain ⟨h16, hfn⟩ := wellNumbered_user_data out _ _ (parse_inv h).1 e he ht
  refine ⟨h16, hfn, ?_⟩
  intro hpre
  rw [hfn]
  match hp : e.payload, hpre with
  | a :: b :: c :: d :: rest, hpre =>
    simp only [List.take_succ_cons, List.take_zero, List.cons.injEq, and_true] at hpre
    obtain ⟨ha, hb, hc, hd⟩ := hpre
    subst ha hb hc hd
    simp [beU32]
    rfl
  | [], hpre => simp at hpre
  | [_], hpre => simp at hpre
  | [_, _], hpre => simp at hpre
  | [_, _, _], hpre => simp at hpre

theorem user_data_frame_number_witness :
    16 ≤ exampleUserData.payload.length
      ∧ exampleUserData.frameNumber
          = (exampleUserData.payload.getD 0 0).val * 2 ^ 24
            + (exampleUserData.payload.getD 1 0).val * 2 ^ 16
            + (exampleUserData.payload.getD 2 0).val * 2 ^ 8
            + (exampleUserData.payload.getD 3 0).val
      ∧ (exampleUserData.payload.take 4 = [0x00, 0x00, 0x00, 0x2A]
          → exampleUserData.frameNumber = 42) :=
  user_data_frame_number ⟨7⟩ ⟨3⟩ exampleStream exampleRecords (parse_exampleStream ⟨7⟩)
    exampleUserData (by simp [exampleRecords]) rfl


/-- Counterexample to C8 as stated: an SEI unit with one type-5 message of two payload
bytes; neither `parseSEINAL` nor `parse` emits a record for it. -/
theorem short_user_data_no_record :
    rbspDecode [0, 0, 1, 0x4E, 0x01, 5, 2, 0xAA, 0xBB] 7 2 = .ok [0xAA, 0xBB]
      ∧ parseSEINAL ⟨0⟩ [0, 0, 1, 0x4E, 0x01, 5, 2, 0xAA, 0xBB] 3 6 [] = .ok ([], ⟨0⟩)
      ∧ parse ⟨0⟩ [0, 0, 1, 0x4E, 0x01, 5, 2, 0xAA, 0xBB] = .ok ([], ⟨0⟩) := by
  refine ⟨?_, ?_, ?_⟩ <;> with_unfolding_all rfl

/-! ## Bit reader and timecode -/

theorem bitAt_le_one (payload : List Byte) (k : Nat) : bitAt payload k ≤ 1 := by
  unfold bitAt
  rw [Nat.and_one_is_mod]
  omega

theorem foldl_bits_lt (payload : List Byte) : ∀ (m p v k : Nat), v < 2 ^ k →
    (List.range' p m).foldl (fun v k => 2 * v + bitAt payload k) v < 2 ^ (k + m) := by
  intro m
  induction m with
  | zero => intro p v k hv; simpa using hv
  | succ m ih =>
    intro p v k hv
    rw [List.range'_succ, List.foldl_cons]
    have hb := bitAt_le_one payload p
    have h2 : 2 * v + bitAt payload p < 2 ^ (k + 1) := by
      rw [Nat.pow_succ]; omega
    have := ih (p + 1) _ (k + 1) h2
    rwa [show k + 1 + m = k + (m + 1) from by omega] at this

theorem bitField_lt (payload : List Byte) (p m : Nat) : bitField payload p m < 2 ^ m := by
  have := foldl_bits_lt payload m p 0 0 (by simp)
  simpa [bitField] using this

theorem readerAt_zero (data : List Byte) : BitReader.new data = readerAt data 0 := by
  simp [BitReader.new, readerAt]

theorem readBitsLoop_eq (data : List Byte) : ∀ (n v p k : Nat), p ≤ 8 * data.length →
    v < 2 ^ k → k + n ≤ 32 →
    BitReader.readBitsLoop n v (readerAt data p)
      = .ok ((List.range' p (min n (8 * data.length - p))).foldl
          (fun v k => 2 * v + bitAt data k) v, readerAt data (p + min n (8 * data.length - p))) := by
  intro n
  induction n with
  | zero =>
    intro v p k _ _ _
    simp [BitReader.readBitsLoop]
  | succ n ih =>
    intro v p k hp hv hk
    rw [BitReader.readBitsLoop]
    simp only [readerAt]
    by_cases hend : p / 8 ≥ data.length
    · rw [if_pos hend]
      have : 8 * data.length - p = 0 := by omega
      simp [this]
    · rw [if_neg hend]
      have hlt : p / 8 < data.length := by omega
      rw [readByte_of_lt hlt]
      simp only []
      have hbit : (data[p / 8].val >>> (7 - p % 8)) &&& 1 = bitAt data p := by
        unfold bitAt
        rw [List.getD_eq_getElem _ _ hlt]
      have hb := bitAt_le_one data p
      have hval : ((v <<< 1) ||| bitAt data p) % UINT32_MOD = 2 * v + bitAt data p := by
        rw [shl_or (by omega), mod_uint32]
        · omega
        · have : 2 ^ (k + 1) ≤ 2 ^ 32 := Nat.pow_le_pow_right (by omega) (by omega)
          rw [Nat.pow_succ] at this
          omega
      have hv2 : 2 * v + bitAt data p < 2 ^ (k + 1) := by
        rw [Nat.pow_succ]; omega
      have hmin : min (n + 1) (8 * data.length - p)
          = (min n (8 * data.length - (p + 1))) + 1 := by omega
      have e3 : p + (min n (8 * data.length - (p + 1)) + 1)
          = p + 1 + min n (8 * data.length - (p + 1)) := by omega
      rw [hbit, hval, hmin, List.range'_succ, List.foldl_cons, e3]
      have hnext := ih (2 * v + bitAt data p) (p + 1) (k + 1) (by omega) hv2 (by omega)
      simp only [readerAt] at hnext
      by_cases h8 : p % 8 + 1 ≥ 8
      · rw [if_pos h8]
        have e1 : (p + 1) / 8 = p / 8 + 1 := by omega
        have e2 : (p + 1) % 8 = 0 := by omega
        rw [e1, e2] at hnext
        rw [hnext]
      · rw [if_neg h8]
        have e1 : (p + 1) / 8 = p / 8 := by omega
        have e2 : (p + 1) % 8 = p % 8 + 1 := by omega
        rw [e1, e2] at hnext
        rw [hnext]

theorem readBits_eq (data : List Byte) (p n : Nat) (hp : p ≤ 8 * data.length) (hn : n ≤ 32) :
    (readerAt data p).readBits n
      = .ok (bitField data p (min n (8 * data.length - p)),
          readerAt data (p + min n (8 * data.length - p))) := by
  unfold BitReader.readBits bitField
  exact readBitsLoop_eq data n 0 p 0 hp (by simp) (by omega)

theorem readBits_full (data : List Byte) (p n : Nat) (hp : p + n ≤ 8 * data.length)
    (hn : n ≤ 32) :
    (readerAt data p).readBits n = .ok (bitField data p n, readerAt data (p + n)) := by
  rw [readBits_eq data p n (by omega) hn, show min n (8 * data.length - p) = n from by omega]


theorem putNum2_ten (n : Nat) : putNum2 10 n = pad2 n := rfl

theorem bitField_one (payload : List Byte) (p : Nat) : bitField payload p 1 = bitAt payload p := by
  simp [bitField, List.range'_succ]

theorem readTimecode_full (payload : List Byte) (h5 : 5 ≤ payload.length) :
    readTimecode (readerAt payload 0) = .ok (
      if bitAt payload 8 = 1 then
        formatTimecode (bitField payload 32 5) (bitField payload 26 6) (bitField payload 20 6)
          (bitField payload 11 9)
      else formatTimecode 0 0 0 (bitField payload 11 9)) := by
  unfold readTimecode
  rw [readBits_full payload 0 2 (by omega) (by omega)]
  simp only []
  rw [readBits_full payload (0 + 2) 1 (by omega) (by omega)]
  simp only []
  rw [readBits_full payload (0 + 2 + 1) 5 (by omega) (by omega)]
  simp only []
  rw [readBits_full payload (0 + 2 + 1 + 5) 1 (by omega) (by omega)]
  simp only []
  rw [readBits_full payload (0 + 2 + 1 + 5 + 1) 1 (by omega) (by omega)]
  simp only []
  rw [readBits_full payload (0 + 2 + 1 + 5 + 1 + 1) 1 (by omega) (by omega)]
  simp only []
  rw [readBits_full payload (0 + 2 + 1 + 5 + 1 + 1 + 1) 9 (by omega) (by omega)]
  simp only [Nat.zero_add, Nat.reduceAdd, bitField_one]
  have hb := bitAt_le_one payload 8
  by_cases hflag : bitAt payload 8 = 1
  · rw [if_pos (by omega), if_pos hflag,
      readBits_full payload 20 6 (by omega) (by omega)]
    simp only []
    rw [readBits_full payload (20 + 6) 6 (by omega) (by omega)]
    simp only []
    rw [readBits_full payload (20 + 6 + 6) 5 (by omega) (by omega)]
  · rw [if_neg (by omega), if_neg hflag]

/-- C9. For every timecode payload of at least 5 bytes, with bits numbered MSB-first
from 0, `n_frames` being bits 11..19 and, when bit 8 is 1, `seconds` bits 20..25,
`minutes` bits 26..31 and `hours` bits 32..36 (all three 0 otherwise), the record of
`parseTimecode` has as `timecodeString` the four fields hours, minutes, seconds,
`n_frames`, each padded to at least two decimal digits, separated by colons. -/
theorem parseTimecode_fields (payload : List Byte) (frameNumber : Nat)
    (h5 : 5 ≤ payload.length) :
    parseTimecode payload frameNumber = .ok
      { type := 136, frameNumber := frameNumber, payload := payload, jsonPayload := "",
        timecodeString :=
          if bitAt payload 8 = 1 then
            pad2 (bitField payload 32 5) ++ ":" ++ pad2 (bitField payload 26 6) ++ ":"
              ++ pad2 (bitField payload 20 6) ++ ":" ++ pad2 (bitField payload 11 9)
          else pad2 0 ++ ":" ++ pad2 0 ++ ":" ++ pad2 0 ++ ":" ++ pad2 (bitField payload 11 9),
        rawBytes := bytesToHex payload } := by
  unfold parseTimecode
  simp only []
  rw [if_neg (by omega), readerAt_zero, readTimecode_full payload h5]
  simp only [formatTimecode, putNum2_ten, SEI_TYPE_TIME_CODE]

theorem parseTimecode_fields_witness :
    parseTimecode [0x00, 0x80, 0x40, 0xC2, 0x08] 0 = .ok
      { type := 136, frameNumber := 0, payload := [0x00, 0x80, 0x40, 0xC2, 0x08],
        jsonPayload := "", timecodeString := "01:02:03:04",
        rawBytes := bytesToHex [0x00, 0x80, 0x40, 0xC2, 0x08] } :=
  (parseTimecode_fields [0x00, 0x80, 0x40, 0xC2, 0x08] 0 (by decide)).trans
    (by with_unfolding_all rfl)


set_option maxRecDepth 100000 in
theorem putNum2_two_digits : ∀ n, n < 100 → putNum2 10 n = String.mk (decimalDigits2 n) := by
  decide

set_option maxRecDepth 100000 in
theorem putNum2_three_digits :
    ∀ n, n < 512 → 100 ≤ n → putNum2 10 n = String.mk (decimalDigits3 n) := by
  decide


theorem readBits_total (data : List Byte) (p n : Nat) (hp : p ≤ 8 * data.length)
    (hn : n ≤ 32) :
    ∃ v q, (readerAt data p).readBits n = .ok (v, readerAt data q) ∧ v < 2 ^ n
      ∧ q ≤ 8 * data.length := by
  refine ⟨_, _, readBits_eq data p n hp hn, ?_, by omega⟩
  have h1 := bitField_lt data p (min n (8 * data.length - p))
  have h2 : 2 ^ (min n (8 * data.length - p)) ≤ 2 ^ n :=
    Nat.pow_le_pow_right (by omega) (by omega)
  omega

theorem readTimecode_total (data : List Byte) (p : Nat) (hp : p ≤ 8 * data.length) :
    ∃ h m s f, h < 32 ∧ m < 64 ∧ s < 64 ∧ f < 512
      ∧ readTimecode (readerAt data p) = .ok (formatTimecode h m s f) := by
  obtain ⟨v1, q1, e1, -, hq1⟩ := readBits_total data p 2 hp (by omega)
  obtain ⟨v2, q2, e2, -, hq2⟩ := readBits_total data q1 1 hq1 (by omega)
  obtain ⟨v3, q3, e3, -, hq3⟩ := readBits_total data q2 5 hq2 (by omega)
  obtain ⟨flag, q4, e4, -, hq4⟩ := readBits_total data q3 1 hq3 (by omega)
  obtain ⟨v5, q5, e5, -, hq5⟩ := readBits_total data q4 1 hq4 (by omega)
  obtain ⟨v6, q6, e6, -, hq6⟩ := readBits_total data q5 1 hq5 (by omega)
  obtain ⟨f, q7, e7, hf, hq7⟩ := readBits_total data q6 9 hq6 (by omega)
  obtain ⟨s, q8, e8, hs, hq8⟩ := readBits_total data q7 6 hq7 (by omega)
  obtain ⟨m, q9, e9, hm, hq9⟩ := readBits_total data q8 6 hq8 (by omega)
  obtain ⟨h, q10, e10, hh, -⟩ := readBits_total data q9 5 hq9 (by omega)
  unfold readTimecode
  simp only [e1, e2, e3, e4, e5, e6, e7]
  by_cases hflag : flag ≠ 0
  · rw [if_pos hflag]
    simp only [e8, e9, e10]
    exact ⟨h, m, s, f, by omega, by omega, by omega, by omega, rfl⟩
  · rw [if_neg hflag]
    exact ⟨0, 0, 0, f, by omega, by omega, by omega, by omega, rfl⟩

theorem formatTimecode_shape {h m s f : Nat} (hh : h < 32) (hm : m < 64) (hs : s < 64)
    (hf : f < 512) :
    formatTimecode h m s f = String.mk (decimalDigits2 h ++ ':' :: decimalDigits2 m
      ++ ':' :: decimalDigits2 s ++ ':' :: (if f < 100 then decimalDigits2 f
        else decimalDigits3 f)) := by
  unfold formatTimecode
  rw [putNum2_two_digits h (by omega), putNum2_two_digits m (by omega),
    putNum2_two_digits s (by omega)]
  by_cases hf100 : f < 100
  · rw [if_pos hf100, putNum2_two_digits f hf100]
    rfl
  · rw [if_neg hf100, putNum2_three_digits f hf (by omega)]
    rfl

/-- Counterexample to C10 as stated: `n_frames = 100` is written with three digits,
so the string has 12 characters. -/
theorem parseTimecode_three_digit_frames :
    parseTimecode [0x00, 0x06, 0x40] 0 = .ok
      { type := 136, frameNumber := 0, payload := [0x00, 0x06, 0x40], jsonPayload := "",
        timecodeString := "00:00:00:100", rawBytes := "00 06 40 " }
      ∧ ("00:00:00:100" : String).length = 12 := by
  constructor
  · with_unfolding_all rfl
  · decide

/-- C10 (amended). For every timecode payload, `parseTimecode` returns a record whose
`timecodeString` is either the sentinel `"--:--:--:--"` or four decimal fields
separated by colons: hours (below 32), minutes and seconds (below 64) with exactly
two digits each, and the frame count (below 512) with two digits, or three when it
is 100 or more; the string then has 11 characters, or 12 in the three-digit case. -/
theorem parseTimecode_string_shape (payload : List Byte) (frameNumber : Nat) :
    ∃ e, parseTimecode payload frameNumber = .ok e ∧
      (e.timecodeString = "--:--:--:--" ∨
        ∃ h m s f, h < 32 ∧ m < 64 ∧ s < 64 ∧ f < 512
          ∧ e.timecodeString = String.mk (decimalDigits2 h ++ ':' :: decimalDigits2 m
              ++ ':' :: decimalDigits2 s ++ ':' :: (if f < 100 then decimalDigits2 f
                else decimalDigits3 f))
          ∧ e.timecodeString.length = if f < 100 then 11 else 12) := by
  unfold parseTimecode
  simp only []
  by_cases h0 : payload.length = 0
  · rw [if_pos h0]
    exact ⟨_, rfl, Or.inl rfl⟩
  · rw [if_neg h0, readerAt_zero]
    obtain ⟨h, m, s, f, hh, hm, hs, hf, hr⟩ := readTimecode_total payload 0 (by omega)
    rw [hr]
    refine ⟨_, rfl, Or.inr ⟨h, m, s, f, hh, hm, hs, hf, ?_, ?_⟩⟩
    · exact formatTimecode_shape hh hm hs hf
    · simp only []
      rw [formatTimecode_shape hh hm hs hf]
      by_cases hf100 : f < 100
      · simp [hf100, String.length, decimalDigits2]
      · simp [hf100, String.length, decimalDigits2, decimalDigits3]

/-! ## Independence of earlier calls -/

/-- C14. `parse` is deterministic and independent of earlier calls: the result does
not depend on the prior value of the sequential frame counter, so calls on two
parser instances, or a second call on the instance a first call left behind, return
the same sequence for the same buffer. -/
theorem parse_independent_of_state :
    (∀ (self other : SEIParser) (data : List Byte), parse self data = parse other data)
    ∧ (∀ (self after : SEIParser) (data : List Byte) (out : List SEIEntry),
        parse self data = .ok (out, after) → parse after data = .ok (out, after)) := by
  have h : ∀ (self other : SEIParser) (data : List Byte), parse self data = parse other data := by
    intro self other data
    simp only [parse]
  exact ⟨h, fun self after data out hp => (h after self data).trans hp⟩

/-! ## Timecode sentinel -/

theorem digitChar_ne_dash {d : Nat} (h : d < 10) : Nat.digitChar d ≠ '-' := by
  interval_cases d <;> decide

theorem formatTimecode_ne_sentinel {h m s f : Nat} (hh : h < 32) (hm : m < 64) (hs : s < 64)
    (hf : f < 512) : formatTimecode h m s f ≠ "--:--:--:--" := by
  rw [formatTimecode_shape hh hm hs hf]
  intro hc
  have h1 := congrArg String.data hc
  simp only [decimalDigits2, List.cons_append, List.nil_append] at h1
  have h2 : Nat.digitChar (h / 10) = '-' := by
    have := congrArg List.head? h1
    simpa using this
  exact digitChar_ne_dash (by omega) h2

/-- C11. `parseTimecode` always returns a record, and its `timecodeString` is the
sentinel `"--:--:--:--"` if and only if the payload is empty: the empty payload gives
the sentinel with an empty payload, empty `rawBytes` and the caller's frame number,
and for every non-empty payload, however short, no read of the field decode fails
and the string is the formatted timecode of the four fields read. -/
theorem parseTimecode_sentinel_iff (payload : List Byte) (frameNumber : Nat) :
    ∃ e, parseTimecode payload frameNumber = .ok e
      ∧ (e.timecodeString = "--:--:--:--" ↔ payload = [])
      ∧ (payload = [] →
          e = { type := 136, frameNumber := frameNumber, payload := [], jsonPayload := "",
                timecodeString := "--:--:--:--", rawBytes := "" })
      ∧ (payload ≠ [] → ∃ h m s f, h < 32 ∧ m < 64 ∧ s < 64 ∧ f < 512
          ∧ readTimecode (BitReader.new payload) = .ok (formatTimecode h m s f)
          ∧ e.timecodeString = formatTimecode h m s f) := by
  unfold parseTimecode
  simp only []
  by_cases h0 : payload.length = 0
  · have hnil : payload = [] := List.length_eq_zero.mp h0
    subst hnil
    rw [if_pos h0]
    refine ⟨_, rfl, ⟨fun _ => rfl, fun _ => rfl⟩, fun _ => rfl, fun hne => absurd rfl hne⟩
  · have hne : payload ≠ [] := fun hc => h0 (by rw [hc]; rfl)
    rw [if_neg h0, readerAt_zero]
    obtain ⟨h, m, s, f, hh, hm, hs, hf, hr⟩ := readTimecode_total payload 0 (by omega)
    rw [hr]
    refine ⟨_, rfl, ⟨fun hc => ?_, fun hc => absurd hc hne⟩, fun hc => absurd hc hne,
      fun _ => ⟨h, m, s, f, hh, hm, hs, hf, rfl, rfl⟩⟩
    exact absurd hc (formatTimecode_ne_sentinel hh hm hs hf)

/-! ## Bit reader contract -/

/-- C18. `readBits` reads most-significant-bit first across byte boundaries: for a
reader over `data` whose cursor `(bytePos, bitPos)` stands before bit
`p = 8 * bytePos + bitPos`, with `r = 8 * data.length - p` unread bits, and for every
`n ≤ 32`, `readBits n` returns the unsigned integer whose binary numeral is the next
`min n r` bits and leaves the cursor `min n r` bits further. -/
theorem readBits_msb_first (r : BitReader) (n : Nat) (hsize : r.size = r.data.length)
    (hbit : r.bitPos < 8)
    (hpos : r.bytePos < r.size ∨ (r.bytePos = r.size ∧ r.bitPos = 0)) (hn : n ≤ 32) :
    r.readBits n = .ok
      (bitField r.data (8 * r.bytePos + r.bitPos)
          (min n (8 * r.data.length - (8 * r.bytePos + r.bitPos))),
        { data := r.data, size := r.data.length,
          bytePos := (8 * r.bytePos + r.bitPos
            + min n (8 * r.data.length - (8 * r.bytePos + r.bitPos))) / 8,
          bitPos := (8 * r.bytePos + r.bitPos
            + min n (8 * r.data.length - (8 * r.bytePos + r.bitPos))) % 8 }) := by
  have hr : r = readerAt r.data (8 * r.bytePos + r.bitPos) := by
    obtain ⟨d, sz, by_, bi⟩ := r
    simp only [readerAt] at *
    subst hsize
    congr 1 <;> omega
  have := readBits_eq r.data (8 * r.bytePos + r.bitPos) n (by omega) hn
  rw [← hr] at this
  rw [this]
  rfl

theorem readBits_msb_first_witness :
    (⟨[0xA5, 0xC3], 2, 0, 6⟩ : BitReader).readBits 5 = .ok
      (bitField [0xA5, 0xC3] (8 * 0 + 6) (min 5 (8 * 2 - (8 * 0 + 6))),
        { data := [0xA5, 0xC3], size := 2,
          bytePos := (8 * 0 + 6 + min 5 (8 * 2 - (8 * 0 + 6))) / 8,
          bitPos := (8 * 0 + 6 + min 5 (8 * 2 - (8 * 0 + 6))) % 8 })
      ∧ bitField [0xA5, 0xC3] 6 5 = 0b01110
      ∧ (⟨[0xA5, 0xC3], 2, 1, 4⟩ : BitReader).readBits 9 = .ok (0b0011, ⟨[0xA5, 0xC3], 2, 2, 0⟩) :=
  ⟨readBits_msb_first ⟨[0xA5, 0xC3], 2, 0, 6⟩ 5 rfl (by decide) (Or.inl (by decide)) (by decide),
    by decide,
    (readBits_msb_first ⟨[0xA5, 0xC3], 2, 1, 4⟩ 9 rfl (by decide) (Or.inl (by decide))
      (by decide)).trans (by with_unfolding_all rfl)⟩

/-! ## Hex preview -/

set_option maxRecDepth 100000 in
theorem putNum2_hex : ∀ b : Byte,
    putNum2 16 b.val = String.mk [hexDigitLower (b.val / 16), hexDigitLower (b.val % 16)] := by
  decide

theorem foldl_hex_data (l : List Byte) : ∀ (acc : String),
    (l.foldl (fun ss b => ss ++ putNum2 16 b.val ++ " ") acc).data
      = acc.data ++ (l.map fun b =>
          [hexDigitLower (b.val / 16), hexDigitLower (b.val % 16), ' ']).flatten := by
  induction l with
  | nil => intro acc; simp
  | cons b rest ih =>
    intro acc
    rw [List.foldl_cons, ih, putNum2_hex]
    simp [String.data_append]

theorem bytesToHex_eq (payload : List Byte) : bytesToHex payload = hexPreview payload := by
  apply String.ext
  unfold bytesToHex hexPreview
  simp only []
  by_cases h : payload.length > 32
  · simp only [if_pos h, String.data_append, foldl_hex_data]
    rfl
  · simp only [if_neg h, foldl_hex_data, List.append_nil]
    rfl

theorem flatten_triples_length {α : Type} (l : List α) (f : α → List Char)
    (hf : ∀ a, (f a).length = 3) : ((l.map f).flatten).length = 3 * l.length := by
  induction l with
  | nil => rfl
  | cons a rest ih =>
    simp only [List.map_cons, List.flatten_cons, List.length_append, List.length_cons, ih, hf]
    omega

theorem parseTimecode_total (payload : List Byte) (frameNumber : Nat) :
    ∃ e, parseTimecode payload frameNumber = .ok e := by
  unfold parseTimecode
  simp only []
  by_cases h0 : payload.length = 0
  · rw [if_pos h0]
    exact ⟨_, rfl⟩
  · rw [if_neg h0, readerAt_zero]
    obtain ⟨h, m, s, f, -, -, -, -, hr⟩ := readTimecode_total payload 0 (by omega)
    rw [hr]
    exact ⟨_, rfl⟩

/-- C15. For every payload handed to `parseTimecode`, and every payload of at least 16
bytes handed to `parseUserDataUnregistered`, `rawBytes` is the hex preview capped at
32 bytes: two lowercase hexadecimal digits and a space for each of the first
`min n 32` bytes, then `...` exactly when `n > 32`; its length is `3 * min n 32`,
plus 3 when `n > 32`. -/
theorem rawBytes_hex_preview (payload : List Byte) (frameNumber : Nat) :
    (∃ e, parseTimecode payload frameNumber = .ok e ∧ e.rawBytes = hexPreview payload)
      ∧ (16 ≤ payload.length →
          (parseUserDataUnregistered payload frameNumber).rawBytes = hexPreview payload)
      ∧ (hexPreview payload).length
          = 3 * min payload.length 32 + if payload.length > 32 then 3 else 0 := by
  refine ⟨?_, ?_, ?_⟩
  · obtain ⟨e, he⟩ := parseTimecode_total payload frameNumber
    exact ⟨e, he, by rw [(parseTimecode_ok he).2.2.2.2, bytesToHex_eq]⟩
  · intro h16
    rw [parseUserDataUnregistered_full _ h16]
    exact bytesToHex_eq payload
  · unfold hexPreview
    simp only [String.length, List.length_append]
    rw [flatten_triples_length (payload.take 32)
      (fun b => [hexDigitLower (b.val / 16), hexDigitLower (b.val % 16), ' ']) (fun _ => rfl),
      List.length_take]
    by_cases h : payload.length > 32
    · simp only [if_pos h, List.length_cons, List.length_nil]
      omega
    · simp only [if_neg h, List.length_nil]
      omega

/-! ## Scanner output invariant -/

theorem scLen_values (data : List Byte) (i : Nat) :
    scLen data i = 0
      ∨ (scLen data i = 3 ∧ data[i]? = some 0 ∧ data[i + 1]? = some 0 ∧ data[i + 2]? = some 1)
      ∨ (scLen data i = 4 ∧ data[i + 1]? = some 0 ∧ data[i + 2]? = some 0
          ∧ data[i + 3]? = some 1) := by
  unfold scLen
  by_cases c : data[i]? = some 0 ∧ data[i + 1]? = some 0
  · rw [if_pos c]
    by_cases c2 : data[i + 2]? = some 1
    · rw [if_pos c2]
      exact Or.inr (Or.inl ⟨rfl, c.1, c.2, c2⟩)
    · rw [if_neg c2]
      by_cases c3 : data[i + 2]? = some 0 ∧ data[i + 3]? = some 1
      · rw [if_pos c3]
        exact Or.inr (Or.inr ⟨rfl, c.2, c3.1, c3.2⟩)
      · rw [if_neg c3]
        exact Or.inl rfl
  · rw [if_neg c]
    exact Or.inl rfl

theorem findNextStart_total {data : List Byte} (h3 : 3 ≤ data.length) :
    ∀ (fuel j : Nat), data.length - 3 - j ≤ fuel →
      ∃ e, findNextStart data fuel j = .ok e
        ∧ (e = data.length ∨ (j ≤ e ∧ e + 3 < data.length ∧ scLen data e ≠ 0)) := by
  have hb : subSize data.length 3 = data.length - 3 := subSize_eq h3
  intro fuel
  induction fuel with
  | zero =>
    intro j hf
    rw [findNextStart, hb, if_neg (by omega)]
    exact ⟨_, rfl, Or.inl rfl⟩
  | succ fuel ih =>
    intro j hf
    rw [findNextStart, hb]
    by_cases hj : j < data.length - 3
    · rw [if_pos hj, startCodeLenAt_eq (by omega)]
      by_cases hz : scLen data j = 0
      · simp only [hz, ne_eq, not_true_eq_false, if_false]
        obtain ⟨e, he, hc⟩ := ih (j + 1) (by omega)
        refine ⟨e, he, ?_⟩
        rcases hc with hc | hc
        · exact Or.inl hc
        · exact Or.inr ⟨by omega, hc.2⟩
      · simp only [ne_eq, hz, not_false_eq_true, if_true]
        exact ⟨j, rfl, Or.inr ⟨le_refl _, by omega, hz⟩⟩
    · rw [if_neg hj]
      exact ⟨_, rfl, Or.inl rfl⟩

theorem findNALUnitsLoop_total {data : List Byte} (h3 : 3 ≤ data.length) :
    ∀ (fuel i : Nat) (acc : List (Nat × Nat)), data.length - 3 - i ≤ fuel →
      ∃ new, findNALUnitsLoop data fuel i acc = .ok (acc ++ new)
        ∧ (∀ u ∈ new, UnitWellPlaced data u ∧ i + 3 ≤ u.1)
        ∧ List.Chain' (fun a b : Nat × Nat => a.1 + a.2 + 3 ≤ b.1 ∧ 1 ≤ a.2) new := by
  have hb : subSize data.length 3 = data.length - 3 := subSize_eq h3
  intro fuel
  induction fuel with
  | zero =>
    intro i acc hf
    rw [findNALUnitsLoop, hb, if_neg (by omega)]
    exact ⟨[], by simp, by simp, List.chain'_nil⟩
  | succ fuel ih =>
    intro i acc hf
    rw [findNALUnitsLoop, hb]
    by_cases hi : i < data.length - 3
    · rw [if_pos hi, startCodeLenAt_eq (by omega)]
      rcases scLen_values data i with hz | ⟨h3', b0, b1, b2⟩ | ⟨h4, b1, b2, b3⟩
      · rw [hz]
        simp only [gt_iff_lt, Nat.lt_irrefl, if_false]
        obtain ⟨new, hn, hu, hc⟩ := ih (i + 1) acc (by omega)
        exact ⟨new, hn, fun u hu' => ⟨(hu u hu').1, by have := (hu u hu').2; omega⟩, hc⟩
      all_goals
        first
        | rw [h3']
        | rw [h4]
        simp only [gt_iff_lt, Nat.zero_lt_succ, if_true]
        obtain ⟨e, he, hcase⟩ := findNextStart_total h3 data.length (i + _ + 1) (by omega)
        rw [he]
        simp only []
        rcases hcase with hend | ⟨hje, he3, hsc⟩
        · subst hend
          rw [findNALUnitsLoop_done (by rw [hb]; omega), subSize_eq (by omega)]
          refine ⟨[(_, _)], rfl, ?_, List.chain'_singleton _⟩
          intro u hu
          rw [List.mem_singleton] at hu
          subst hu
          refine ⟨⟨by omega, by simp only []; omega, ?_, ?_, ?_, Or.inl (by simp only []; omega)⟩,
            by simp only []; omega⟩
          all_goals simp only [Nat.add_sub_cancel]
          all_goals first | exact b0 | exact b1 | exact b2 | exact b3
        · rw [subSize_eq (by omega)]
          obtain ⟨new, hn, hu, hc⟩ := ih e (acc ++ [(_, e - _)]) (by omega)
          rw [hn]
          refine ⟨(_, e - _) :: new, by rw [List.append_assoc]; rfl, ?_, ?_⟩
          · intro u hu'
            rcases List.mem_cons.mp hu' with hu1 | hu2
            · subst hu1
              refine ⟨⟨by omega, by simp only []; omega, ?_, ?_, ?_, Or.inr ?_⟩,
                by simp only []; omega⟩
              iterate 3
                simp only [Nat.add_sub_cancel]
                first | exact b0 | exact b1 | exact b2 | exact b3
              simp only []
              rw [show i + _ + (e - (i + _)) = e from by omega]
              exact hsc
            · exact ⟨(hu u hu2).1, by have := (hu u hu2).2; omega⟩
          · refine List.Chain'.cons' hc ?_
            intro b hb'
            have hmem : b ∈ new := List.mem_of_mem_head? hb'
            have := (hu b hmem).2
            simp only []
            omega
    · rw [if_neg hi]
      exact ⟨[], by simp, by simp, List.chain'_nil⟩

theorem findNALUnits_total {data : List Byte} (h3 : 3 ≤ data.length) :
    ∃ units, findNALUnits data = .ok units
      ∧ (∀ u ∈ units, UnitWellPlaced data u)
      ∧ List.Chain' (fun a b : Nat × Nat => a.1 + a.2 + 3 ≤ b.1 ∧ 1 ≤ a.2) units := by
  obtain ⟨new, hn, hu, hc⟩ := findNALUnitsLoop_total h3 (data.length + 1) 0 [] (by omega)
  exact ⟨new, by rw [findNALUnits, hn]; rfl, fun u hu' => (hu u hu').1, hc⟩

/-- C19. On a buffer of at least 3 bytes the scanner returns a list of pairs, and every
pair `(offset, length)` in it has `offset ≥ 3`, `offset + length ≤ n`, the bytes
`00 00 01` right before `offset`, and `offset + length` equal to `n` or the position
where a 3- or 4-byte start code begins; consecutive pairs satisfy
`next.offset ≥ offset + length + 3`, and every pair that has a successor has
`length ≥ 1`. -/
theorem findNALUnits_invariant (data : List Byte) (h3 : 3 ≤ data.length) :
    ∃ units, findNALUnits data = .ok units
      ∧ (∀ u ∈ units, 3 ≤ u.1 ∧ u.1 + u.2 ≤ data.length
          ∧ data[u.1 - 3]? = some 0 ∧ data[u.1 - 2]? = some 0 ∧ data[u.1 - 1]? = some 1
          ∧ (u.1 + u.2 = data.length ∨ scLen data (u.1 + u.2) = 3
              ∨ scLen data (u.1 + u.2) = 4))
      ∧ List.Chain' (fun a b : Nat × Nat => a.1 + a.2 + 3 ≤ b.1 ∧ 1 ≤ a.2) units := by
  obtain ⟨units, hn, hu, hc⟩ := findNALUnits_total h3
  refine ⟨units, hn, ?_, hc⟩
  intro u hu'
  obtain ⟨a, b, c, d, e, f⟩ := hu u hu'
  refine ⟨a, b, c, d, e, ?_⟩
  rcases f with f | f
  · exact Or.inl f
  · rcases scLen_values data (u.1 + u.2) with hz | hz | hz
    · exact absurd hz f
    · exact Or.inr (Or.inl hz.1)
    · exact Or.inr (Or.inr hz.1)

theorem findNALUnits_invariant_witness :
    ∃ units, findNALUnits exampleStream = .ok units
      ∧ (∀ u ∈ units, 3 ≤ u.1 ∧ u.1 + u.2 ≤ exampleStream.length
          ∧ exampleStream[u.1 - 3]? = some 0 ∧ exampleStream[u.1 - 2]? = some 0
          ∧ exampleStream[u.1 - 1]? = some 1
          ∧ (u.1 + u.2 = exampleStream.length ∨ scLen exampleStream (u.1 + u.2) = 3
              ∨ scLen exampleStream (u.1 + u.2) = 4))
      ∧ List.Chain' (fun a b : Nat × Nat => a.1 + a.2 + 3 ≤ b.1 ∧ 1 ≤ a.2) units :=
  findNALUnits_invariant exampleStream (by decide)

/-! ## The output vector is only appended to -/

theorem dispatchPayload_acc (self : SEIParser) (ty : Nat) (dec : List Byte)
    (entries : List SEIEntry) :
    dispatchPayload self ty dec entries
      = withEntries entries (dispatchPayload self ty dec []) := by
  unfold dispatchPayload
  by_cases h5 : ty = SEI_TYPE_USER_DATA_UNREGISTERED
  · rw [if_pos h5, if_pos h5]
    by_cases h16 : dec.length ≥ 16
    · rw [if_pos h16, if_pos h16]
      cases frameNumberFromUUID dec <;> rfl
    · rw [if_neg h16, if_neg h16]
      simp [withEntries]
  · rw [if_neg h5, if_neg h5]
    by_cases h136 : ty = SEI_TYPE_TIME_CODE
    · rw [if_pos h136, if_pos h136]
      cases parseTimecode dec self.sequentialFrameCounter <;> rfl
    · rw [if_neg h136, if_neg h136]
      simp [withEntries]

/-- One message seen from an empty output: the step with `entries` in front. -/
theorem seiMessage_acc (self : SEIParser) (mem : List Byte) (seiData seiSize pos : Nat)
    (entries : List SEIEntry) :
    seiMessage self mem seiData seiSize pos entries
      = match seiMessage self mem seiData seiSize pos [] with
        | .error e => .error e
        | .ok none => .ok none
        | .ok (some (pos1, recs, self1)) => .ok (some (pos1, entries ++ recs, self1)) := by
  unfold seiMessage
  cases readEscape mem seiData seiSize (seiSize + 1) 0 pos with
  | error e => rfl
  | ok p =>
    obtain ⟨typeAcc, pos1⟩ := p
    simp only []
    by_cases c1 : pos1 ≥ seiSize
    · simp only [if_pos c1]
    simp only [if_neg c1]
    cases readByte mem (seiData + pos1) with
    | error e => rfl
    | ok tb =>
      simp only []
      cases readEscape mem seiData seiSize (seiSize + 1) 0 (pos1 + 1) with
      | error e => rfl
      | ok q =>
        obtain ⟨sizeAcc, pos2⟩ := q
        simp only []
        by_cases c2 : pos2 ≥ seiSize
        · simp only [if_pos c2]
        simp only [if_neg c2]
        cases readByte mem (seiData + pos2) with
        | error e => rfl
        | ok sb =>
          simp only []
          by_cases c3 : (pos2 + 1 + (sizeAcc + sb.val) % UINT32_MOD) % SIZE_T_MOD > seiSize
          · simp only [if_pos c3]
          simp only [if_neg c3]
          cases rbspDecode mem (seiData + (pos2 + 1)) ((sizeAcc + sb.val) % UINT32_MOD) with
          | error e => rfl
          | ok dec =>
            simp only []
            rw [dispatchPayload_acc self _ _ entries]
            cases dispatchPayload self ((typeAcc + tb.val) % UINT32_MOD) dec [] with
            | error e => rfl
            | ok r =>
              obtain ⟨recs, self1⟩ := r
              simp only [withEntries]
              by_cases c4 : (pos2 + 1 + (sizeAcc + sb.val) % UINT32_MOD) % SIZE_T_MOD < seiSize
              · simp only [if_pos c4]
                cases readByte mem
                    (seiData + (pos2 + 1 + (sizeAcc + sb.val) % UINT32_MOD) % SIZE_T_MOD) with
                | error e => rfl
                | ok ab =>
                  simp only []
                  by_cases c5 : ab = 0x80
                  · simp only [if_pos c5]
                  · simp only [if_neg c5]
              · simp only [if_neg c4]

theorem parseSEILoop_acc {mem : List Byte} {seiData seiSize : Nat} :
    ∀ (fuel pos : Nat) (entries : List SEIEntry) (self : SEIParser),
      parseSEILoop mem seiData seiSize fuel pos entries self
        = withEntries entries (parseSEILoop mem seiData seiSize fuel pos [] self) := by
  intro fuel
  induction fuel with
  | zero =>
    intro pos entries self
    rw [parseSEILoop, parseSEILoop]
    by_cases h : pos < seiSize
    · rw [if_pos h, if_pos h]; rfl
    · rw [if_neg h, if_neg h]; simp [withEntries]
  | succ fuel ih =>
    intro pos entries self
    rw [parseSEILoop, parseSEILoop]
    by_cases h : pos < seiSize
    · rw [if_pos h, if_pos h, seiMessage_acc self mem seiData seiSize pos entries]
      cases seiMessage self mem seiData seiSize pos [] with
      | error e => rfl
      | ok o =>
        cases o with
        | none => simp [withEntries]
        | some t =>
          obtain ⟨pos1, recs, self1⟩ := t
          simp only []
          rw [ih pos1 (entries ++ recs) self1, ih pos1 recs self1]
          cases parseSEILoop mem seiData seiSize fuel pos1 [] self1 with
          | error e => rfl
          | ok r =>
            obtain ⟨more, self2⟩ := r
            simp [withEntries]
    · rw [if_neg h, if_neg h]; simp [withEntries]

theorem parseSEINAL_acc (self : SEIParser) (mem : List Byte) (nalData nalSize : Nat)
    (entries : List SEIEntry) :
    parseSEINAL self mem nalData nalSize entries
      = withEntries entries (parseSEINAL self mem nalData nalSize []) := by
  unfold parseSEINAL
  by_cases h : nalSize < 3
  · rw [if_pos h, if_pos h]; simp [withEntries]
  · rw [if_neg h, if_neg h]
    exact parseSEILoop_acc _ _ _ _

theorem nalTypeAt_of_lt {data : List Byte} {o : Nat} (h : o < data.length) :
    readByte data o = .ok (data.get ⟨o, h⟩)
      ∧ nalTypeAt data o = some (((data.get ⟨o, h⟩).val >>> 1) &&& 0x3F) := by
  refine ⟨readByte_of_lt h, ?_⟩
  unfold nalTypeAt
  rw [List.getElem?_eq_getElem h]
  rfl

theorem parseUnits_eq_extractUnits {data : List Byte} :
    ∀ (units : List (Nat × Nat)) (self : SEIParser) (entries : List SEIEntry),
      (∀ u ∈ units, u.1 + u.2 ≤ data.length) →
      parseUnits data units self entries
        = withEntries entries (extractUnits data (units.filter (isSEIUnit data)) self) := by
  intro units
  induction units with
  | nil =>
    intro self entries _
    simp [parseUnits, extractUnits, withEntries]
  | cons u rest ih =>
    intro self entries hin
    obtain ⟨o, l⟩ := u
    have hol : o + l ≤ data.length := hin (o, l) (List.mem_cons_self _ _)
    have hrest : ∀ u ∈ rest, u.1 + u.2 ≤ data.length :=
      fun u hu => hin u (List.mem_cons_of_mem _ hu)
    rw [parseUnits]
    by_cases hl : l < 2
    · rw [if_pos hl, ih self entries hrest]
      have : isSEIUnit data (o, l) = false := by
        unfold isSEIUnit
        simp only [decide_eq_false_iff_not]
        intro h
        omega
      rw [List.filter_cons_of_neg (by rw [this]; exact Bool.false_ne_true)]
    · rw [if_neg hl]
      obtain ⟨hrd, hty⟩ := @nalTypeAt_of_lt data o (by omega)
      rw [hrd]
      simp only []
      by_cases hsei : ((data.get ⟨o, by omega⟩).val >>> 1) &&& 0x3F = HEVC_NAL_SEI_PREFIX
          ∨ ((data.get ⟨o, by omega⟩).val >>> 1) &&& 0x3F = HEVC_NAL_SEI_SUFFIX
      · rw [if_pos hsei]
        have : isSEIUnit data (o, l) = true := by
          unfold isSEIUnit
          simp only [decide_eq_true_eq, hty, Option.some.injEq]
          exact ⟨by omega, hsei⟩
        rw [List.filter_cons_of_pos this, extractUnits, parseSEINAL_acc self data o l entries]
        cases parseSEINAL self data o l [] with
        | error e => rfl
        | ok r =>
          obtain ⟨recs, self1⟩ := r
          simp only [withEntries]
          rw [ih self1 (entries ++ recs) hrest]
          cases extractUnits data (rest.filter (isSEIUnit data)) self1 with
          | error e => rfl
          | ok r2 =>
            obtain ⟨more, self2⟩ := r2
            simp [withEntries]
      · rw [if_neg hsei, ih self entries hrest]
        have : isSEIUnit data (o, l) = false := by
          unfold isSEIUnit
          simp only [decide_eq_false_iff_not, hty, Option.some.injEq]
          intro h
          exact hsei h.2
        rw [List.filter_cons_of_neg (by rw [this]; exact Bool.false_ne_true)]

/-- C17. On a buffer of at least 3 bytes the scanner returns a list of units, and
`parse` equals the concatenation, in scanner order, of what `parseSEINAL` produces from
an empty output for each unit of length at least 2 whose type field is 39 or 40, the
parser (timecode counter) being threaded through from 0; the other units contribute
nothing. -/
theorem parse_is_composition (self : SEIParser) (data : List Byte) (h3 : 3 ≤ data.length) :
    ∃ units, findNALUnits data = .ok units
      ∧ parse self data
          = extractUnits data (units.filter (isSEIUnit data)) { sequentialFrameCounter := 0 } := by
  obtain ⟨units, hn, hu, _⟩ := findNALUnits_total h3
  refine ⟨units, hn, ?_⟩
  rw [parse_eq_parseUnits hn, parseUnits_eq_extractUnits units _ [] (fun u hu' => (hu u hu').2.1)]
  cases extractUnits data (units.filter (isSEIUnit data)) { sequentialFrameCounter := 0 } with
  | error e => rfl
  | ok r =>
    obtain ⟨recs, self1⟩ := r
    simp [withEntries]

theorem parse_is_composition_witness :
    3 ≤ exampleStream.length
      ∧ ∃ units, findNALUnits exampleStream = .ok units
        ∧ parse { sequentialFrameCounter := 7 } exampleStream
            = extractUnits exampleStream (units.filter (isSEIUnit exampleStream))
                { sequentialFrameCounter := 0 } :=
  ⟨by decide, parse_is_composition { sequentialFrameCounter := 7 } exampleStream (by decide)⟩

/-! ## Escapes with a run of `0xFF`, and payload sizes that overrun the buffer -/

theorem uint32_pos : 0 < UINT32_MOD := by
  unfold UINT32_MOD
  exact Nat.two_pow_pos 32

theorem readEscape_run {mem : List Byte} {seiData seiSize : Nat} :
    ∀ (k fuel v pos : Nat), k < fuel → v < UINT32_MOD → pos + k ≤ seiSize →
      (∀ j, j < k → mem[seiData + (pos + j)]? = some 0xFF) →
      (pos + k < seiSize → ∃ b, mem[seiData + (pos + k)]? = some b ∧ b ≠ 0xFF) →
      readEscape mem seiData seiSize fuel v pos
        = .ok ((v + 255 * k) % UINT32_MOD, pos + k) := by
  intro k
  induction k with
  | zero =>
    intro fuel v pos hf hv _ _ hstop
    obtain ⟨f, rfl⟩ : ∃ f, fuel = f + 1 := ⟨fuel - 1, by omega⟩
    simp only [Nat.mul_zero, Nat.add_zero] at hstop ⊢
    rw [Nat.mod_eq_of_lt hv, readEscape]
    by_cases hp : pos < seiSize
    · obtain ⟨b, hb, hne⟩ := hstop hp
      rw [if_pos hp, readByte_eq_ok.mpr hb]
      simp only [hne, if_false]
    · rw [if_neg hp]
  | succ k ih =>
    intro fuel v pos hf hv hle hrun hstop
    obtain ⟨f, rfl⟩ : ∃ f, fuel = f + 1 := ⟨fuel - 1, by omega⟩
    have h0 := hrun 0 (by omega)
    rw [Nat.add_zero] at h0
    rw [readEscape, if_pos (by omega), readByte_eq_ok.mpr h0]
    simp only [if_true]
    rw [ih f ((v + 255) % UINT32_MOD) (pos + 1) (by omega) (Nat.mod_lt _ uint32_pos) (by omega)
      (fun j hj => by
        have := hrun (j + 1) (by omega)
        rw [show pos + 1 + j = pos + (j + 1) from by omega]
        exact this)
      (fun hlt => by
        have := hstop (by omega)
        rw [show pos + 1 + k = pos + (k + 1) from by omega]
        exact this),
      Nat.mod_add_mod, show v + 255 + 255 * k = v + 255 * (k + 1) from by omega,
      show pos + 1 + k = pos + (k + 1) from by omega]

theorem emulationAt_true_lt {mem : List Byte} {data size i : Nat}
    (h : emulationAt mem data size i = .ok true) : data + (i + 2) < mem.length := by
  unfold emulationAt at h
  by_cases c : i + 2 < size
  · rw [if_pos c] at h
    cases h0 : readByte mem (data + i) with
    | error e => rw [h0] at h; cases h
    | ok b0 =>
      rw [h0] at h
      simp only [] at h
      by_cases c0 : b0 = 0
      · rw [if_pos c0] at h
        cases h1 : readByte mem (data + (i + 1)) with
        | error e => rw [h1] at h; cases h
        | ok b1 =>
          rw [h1] at h
          simp only [] at h
          by_cases c1 : b1 = 0
          · rw [if_pos c1] at h
            cases h2 : readByte mem (data + (i + 2)) with
            | error e => rw [h2] at h; cases h
            | ok b2 => exact readByte_ok_lt h2
          · rw [if_neg c1] at h
            cases h
      · rw [if_neg c0] at h
        cases h
  · rw [if_neg c] at h
    cases h

theorem readByte_error {mem : List Byte} {a : Nat} {e : Fault}
    (h : readByte mem a = .error e) : e = .outOfBounds := by
  unfold readByte at h
  cases hm : mem[a]? with
  | none => rw [hm] at h; cases h; rfl
  | some b => rw [hm] at h; cases h

theorem emulationAt_error {mem : List Byte} {data size i : Nat} {e : Fault}
    (h : emulationAt mem data size i = .error e) : e = .outOfBounds := by
  unfold emulationAt at h
  by_cases c : i + 2 < size
  · rw [if_pos c] at h
    cases h0 : readByte mem (data + i) with
    | error e0 => rw [h0] at h; cases h; exact readByte_error h0
    | ok b0 =>
      rw [h0] at h
      simp only [] at h
      by_cases c0 : b0 = 0
      · rw [if_pos c0] at h
        cases h1 : readByte mem (data + (i + 1)) with
        | error e1 => rw [h1] at h; cases h; exact readByte_error h1
        | ok b1 =>
          rw [h1] at h
          simp only [] at h
          by_cases c1 : b1 = 0
          · rw [if_pos c1] at h
            cases h2 : readByte mem (data + (i + 2)) with
            | error e2 => rw [h2] at h; cases h; exact readByte_error h2
            | ok b2 => rw [h2] at h; cases h
          · rw [if_neg c1] at h
            cases h
      · rw [if_neg c0] at h
        cases h
  · rw [if_neg c] at h
    cases h

theorem rbspDecodeLoop_overrun {mem : List Byte} {data size : Nat}
    (hover : mem.length < data + size) :
    ∀ (fuel i : Nat) (decoded : List Byte), i < size → size - i ≤ fuel →
      rbspDecodeLoop mem data size fuel i decoded = .error .outOfBounds := by
  intro fuel
  induction fuel with
  | zero => intro i decoded hi hf; omega
  | succ fuel ih =>
    intro i decoded hi hf
    rw [rbspDecodeLoop, if_pos hi]
    cases he : emulationAt mem data size i with
    | error e =>
      cases e with
      | outOfBounds => rfl
      | outOfFuel => exact absurd (emulationAt_error he) (by decide)
    | ok b =>
      cases b with
      | true =>
        have hlt := emulationAt_true_lt he
        simp only []
        rw [readByte_of_lt (by omega), readByte_of_lt (by omega)]
        exact ih (i + 3) _ (by omega) (by omega)
      | false =>
        simp only []
        by_cases hin : data + i < mem.length
        · rw [readByte_of_lt hin]
          exact ih (i + 1) _ (by omega) (by omega)
        · rw [readByte_of_ge (by omega)]

theorem rbspDecode_overrun {mem : List Byte} {data size : Nat}
    (hover : mem.length < data + size) (h0 : 0 < size) :
    rbspDecode mem data size = .error .outOfBounds := by
  unfold rbspDecode
  exact rbspDecodeLoop_overrun hover size 0 [] h0 (by omega)

theorem seiMessage_overrun {self : SEIParser} {mem : List Byte} {seiData seiSize pos ks : Nat}
    {entries : List SEIEntry} {tb sb : Byte}
    (ht : mem[seiData + pos]? = some tb) (ht' : tb ≠ 0xFF)
    (hrun : ∀ j, j < ks → mem[seiData + (pos + 1 + j)]? = some 0xFF)
    (hs : mem[seiData + (pos + 1 + ks)]? = some sb) (hs' : sb ≠ 0xFF)
    (hlt : pos + 1 + ks < seiSize)
    (hwrap : (pos + 1 + ks + 1 + (255 * ks + sb.val) % UINT32_MOD) % SIZE_T_MOD ≤ seiSize)
    (hpos : 0 < (255 * ks + sb.val) % UINT32_MOD)
    (hover : mem.length < seiData + (pos + 1 + ks + 1) + (255 * ks + sb.val) % UINT32_MOD) :
    seiMessage self mem seiData seiSize pos entries = .error .outOfBounds := by
  unfold seiMessage
  rw [readEscape_stop (by omega) ht ht']
  simp only []
  rw [if_neg (by omega), readByte_eq_ok.mpr ht]
  simp only []
  rw [readEscape_run ks (seiSize + 1) 0 (pos + 1) (by omega) uint32_pos (by omega) hrun
    (fun _ => ⟨sb, hs, hs'⟩)]
  simp only []
  rw [if_neg (by omega), readByte_eq_ok.mpr hs]
  simp only [Nat.zero_add, Nat.mod_add_mod]
  rw [if_neg (by omega), rbspDecode_overrun (by omega) hpos]

theorem containsTriple_cons_ne {a b c x : Byte} (l : List Byte) (hx : x ≠ a) :
    containsTriple a b c (x :: l) = containsTriple a b c l := by
  match l with
  | [] => rfl
  | [_] => rfl
  | y :: z :: rest => simp [containsTriple, hx]

theorem containsTriple_run (n : Nat) :
    containsTriple 0 0 1 (List.replicate n (0xFF : Byte) ++ [0]) = false := by
  induction n with
  | zero => rfl
  | succ n ih =>
    rw [List.replicate_succ, List.cons_append, containsTriple_cons_ne _ (by decide)]
    exact ih

theorem overflowUnit_length (n : Nat) : (overflowUnit n).length = n + 7 := by
  simp [overflowUnit]

theorem overflowUnit_run (n j : Nat) (hj : j < n) :
    (overflowUnit n)[5 + (0 + 1 + j)]? = some 0xFF := by
  unfold overflowUnit
  rw [show 5 + (0 + 1 + j) = ([0, 0, 1, 0x4E, 1, 5] : List Byte).length + j from by
    simp only [List.length_cons, List.length_nil]; omega]
  rw [getElem?_append_add, List.getElem?_append_left (by simpa using hj)]
  simp [hj]

theorem overflowUnit_last (n : Nat) : (overflowUnit n)[5 + (0 + 1 + n)]? = some 0 := by
  unfold overflowUnit
  rw [show 5 + (0 + 1 + n) = ([0, 0, 1, 0x4E, 1, 5] : List Byte).length + n from by
    simp only [List.length_cons, List.length_nil]; omega]
  rw [getElem?_append_add, List.getElem?_append_right (by simp)]
  simp

/-- The extractor on `overflowUnit n` when the declared size `255 * n`, added to the
cursor `n + 2`, wraps around `SIZE_T_MOD` to a value inside the message region. -/
theorem parseSEINAL_overflowUnit (self : SEIParser) (entries : List SEIEntry) (n : Nat)
    (hwrap : (n + 2 + (255 * n) % UINT32_MOD) % SIZE_T_MOD ≤ n + 2)
    (hpos : 0 < (255 * n) % UINT32_MOD) :
    parseSEINAL self (overflowUnit n) 3 (n + 4) entries = .error .outOfBounds := by
  unfold parseSEINAL
  rw [if_neg (by omega), show n + 4 - 2 = (n + 1) + 1 from by omega, parseSEILoop,
    if_pos (by omega)]
  have hmsg : seiMessage self (overflowUnit n) (3 + 2) (n + 1 + 1) 0 entries
      = .error .outOfBounds := by
    refine @seiMessage_overrun self (overflowUnit n) 5 (n + 1 + 1) 0 n entries 5 0 ?_ (by decide)
      (overflowUnit_run n) (overflowUnit_last n) (by decide) (by omega) ?_ ?_ ?_
    · simp [overflowUnit]
    · rw [show 0 + 1 + n + 1 = n + 2 from by omega]
      simpa using hwrap
    · simpa using hpos
    · rw [overflowUnit_length]
      have : 0 < (255 * n + (0 : Byte).val) % UINT32_MOD := by simpa using hpos
      omega
  rw [hmsg]

theorem findNALUnits_overflowUnit (n : Nat) :
    findNALUnits (overflowUnit n) = .ok [(3, n + 4)] := by
  have h := @findNALUnits_single_unit false
    ([0x4E, 1, 5] ++ (List.replicate n (0xFF : Byte) ++ [0])) (by simp) (by
      rw [List.cons_append, containsTriple_cons_ne _ (by decide), List.cons_append,
        containsTriple_cons_ne _ (by decide), List.cons_append,
        containsTriple_cons_ne _ (by decide), List.nil_append]
      exact containsTriple_run n)
  have hl : ([0x4E, 1, 5] ++ (List.replicate n (0xFF : Byte) ++ [0])).length = n + 4 := by
    simp
  rw [hl] at h
  exact h

theorem parse_overflowUnit (self : SEIParser) (n : Nat)
    (hwrap : (n + 2 + (255 * n) % UINT32_MOD) % SIZE_T_MOD ≤ n + 2)
    (hpos : 0 < (255 * n) % UINT32_MOD) :
    parse self (overflowUnit n) = .error .outOfBounds := by
  rw [parse_eq_parseUnits (findNALUnits_overflowUnit n),
    @parseUnits_single_sei _ (overflowUnit n) 3 (n + 4) 0x4E [] (by omega)
      (by simp [overflowUnit]) (by decide),
    parseSEINAL_overflowUnit _ _ n hwrap hpos]

theorem overflow_wraps :
    (16777216 + 2 + (255 * 16777216) % UINT32_MOD) % SIZE_T_MOD ≤ 16777216 + 2 := by
  unfold UINT32_MOD SIZE_T_MOD
  decide

theorem overflow_declared : 0 < (255 * 16777216) % UINT32_MOD := by
  unfold UINT32_MOD
  decide

/-- C12. The truncation policy fails on `overflowStream`: the one message of its SEI
unit (offset 3, 16777220 bytes) declares 4278190080 payload bytes with none left in the
message region, yet `parseSEINAL` does not stop with the records so far: in 32 bits
the sum `pos + payloadSize` wraps to 2, the test `pos + payloadSize > seiSize` is
false, and `rbspDecode` is called with that size on a pointer at the end of the buffer,
where its first read is already outside the buffer. -/
theorem parseSEINAL_size_check_wraps (self : SEIParser) (entries : List SEIEntry) :
    overflowStream.length = 16777223
      ∧ parseSEINAL self overflowStream 3 16777220 entries = .error .outOfBounds :=
  ⟨overflowUnit_length 16777216,
    parseSEINAL_overflowUnit self entries 16777216 overflow_wraps overflow_declared⟩

/-- C20. The parser is not in bounds on every buffer of at least 3 bytes: on
`overflowStream` (16777223 bytes) the scanner finds the one unit, the size check of
the extractor wraps around, and `rbspDecode` is called with a size of 4278190080 on a
pointer at the end of the buffer, where its first read is already outside the buffer. -/
theorem parse_overflowStream_faults (self : SEIParser) :
    3 ≤ overflowStream.length
      ∧ findNALUnits overflowStream = .ok [(3, 16777220)]
      ∧ parse self overflowStream = .error .outOfBounds :=
  ⟨by rw [overflowStream, overflowUnit_length]; omega, findNALUnits_overflowUnit 16777216,
    parse_overflowUnit self 16777216 overflow_wraps overflow_declared⟩

/-! ## One escaped message inside a buffer -/

theorem mod_uint32_of_lt_size {x : Nat} (h : x < SIZE_T_MOD) : x % UINT32_MOD = x := by
  unfold SIZE_T_MOD at h
  exact mod_uint32 h

theorem seiMessage_escaped {self self1 : SEIParser} {mem : List Byte}
    {seiData seiSize pos kt ks : Nat} {entries entries1 : List SEIEntry} {tb sb : Byte}
    {dec : List Byte}
    (htrun : ∀ j, j < kt → mem[seiData + (pos + j)]? = some 0xFF)
    (ht : mem[seiData + (pos + kt)]? = some tb) (ht' : tb ≠ 0xFF)
    (hsrun : ∀ j, j < ks → mem[seiData + (pos + kt + 1 + j)]? = some 0xFF)
    (hs : mem[seiData + (pos + kt + 1 + ks)]? = some sb) (hs' : sb ≠ 0xFF)
    (hfit : pos + kt + 1 + ks + 1 + (255 * ks + sb.val) ≤ seiSize)
    (hsz : seiSize < SIZE_T_MOD) (hmem : seiData + seiSize ≤ mem.length)
    (hdec : rbspDecode mem (seiData + (pos + kt + 1 + ks + 1)) (255 * ks + sb.val) = .ok dec)
    (hdisp : dispatchPayload self ((255 * kt + tb.val) % UINT32_MOD) dec entries
      = .ok (entries1, self1)) :
    seiMessage self mem seiData seiSize pos entries =
      .ok (some (if pos + kt + 1 + ks + 1 + (255 * ks + sb.val) < seiSize
          ∧ mem[seiData + (pos + kt + 1 + ks + 1 + (255 * ks + sb.val))]? = some 0x80
        then pos + kt + 1 + ks + 1 + (255 * ks + sb.val) + 1
        else pos + kt + 1 + ks + 1 + (255 * ks + sb.val), entries1, self1)) := by
  have hsv : (255 * ks + sb.val) % UINT32_MOD = 255 * ks + sb.val :=
    mod_uint32_of_lt_size (by omega)
  have hp4 : (pos + kt + 1 + ks + 1 + (255 * ks + sb.val)) % SIZE_T_MOD
      = pos + kt + 1 + ks + 1 + (255 * ks + sb.val) := mod_size (by omega)
  unfold seiMessage
  rw [readEscape_run kt (seiSize + 1) 0 pos (by omega) uint32_pos (by omega) htrun
    (fun _ => ⟨tb, ht, ht'⟩)]
  simp only []
  rw [if_neg (by omega), readByte_eq_ok.mpr ht]
  simp only []
  rw [readEscape_run ks (seiSize + 1) 0 (pos + kt + 1) (by omega) uint32_pos (by omega) hsrun
    (fun _ => ⟨sb, hs, hs'⟩)]
  simp only []
  rw [if_neg (by omega), readByte_eq_ok.mpr hs]
  simp only [Nat.zero_add, Nat.mod_add_mod, hsv, hp4]
  rw [if_neg (by omega), hdec]
  simp only [hdisp]
  by_cases hlt : pos + kt + 1 + ks + 1 + (255 * ks + sb.val) < seiSize
  · rw [if_pos hlt]
    have hin : seiData + (pos + kt + 1 + ks + 1 + (255 * ks + sb.val)) < mem.length := by omega
    rw [readByte_of_lt hin]
    simp only [List.getElem?_eq_getElem hin, Option.some.injEq, hlt, true_and]
    by_cases hab : mem[seiData + (pos + kt + 1 + ks + 1 + (255 * ks + sb.val))] = 0x80
    · rw [if_pos hab, if_pos hab]
    · rw [if_neg hab, if_neg hab]
  · rw [if_neg hlt, if_neg (fun h => hlt h.1)]

theorem escBytes_spec (v : Nat) :
    ∃ b : Byte, b ≠ 0xFF ∧ escBytes v = List.replicate (v / 255) 0xFF ++ [b]
      ∧ 255 * (v / 255) + b.val = v := by
  refine ⟨⟨v % 255, by omega⟩, ?_, rfl, ?_⟩
  · intro h
    have := congrArg Fin.val h
    simp only [] at this
    have h255 : ((0xFF : Byte) : Nat) = 255 := rfl
    omega
  · simp only []
    omega

theorem getElem?_region (F pre l : List Byte) (j : Nat) :
    (F ++ (pre ++ l))[F.length + (pre.length + j)]? = l[j]? := by
  rw [getElem?_append_add, getElem?_append_add]

theorem getElem?_run_left (k : Nat) (l : List Byte) {j : Nat} (hj : j < k) :
    (List.replicate k (0xFF : Byte) ++ l)[j]? = some 0xFF := by
  rw [List.getElem?_append_left (by simpa using hj)]
  simp [hj]

theorem getElem?_run_right (k : Nat) (l : List Byte) (j : Nat) :
    (List.replicate k (0xFF : Byte) ++ l)[k + j]? = l[j]? := by
  have := getElem?_append_add (List.replicate k (0xFF : Byte)) l j
  rw [List.length_replicate] at this
  exact this

theorem getElem?_run_end (k : Nat) (b : Byte) (l : List Byte) :
    (List.replicate k (0xFF : Byte) ++ b :: l)[k]? = some b := by
  have := getElem?_run_right k (b :: l) 0
  rw [Nat.add_zero] at this
  rw [this, List.getElem?_cons_zero]

theorem getElem?_run_succ (k : Nat) (b : Byte) (l : List Byte) (j : Nat) :
    (List.replicate k (0xFF : Byte) ++ b :: l)[k + 1 + j]? = l[j]? := by
  have := getElem?_run_right k (b :: l) (j + 1)
  rw [List.getElem?_cons_succ] at this
  rw [show k + 1 + j = k + (j + 1) from by omega]
  exact this

/-- The message step on an encoded message that lies, after `pre`, in a message region
that begins at `F.length`. -/
theorem seiMessage_encodeMessage {self self1 : SEIParser} {entries entries1 : List SEIEntry}
    (F pre rest : List Byte) (t : Nat) (raw : List Byte)
    (hsz : (pre ++ (encodeMessage t raw ++ rest)).length < SIZE_T_MOD)
    (hdisp : dispatchPayload self (t % UINT32_MOD) (unescapeList raw) entries
      = .ok (entries1, self1)) :
    seiMessage self (F ++ (pre ++ (encodeMessage t raw ++ rest))) F.length
        (pre ++ (encodeMessage t raw ++ rest)).length pre.length entries
      = .ok (some ((pre ++ encodeMessage t raw).length
          + (if rest.head? = some 0x80 then 1 else 0), entries1, self1)) := by
  obtain ⟨tb, ht', hT, hTv⟩ := escBytes_spec t
  obtain ⟨sb, hs', hS, hSv⟩ := escBytes_spec raw.length
  generalize t / 255 = kt at hT hTv
  generalize hks : raw.length / 255 = ks at hS hSv
  have hreg : encodeMessage t raw ++ rest
      = List.replicate kt 0xFF ++ (tb :: (List.replicate ks 0xFF ++ (sb :: (raw ++ rest)))) := by
    simp [encodeMessage, hT, hS]
  have hlen : (encodeMessage t raw).length = kt + 1 + ks + 1 + raw.length := by
    simp [encodeMessage, hT, hS]
    omega
  have hss : (pre ++ (encodeMessage t raw ++ rest)).length
      = pre.length + (kt + 1 + ks + 1 + raw.length) + rest.length := by
    rw [List.length_append, List.length_append, hlen]
    omega
  have hat : ∀ j, (F ++ (pre ++ (encodeMessage t raw ++ rest)))[F.length + (pre.length + j)]?
      = (List.replicate kt 0xFF
          ++ (tb :: (List.replicate ks 0xFF ++ (sb :: (raw ++ rest)))))[j]? := by
    intro j
    rw [getElem?_region, hreg]
  have hdec : rbspDecode (F ++ (pre ++ (encodeMessage t raw ++ rest)))
      (F.length + (pre.length + kt + 1 + ks + 1)) (255 * ks + sb.val)
        = .ok (unescapeList raw) := by
    rw [rbspDecode_eq (by
      rw [List.length_append, hss]
      omega)]
    have hm : F ++ (pre ++ (encodeMessage t raw ++ rest))
        = (F ++ (pre ++ (List.replicate kt 0xFF ++ (tb :: (List.replicate ks 0xFF ++ [sb])))))
          ++ (raw ++ rest) := by
      rw [hreg]
      simp
    have ha : F.length + (pre.length + kt + 1 + ks + 1)
        = (F ++ (pre ++ (List.replicate kt (0xFF : Byte)
            ++ (tb :: (List.replicate ks 0xFF ++ [sb]))))).length := by
      simp
      omega
    rw [hm, ha, hSv, slice_append_mid]
  have key := @seiMessage_escaped self self1 (F ++ (pre ++ (encodeMessage t raw ++ rest)))
    F.length (pre ++ (encodeMessage t raw ++ rest)).length pre.length kt ks entries entries1
    tb sb (unescapeList raw)
    (fun j hj => by rw [hat, getElem?_run_left kt _ hj])
    (by rw [hat, getElem?_run_end])
    ht'
    (fun j hj => by
      rw [show pre.length + kt + 1 + j = pre.length + (kt + 1 + j) from by omega, hat,
        getElem?_run_succ, getElem?_run_left ks _ hj])
    (by
      rw [show pre.length + kt + 1 + ks = pre.length + (kt + 1 + ks) from by omega, hat,
        getElem?_run_succ, getElem?_run_end])
    hs'
    (by rw [hss, hSv]; omega)
    hsz
    (by simp only [List.length_append]; omega)
    hdec
    (by rw [hTv]; exact hdisp)
  rw [key, hSv]
  have hnext : (F ++ (pre ++ (encodeMessage t raw ++ rest)))[F.length
      + (pre.length + kt + 1 + ks + 1 + raw.length)]? = rest.head? := by
    rw [show pre.length + kt + 1 + ks + 1 + raw.length
        = pre.length + (kt + 1 + (ks + 1 + raw.length)) from by omega, hat,
      getElem?_run_succ, getElem?_run_succ]
    have := getElem?_append_add raw rest 0
    rw [Nat.add_zero] at this
    rw [this]
    cases rest <;> simp
  rw [hnext]
  have hpl : (pre ++ encodeMessage t raw).length = pre.length + kt + 1 + ks + 1 + raw.length := by
    rw [List.length_append, hlen]
    omega
  rw [hpl]
  by_cases h80 : rest.head? = some 0x80
  · have hne : 0 < rest.length := by
      cases rest with
      | nil => cases h80
      | cons _ _ => simp
    rw [if_pos ⟨by rw [hss]; omega, h80⟩, if_pos h80]
  · rw [if_neg (fun h => h80 h.2), if_neg h80]
    rfl

/-! ## Framing of a sequence of messages -/

theorem rbspDecode_whole (raw : List Byte) :
    rbspDecode raw 0 raw.length = .ok (unescapeList raw) := by
  rw [rbspDecode_eq (by omega)]
  simp [slice]

theorem dispatchPayload_record (self : SEIParser) (entries : List SEIEntry) {t : Nat}
    {dec : List Byte} (ht : t = 5 ∨ t = 136) (h16 : t = 5 → 16 ≤ dec.length) :
    ∃ e self1, dispatchPayload self t dec entries = .ok (entries ++ [e], self1)
      ∧ e.type = t ∧ e.payload = dec := by
  rcases ht with rfl | rfl
  · refine ⟨_, self, dispatchPayload_user_data entries (h16 rfl), ?_, ?_⟩
    · rw [parseUserDataUnregistered_full _ (h16 rfl)]
    · rw [parseUserDataUnregistered_full _ (h16 rfl)]
  · obtain ⟨e, he⟩ := parseTimecode_total dec self.sequentialFrameCounter
    obtain ⟨h1, _, h3, _⟩ := parseTimecode_ok he
    refine ⟨e, { self with
      sequentialFrameCounter := (self.sequentialFrameCounter + 1) % UINT32_MOD }, ?_, h1, h3⟩
    unfold dispatchPayload
    rw [if_neg (by decide), if_pos (by rfl), he]

theorem escBytes_length (v : Nat) : (escBytes v).length = v / 255 + 1 := by
  simp [escBytes]

theorem encodeMessage_length (t : Nat) (raw : List Byte) :
    (encodeMessage t raw).length = t / 255 + 1 + (raw.length / 255 + 1) + raw.length := by
  simp only [encodeMessage, List.length_append, escBytes_length]
  omega

theorem encodeMessages_length_ge (msgs : List (Nat × List Byte)) :
    msgs.length ≤ (encodeMessages msgs).length := by
  induction msgs with
  | nil => simp [encodeMessages]
  | cons m ms ih =>
    simp only [encodeMessages, List.length_append, List.length_cons, encodeMessage_length]
    omega

theorem encodeMessage_head (t : Nat) (raw rest : List Byte) (ht : t = 5 ∨ t = 136) :
    (encodeMessage t raw ++ rest).head? ≠ some 0x80 := by
  rcases ht with rfl | rfl
  · simp [encodeMessage, escBytes]
  · simp [encodeMessage, escBytes]

theorem parseSEILoop_messages (F tail : List Byte) (htail : tail = [] ∨ tail = [0x80]) :
    ∀ (msgs : List (Nat × List Byte)) (pre : List Byte) (entries : List SEIEntry)
      (self : SEIParser) (fuel : Nat),
      msgs ≠ [] →
      (∀ m ∈ msgs, (m.1 = 5 ∨ m.1 = 136) ∧ (m.1 = 5 → 16 ≤ (unescapeList m.2).length)) →
      (pre ++ (encodeMessages msgs ++ tail)).length < SIZE_T_MOD →
      msgs.length ≤ fuel →
      ∃ recs self1,
        parseSEILoop (F ++ (pre ++ (encodeMessages msgs ++ tail))) F.length
            (pre ++ (encodeMessages msgs ++ tail)).length fuel pre.length entries self
          = .ok (entries ++ recs, self1)
        ∧ List.Forall₂ (fun m r => r.type = m.1 ∧ r.payload = unescapeList m.2) msgs recs := by
  intro msgs
  induction msgs with
  | nil => intro _ _ _ _ h; exact absurd rfl h
  | cons m ms ih =>
    intro pre entries self fuel _ hall hsz hfuel
    obtain ⟨f, rfl⟩ : ∃ f, fuel = f + 1 := ⟨fuel - 1, by
      simp only [List.length_cons] at hfuel
      omega⟩
    obtain ⟨hm, hm16⟩ := hall m (List.mem_cons_self _ _)
    have hassoc : encodeMessages (m :: ms) ++ tail
        = encodeMessage m.1 m.2 ++ (encodeMessages ms ++ tail) := by
      simp [encodeMessages]
    rw [hassoc] at hsz ⊢
    have hpos : pre.length < (pre ++ (encodeMessage m.1 m.2 ++ (encodeMessages ms ++ tail))).length := by
      simp only [List.length_append, encodeMessage_length]
      omega
    have hmod : m.1 % UINT32_MOD = m.1 := by
      rcases hm with h | h <;> rw [h] <;> exact mod_uint32 (by decide)
    obtain ⟨e, self1, hdisp, hty, hpl⟩ := @dispatchPayload_record self entries m.1
      (unescapeList m.2) hm hm16
    rw [parseSEILoop, if_pos hpos,
      @seiMessage_encodeMessage self self1 entries (entries ++ [e]) F pre
        (encodeMessages ms ++ tail) m.1 m.2 hsz (by rw [hmod]; exact hdisp)]
    simp only []
    cases ms with
    | nil =>
      refine ⟨[e], self1, ?_, List.Forall₂.cons ⟨hty, hpl⟩ List.Forall₂.nil⟩
      rw [parseSEILoop_done]
      rcases htail with rfl | rfl
      · simp [encodeMessages]
      · simp [encodeMessages]
        omega
    | cons m2 ms2 =>
      have hm2 := (hall m2 (List.mem_cons_of_mem _ (List.mem_cons_self _ _))).1
      have hhead : (encodeMessages (m2 :: ms2) ++ tail).head? ≠ some 0x80 := by
        have : encodeMessages (m2 :: ms2) ++ tail
            = encodeMessage m2.1 m2.2 ++ (encodeMessages ms2 ++ tail) := by
          simp [encodeMessages]
        rw [this]
        exact encodeMessage_head _ _ _ hm2
      rw [if_neg hhead, Nat.add_zero]
      have hmem : F ++ (pre ++ (encodeMessage m.1 m.2 ++ (encodeMessages (m2 :: ms2) ++ tail)))
          = F ++ ((pre ++ encodeMessage m.1 m.2) ++ (encodeMessages (m2 :: ms2) ++ tail)) := by
        rw [List.append_assoc]
      have hlen : (pre ++ (encodeMessage m.1 m.2 ++ (encodeMessages (m2 :: ms2) ++ tail))).length
          = ((pre ++ encodeMessage m.1 m.2) ++ (encodeMessages (m2 :: ms2) ++ tail)).length := by
        rw [List.append_assoc]
      rw [hmem, hlen]
      obtain ⟨recs, self2, hrun, hrecs⟩ := ih (pre ++ encodeMessage m.1 m.2) (entries ++ [e])
        self1 f (List.cons_ne_nil _ _)
        (fun x hx => hall x (List.mem_cons_of_mem _ hx))
        (by rw [← hlen]; exact hsz)
        (by simp only [List.length_cons] at hfuel ⊢; omega)
      refine ⟨e :: recs, self2, ?_, List.Forall₂.cons ⟨hty, hpl⟩ hrecs⟩
      rw [hrun, List.append_assoc]
      rfl

/-- C16. For an SEI NAL unit made of a 2-byte header, `k ≥ 1` messages and optionally
one final `0x80`, message `i` being a type byte `t_i` in `{5, 136}`, the size `s_i`
written as `s_i / 255` bytes `0xFF` and the byte `s_i % 255`, and `s_i` raw payload bytes
`R_i` (whose de-escaped form has at least 16 bytes when `t_i = 5`), `parseSEINAL`
appends exactly `k` records in message order, record `i` having type `t_i` and payload
`rbspDecode(R_i)`: the cursor moves by the raw size. The unit is shorter than `2 ^ 32`
bytes, as every buffer of the 32-bit target is. -/
theorem parseSEINAL_framing (self : SEIParser) (entries : List SEIEntry) (h0 h1 : Byte)
    (msgs : List (Nat × List Byte)) (trailing : Bool)
    (hk : 1 ≤ msgs.length)
    (hmsgs : ∀ m ∈ msgs, (m.1 = 5 ∨ m.1 = 136)
      ∧ (m.1 = 5 → ∃ d, rbspDecode m.2 0 m.2.length = .ok d ∧ 16 ≤ d.length))
    (hsz : (seiUnit h0 h1 msgs trailing).length < SIZE_T_MOD) :
    ∃ recs self1,
      parseSEINAL self (seiUnit h0 h1 msgs trailing) 0 (seiUnit h0 h1 msgs trailing).length
          entries = .ok (entries ++ recs, self1)
      ∧ List.Forall₂ (fun m r => r.type = m.1 ∧ rbspDecode m.2 0 m.2.length = .ok r.payload)
          msgs recs := by
  have hne : msgs ≠ [] := by
    intro h
    rw [h] at hk
    exact absurd hk (by decide)
  have htail : (if trailing then [(0x80 : Byte)] else []) = []
      ∨ (if trailing then [(0x80 : Byte)] else []) = [0x80] := by
    cases trailing
    · exact Or.inl rfl
    · exact Or.inr rfl
  have hlen : (seiUnit h0 h1 msgs trailing).length
      = ([] ++ (encodeMessages msgs ++ if trailing then [(0x80 : Byte)] else [])).length + 2 := by
    simp only [seiUnit, List.length_append, List.length_cons, List.length_nil]
    omega
  have hge := encodeMessages_length_ge msgs
  obtain ⟨recs, self1, hrun, hrecs⟩ := parseSEILoop_messages [h0, h1] _ htail msgs [] entries self
    (([] ++ (encodeMessages msgs ++ if trailing then [(0x80 : Byte)] else [])).length) hne
    (fun m hm => ⟨(hmsgs m hm).1, fun h5 => by
      obtain ⟨d, hd, h16⟩ := (hmsgs m hm).2 h5
      rw [rbspDecode_whole] at hd
      cases hd
      exact h16⟩)
    (by rw [hlen] at hsz; omega)
    (by simp only [List.nil_append, List.length_append]; omega)
  refine ⟨recs, self1, ?_, hrecs.imp (fun _ _ h => ⟨h.1, by rw [rbspDecode_whole, h.2]⟩)⟩
  unfold parseSEINAL
  rw [if_neg (by rw [hlen]; simp only [List.nil_append, List.length_append]; omega), hlen,
    Nat.add_sub_cancel]
  exact hrun

theorem parseSEINAL_framing_witness :
    ∃ recs self1,
      parseSEINAL ⟨3⟩
          (seiUnit 0x4E 1
            [(5, [0, 0, 3, 0, 42, 1, 2, 3, 4, 5, 6, 7, 8, 9, 10, 11, 12]), (136, [0x12, 0x34])]
            true) 0
          (seiUnit 0x4E 1
            [(5, [0, 0, 3, 0, 42, 1, 2, 3, 4, 5, 6, 7, 8, 9, 10, 11, 12]), (136, [0x12, 0x34])]
            true).length [] = .ok ([] ++ recs, self1)
      ∧ List.Forall₂ (fun m r => r.type = m.1 ∧ rbspDecode m.2 0 m.2.length = .ok r.payload)
          [(5, [0, 0, 3, 0, 42, 1, 2, 3, 4, 5, 6, 7, 8, 9, 10, 11, 12]), (136, [0x12, 0x34])]
          recs :=
  parseSEINAL_framing ⟨3⟩ [] 0x4E 1
    [(5, [0, 0, 3, 0, 42, 1, 2, 3, 4, 5, 6, 7, 8, 9, 10, 11, 12]), (136, [0x12, 0x34])] true
    (by decide)
    (by
      intro m hm
      simp only [List.mem_cons, List.mem_singleton, List.not_mem_nil, or_false] at hm
      rcases hm with rfl | rfl
      · exact ⟨Or.inl rfl, fun _ =>
          ⟨[0, 0, 0, 42, 1, 2, 3, 4, 5, 6, 7, 8, 9, 10, 11, 12], by with_unfolding_all rfl,
            by decide⟩⟩
      · exact ⟨Or.inr rfl, fun h => absurd h (by decide)⟩)
    (by unfold SIZE_T_MOD; decide)

/-! ## The message loop seen from a later cursor -/

theorem readEscape_bound {mem : List Byte} {seiData seiSize : Nat} :
    ∀ (fuel v pos v1 p1 : Nat), readEscape mem seiData seiSize fuel v pos = .ok (v1, p1) →
      pos ≤ p1 ∧ v1 ≤ v + 255 * (p1 - pos) := by
  intro fuel
  induction fuel with
  | zero =>
    intro v pos v1 p1 h
    rw [readEscape] at h
    by_cases hp : pos < seiSize
    · rw [if_pos hp] at h; cases h
    · rw [if_neg hp] at h
      cases h
      exact ⟨le_refl _, by omega⟩
  | succ fuel ih =>
    intro v pos v1 p1 h
    rw [readEscape] at h
    by_cases hp : pos < seiSize
    · rw [if_pos hp] at h
      cases hb : readByte mem (seiData + pos) with
      | error e => rw [hb] at h; cases h
      | ok b =>
        rw [hb] at h
        simp only [] at h
        by_cases hff : b = 0xFF
        · rw [if_pos hff] at h
          obtain ⟨h1, h2⟩ := ih _ _ _ _ h
          have := Nat.mod_le (v + 255) UINT32_MOD
          exact ⟨by omega, by omega⟩
        · rw [if_neg hff] at h
          cases h
          exact ⟨le_refl _, by omega⟩
    · rw [if_neg hp] at h
      cases h
      exact ⟨le_refl _, by omega⟩

theorem readByte_congr {mem mem1 : List Byte} {a a1 : Nat} (h : mem[a]? = mem1[a1]?) :
    readByte mem a = readByte mem1 a1 := by
  unfold readByte
  rw [h]

theorem readEscape_shift {mem mem1 : List Byte} {seiData seiData1 c seiSize1 : Nat}
    (hag : ∀ j, j < seiSize1 → mem[seiData + (c + j)]? = mem1[seiData1 + j]?) :
    ∀ (fuel v pos : Nat),
      readEscape mem seiData (c + seiSize1) fuel v (c + pos)
        = shiftEscape c (readEscape mem1 seiData1 seiSize1 fuel v pos) := by
  intro fuel
  induction fuel with
  | zero =>
    intro v pos
    rw [readEscape, readEscape]
    by_cases hp : pos < seiSize1
    · rw [if_pos hp, if_pos (by omega)]; rfl
    · rw [if_neg hp, if_neg (by omega)]; rfl
  | succ fuel ih =>
    intro v pos
    rw [readEscape, readEscape]
    by_cases hp : pos < seiSize1
    · rw [if_pos hp, if_pos (by omega), readByte_congr (hag pos hp)]
      cases readByte mem1 (seiData1 + pos) with
      | error e => rfl
      | ok b =>
        simp only []
        by_cases hff : b = 0xFF
        · rw [if_pos hff, if_pos hff, Nat.add_assoc]
          exact ih _ _
        · rw [if_neg hff, if_neg hff]; rfl
    · rw [if_neg hp, if_neg (by omega)]; rfl

theorem slice_congr {mem mem1 : List Byte} {a a1 n : Nat}
    (h : ∀ j, j < n → mem[a + j]? = mem1[a1 + j]?) : slice mem a n = slice mem1 a1 n := by
  unfold slice
  apply List.ext_getElem?
  intro j
  by_cases hj : j < n
  · rw [List.getElem?_take_of_lt hj, List.getElem?_take_of_lt hj, List.getElem?_drop,
      List.getElem?_drop]
    exact h j hj
  · rw [List.getElem?_take_eq_none (by omega), List.getElem?_take_eq_none (by omega)]

theorem readEscape_fuel {mem : List Byte} {seiData seiSize : Nat} :
    ∀ (fuel fuel1 v pos : Nat), seiSize - pos < fuel → seiSize - pos < fuel1 →
      readEscape mem seiData seiSize fuel v pos = readEscape mem seiData seiSize fuel1 v pos := by
  intro fuel
  induction fuel with
  | zero => intro fuel1 v pos h; omega
  | succ fuel ih =>
    intro fuel1 v pos h h1
    obtain ⟨f1, rfl⟩ : ∃ f1, fuel1 = f1 + 1 := ⟨fuel1 - 1, by omega⟩
    rw [readEscape, readEscape]
    by_cases hp : pos < seiSize
    · rw [if_pos hp, if_pos hp]
      cases readByte mem (seiData + pos) with
      | error e => rfl
      | ok b =>
        simp only []
        by_cases hff : b = 0xFF
        · rw [if_pos hff, if_pos hff]
          exact ih f1 _ _ (by omega) (by omega)
        · rw [if_neg hff, if_neg hff]
    · rw [if_neg hp, if_neg hp]

theorem seiMessage_shift {self : SEIParser} {mem mem1 : List Byte}
    {seiData seiData1 c seiSize1 : Nat} {entries : List SEIEntry}
    (hag : ∀ j, j < seiSize1 → mem[seiData + (c + j)]? = mem1[seiData1 + j]?)
    (hin : seiData + (c + seiSize1) ≤ mem.length) (hin1 : seiData1 + seiSize1 ≤ mem1.length)
    (hnw : 256 * (c + seiSize1) ≤ SIZE_T_MOD) (pos : Nat) :
    seiMessage self mem seiData (c + seiSize1) (c + pos) entries
      = shiftStep c (seiMessage self mem1 seiData1 seiSize1 pos entries) := by
  unfold seiMessage
  rw [readEscape_fuel (c + seiSize1 + 1) (seiSize1 + 1) 0 (c + pos) (by omega) (by omega),
    readEscape_shift hag]
  cases h1 : readEscape mem1 seiData1 seiSize1 (seiSize1 + 1) 0 pos with
  | error e => rfl
  | ok r =>
    obtain ⟨typeAcc, pos1⟩ := r
    simp only [shiftEscape]
    by_cases c1 : pos1 ≥ seiSize1
    · rw [if_pos c1, if_pos (by omega)]; rfl
    rw [if_neg c1, if_neg (by omega), readByte_congr (hag pos1 (by omega))]
    cases readByte mem1 (seiData1 + pos1) with
    | error e => rfl
    | ok tb =>
      simp only []
      rw [readEscape_fuel (c + seiSize1 + 1) (seiSize1 + 1) 0 (c + pos1 + 1) (by omega)
        (by omega), Nat.add_assoc c pos1 1, readEscape_shift hag]
      cases h2 : readEscape mem1 seiData1 seiSize1 (seiSize1 + 1) 0 (pos1 + 1) with
      | error e => rfl
      | ok q =>
        obtain ⟨sizeAcc, pos2⟩ := q
        obtain ⟨hb1, hb2⟩ := readEscape_bound _ _ _ _ _ h2
        simp only [shiftEscape]
        by_cases c2 : pos2 ≥ seiSize1
        · rw [if_pos c2, if_pos (by omega)]; rfl
        rw [if_neg c2, if_neg (by omega), readByte_congr (hag pos2 (by omega))]
        cases readByte mem1 (seiData1 + pos2) with
        | error e => rfl
        | ok sb =>
          simp only []
          have hsb := sb.isLt
          have hle := Nat.mod_le (sizeAcc + sb.val) UINT32_MOD
          generalize (sizeAcc + sb.val) % UINT32_MOD = payloadSize at hle
          have hm1 : (pos2 + 1 + payloadSize) % SIZE_T_MOD = pos2 + 1 + payloadSize :=
            mod_size (by omega)
          have hm : (c + pos2 + 1 + payloadSize) % SIZE_T_MOD = c + (pos2 + 1 + payloadSize) := by
            rw [mod_size (by omega)]
            omega
          rw [hm, hm1]
          by_cases c3 : pos2 + 1 + payloadSize > seiSize1
          · rw [if_pos c3, if_pos (by omega)]; rfl
          rw [if_neg c3, if_neg (by omega), rbspDecode_eq (by omega), rbspDecode_eq (by omega),
            @slice_congr mem mem1 (seiData + (c + pos2 + 1)) (seiData1 + (pos2 + 1)) payloadSize
              (fun j hj => by
                have := hag (pos2 + 1 + j) (by omega)
                rw [show seiData + (c + pos2 + 1) + j = seiData + (c + (pos2 + 1 + j)) from by
                  omega, show seiData1 + (pos2 + 1) + j = seiData1 + (pos2 + 1 + j) from by omega]
                exact this)]
          simp only []
          cases dispatchPayload self ((typeAcc + tb.val) % UINT32_MOD)
              (unescapeList (slice mem1 (seiData1 + (pos2 + 1)) payloadSize)) entries with
          | error e => rfl
          | ok d =>
            obtain ⟨entries1, self1⟩ := d
            simp only []
            by_cases c4 : pos2 + 1 + payloadSize < seiSize1
            · rw [if_pos c4, if_pos (by omega), readByte_congr (hag _ c4)]
              cases readByte mem1 (seiData1 + (pos2 + 1 + payloadSize)) with
              | error e => rfl
              | ok ab =>
                simp only []
                by_cases c5 : ab = 0x80
                · rw [if_pos c5, if_pos c5]; rfl
                · rw [if_neg c5, if_neg c5]; rfl
            · rw [if_neg c4, if_neg (by omega)]; rfl

theorem parseSEILoop_shift {mem mem1 : List Byte} {seiData seiData1 c seiSize1 : Nat}
    (hag : ∀ j, j < seiSize1 → mem[seiData + (c + j)]? = mem1[seiData1 + j]?)
    (hin : seiData + (c + seiSize1) ≤ mem.length) (hin1 : seiData1 + seiSize1 ≤ mem1.length)
    (hnw : 256 * (c + seiSize1) ≤ SIZE_T_MOD) :
    ∀ (fuel pos : Nat) (entries : List SEIEntry) (self : SEIParser),
      parseSEILoop mem seiData (c + seiSize1) fuel (c + pos) entries self
        = parseSEILoop mem1 seiData1 seiSize1 fuel pos entries self := by
  intro fuel
  induction fuel with
  | zero =>
    intro pos entries self
    rw [parseSEILoop, parseSEILoop]
    by_cases hp : pos < seiSize1
    · rw [if_pos hp, if_pos (by omega)]
    · rw [if_neg hp, if_neg (by omega)]
  | succ fuel ih =>
    intro pos entries self
    rw [parseSEILoop, parseSEILoop]
    by_cases hp : pos < seiSize1
    · rw [if_pos hp, if_pos (by omega), seiMessage_shift hag hin hin1 hnw]
      cases seiMessage self mem1 seiData1 seiSize1 pos entries with
      | error e => rfl
      | ok o =>
        cases o with
        | none => rfl
        | some r =>
          obtain ⟨p1, entries1, self1⟩ := r
          simp only [shiftStep]
          exact ih _ _ _
    · rw [if_neg hp, if_neg (by omega)]

/-- Without wrap-around every message step moves the cursor forward. -/
theorem seiMessage_progress {self self1 : SEIParser} {mem : List Byte}
    {seiData seiSize pos p1 : Nat} {entries entries1 : List SEIEntry}
    (hnw : 256 * seiSize ≤ SIZE_T_MOD)
    (h : seiMessage self mem seiData seiSize pos entries = .ok (some (p1, entries1, self1))) :
    pos < p1 := by
  unfold seiMessage at h
  cases h1 : readEscape mem seiData seiSize (seiSize + 1) 0 pos with
  | error e => rw [h1] at h; cases h
  | ok r =>
    obtain ⟨typeAcc, pos1⟩ := r
    obtain ⟨ha1, _⟩ := readEscape_bound _ _ _ _ _ h1
    rw [h1] at h
    simp only [] at h
    by_cases c1 : pos1 ≥ seiSize
    · rw [if_pos c1] at h; cases h
    rw [if_neg c1] at h
    cases hr1 : readByte mem (seiData + pos1) with
    | error e => rw [hr1] at h; cases h
    | ok tb =>
      rw [hr1] at h
      simp only [] at h
      cases h2 : readEscape mem seiData seiSize (seiSize + 1) 0 (pos1 + 1) with
      | error e => rw [h2] at h; cases h
      | ok q =>
        obtain ⟨sizeAcc, pos2⟩ := q
        obtain ⟨hb1, hb2⟩ := readEscape_bound _ _ _ _ _ h2
        rw [h2] at h
        simp only [] at h
        by_cases c2 : pos2 ≥ seiSize
        · rw [if_pos c2] at h; cases h
        rw [if_neg c2] at h
        cases hr2 : readByte mem (seiData + pos2) with
        | error e => rw [hr2] at h; cases h
        | ok sb =>
          rw [hr2] at h
          simp only [] at h
          have hsb := sb.isLt
          have hle := Nat.mod_le (sizeAcc + sb.val) UINT32_MOD
          generalize (sizeAcc + sb.val) % UINT32_MOD = payloadSize at hle h
          have hm1 : (pos2 + 1 + payloadSize) % SIZE_T_MOD = pos2 + 1 + payloadSize :=
            mod_size (by omega)
          rw [hm1] at h
          by_cases c3 : pos2 + 1 + payloadSize > seiSize
          · rw [if_pos c3] at h; cases h
          rw [if_neg c3] at h
          cases hd : rbspDecode mem (seiData + (pos2 + 1)) payloadSize with
          | error e => rw [hd] at h; cases h
          | ok dec =>
            rw [hd] at h
            simp only [] at h
            cases hdp : dispatchPayload self ((typeAcc + tb.val) % UINT32_MOD) dec entries with
            | error e => rw [hdp] at h; cases h
            | ok d =>
              obtain ⟨e2, s2⟩ := d
              rw [hdp] at h
              simp only [] at h
              by_cases c4 : pos2 + 1 + payloadSize < seiSize
              · rw [if_pos c4] at h
                cases hr3 : readByte mem (seiData + (pos2 + 1 + payloadSize)) with
                | error e => rw [hr3] at h; cases h
                | ok ab =>
                  rw [hr3] at h
                  simp only [] at h
                  by_cases c5 : ab = 0x80
                  · rw [if_pos c5] at h
                    cases h
                    omega
                  · rw [if_neg c5] at h
                    cases h
                    omega
              · rw [if_neg c4] at h
                cases h
                omega

theorem parseSEILoop_fuel {mem : List Byte} {seiData seiSize : Nat}
    (hnw : 256 * seiSize ≤ SIZE_T_MOD) :
    ∀ (fuel fuel1 pos : Nat) (entries : List SEIEntry) (self : SEIParser),
      seiSize - pos ≤ fuel → seiSize - pos ≤ fuel1 →
      parseSEILoop mem seiData seiSize fuel pos entries self
        = parseSEILoop mem seiData seiSize fuel1 pos entries self := by
  intro fuel
  induction fuel with
  | zero =>
    intro fuel1 pos entries self h _
    rw [parseSEILoop_done (by omega), parseSEILoop_done (by omega)]
  | succ fuel ih =>
    intro fuel1 pos entries self h h1
    by_cases hp : pos < seiSize
    · obtain ⟨f1, rfl⟩ : ∃ f1, fuel1 = f1 + 1 := ⟨fuel1 - 1, by omega⟩
      rw [parseSEILoop, parseSEILoop, if_pos hp, if_pos hp]
      cases hm : seiMessage self mem seiData seiSize pos entries with
      | error e => rfl
      | ok o =>
        cases o with
        | none => rfl
        | some r =>
          obtain ⟨p1, entries1, self1⟩ := r
          have := seiMessage_progress hnw hm
          simp only []
          exact ih f1 _ _ _ (by omega) (by omega)
    · rw [parseSEILoop_done hp, parseSEILoop_done hp]

theorem dispatchPayload_other (self : SEIParser) (entries : List SEIEntry) {t : Nat}
    (dec : List Byte) (h5 : t ≠ 5) (h136 : t ≠ 136) :
    dispatchPayload self t dec entries = .ok (entries, self) := by
  unfold dispatchPayload
  rw [if_neg (show ¬ t = SEI_TYPE_USER_DATA_UNREGISTERED from h5),
    if_neg (show ¬ t = SEI_TYPE_TIME_CODE from h136)]

theorem parseSEILoop_step {mem : List Byte} {seiData seiSize fuel pos p1 : Nat}
    {entries entries1 : List SEIEntry} {self self1 : SEIParser}
    (hp : pos < seiSize) (hf : 0 < fuel)
    (h : seiMessage self mem seiData seiSize pos entries = .ok (some (p1, entries1, self1))) :
    parseSEILoop mem seiData seiSize fuel pos entries self
      = parseSEILoop mem seiData seiSize (fuel - 1) p1 entries1 self1 := by
  obtain ⟨f, rfl⟩ : ∃ f, fuel = f + 1 := ⟨fuel - 1, by omega⟩
  rw [parseSEILoop, if_pos hp, h]
  rfl

theorem dropAlign_spec (R : List Byte) :
    ∃ a : List Byte, R = a ++ dropAlign R
      ∧ a.length = (if R.head? = some 0x80 then 1 else 0) := by
  cases R with
  | nil => exact ⟨[], rfl, rfl⟩
  | cons b rest =>
    by_cases hb : b = 0x80
    · exact ⟨[b], by simp [dropAlign, hb], by simp [hb]⟩
    · exact ⟨[], by simp [dropAlign, hb], by simp [hb]⟩

theorem nowrap_of_lt {n : Nat} (h : n < 2 ^ 24) : 256 * n ≤ SIZE_T_MOD := by
  unfold SIZE_T_MOD
  omega

/-- The extractor on a unit whose first message is encoded by `encodeMessage`, in a
unit shorter than `2 ^ 24` bytes: the loop goes on, from the dispatch result of that
message, as the extractor does on the unit without the message and without one
`0x80` after it. -/
theorem parseSEINAL_first_message {self self1 : SEIParser} {entries entries1 : List SEIEntry}
    (h0 h1 : Byte) (t : Nat) (P R : List Byte)
    (hlen : ([h0, h1] ++ (encodeMessage t P ++ R)).length < 2 ^ 24)
    (hdisp : dispatchPayload self t (unescapeList P) entries = .ok (entries1, self1)) :
    parseSEINAL self ([h0, h1] ++ (encodeMessage t P ++ R)) 0
        ([h0, h1] ++ (encodeMessage t P ++ R)).length entries
      = parseSEINAL self1 ([h0, h1] ++ dropAlign R) 0 ([h0, h1] ++ dropAlign R).length
          entries1 := by
  obtain ⟨a, hR, ha⟩ := dropAlign_spec R
  generalize dropAlign R = R1 at hR ⊢
  have hel := encodeMessage_length t P
  have hL : ([h0, h1] ++ (encodeMessage t P ++ R)).length
      = (encodeMessage t P ++ R).length + 2 := by
    simp only [List.length_append, List.length_cons, List.length_nil]
    omega
  have hL1 : ([h0, h1] ++ R1).length = R1.length + 2 := by
    simp only [List.length_append, List.length_cons, List.length_nil]
    omega
  have hss : (encodeMessage t P ++ R).length = (encodeMessage t P ++ a).length + R1.length := by
    rw [hR]
    simp only [List.length_append]
    omega
  have hss0 : 0 < (encodeMessage t P ++ R).length := by
    rw [List.length_append, hel]
    omega
  rw [hL] at hlen
  have ht32 : t % UINT32_MOD = t := by
    rw [List.length_append, hel] at hlen
    exact mod_uint32 (by omega)
  have hnw := nowrap_of_lt (show (encodeMessage t P ++ R).length < 2 ^ 24 from by omega)
  have hnw1 := nowrap_of_lt (show R1.length < 2 ^ 24 from by omega)
  have hstep := @seiMessage_encodeMessage self self1 entries entries1 [h0, h1] [] R t P
    (by
      rw [List.nil_append]
      have := uint32_pos
      unfold SIZE_T_MOD
      omega)
    (by rw [ht32]; exact hdisp)
  simp only [List.nil_append, List.length_nil, List.length_cons] at hstep
  rw [← ha, ← List.length_append] at hstep
  have hag : ∀ j, j < R1.length →
      ([h0, h1] ++ (encodeMessage t P ++ R))[0 + 2 + ((encodeMessage t P ++ a).length + j)]?
        = ([h0, h1] ++ R1)[0 + 2 + j]? := by
    intro j _
    rw [hR, ← List.append_assoc (encodeMessage t P) a R1]
    exact (getElem?_region [h0, h1] (encodeMessage t P ++ a) R1 j).trans
      (getElem?_append_add [h0, h1] R1 j).symm
  unfold parseSEINAL
  rw [if_neg (by omega), hL, Nat.add_sub_cancel, parseSEILoop_step hss0 hss0 hstep, hL1,
    Nat.add_sub_cancel]
  have hshift := parseSEILoop_shift hag (by rw [← hss, hL]; omega) (by rw [hL1]; omega)
    (by rw [← hss]; exact hnw) ((encodeMessage t P ++ R).length - 1) 0 entries1 self1
  rw [← hss] at hshift
  simp only [Nat.add_zero, Nat.zero_add] at hshift ⊢
  rw [hshift]
  have hc1 : 1 ≤ (encodeMessage t P ++ a).length := by
    rw [List.length_append, hel]
    omega
  by_cases h3 : R1.length + 2 < 3
  · rw [if_pos h3]
    exact parseSEILoop_done (by omega)
  · rw [if_neg h3]
    exact parseSEILoop_fuel hnw1 _ _ _ _ _ (by omega) (by omega)

/-! ## Totality of the extractor without wrap-around -/

theorem readEscape_total {mem : List Byte} {seiData seiSize : Nat}
    (hin : seiData + seiSize ≤ mem.length) :
    ∀ (fuel v pos : Nat), seiSize - pos < fuel →
      ∃ r, readEscape mem seiData seiSize fuel v pos = .ok r := by
  intro fuel
  induction fuel with
  | zero => intro v pos h; omega
  | succ fuel ih =>
    intro v pos h
    rw [readEscape]
    by_cases hp : pos < seiSize
    · rw [if_pos hp, readByte_of_lt (by omega)]
      simp only []
      by_cases hff : mem[seiData + pos] = 0xFF
      · rw [if_pos hff]
        exact ih _ _ (by omega)
      · rw [if_neg hff]
        exact ⟨_, rfl⟩
    · rw [if_neg hp]
      exact ⟨_, rfl⟩

theorem dispatchPayload_total (self : SEIParser) (t : Nat) (dec : List Byte)
    (entries : List SEIEntry) : ∃ r, dispatchPayload self t dec entries = .ok r := by
  unfold dispatchPayload
  by_cases h5 : t = SEI_TYPE_USER_DATA_UNREGISTERED
  · rw [if_pos h5]
    by_cases h16 : dec.length ≥ 16
    · rw [if_pos h16, frameNumberFromUUID_eq (by omega)]
      exact ⟨_, rfl⟩
    · rw [if_neg h16]
      exact ⟨_, rfl⟩
  · rw [if_neg h5]
    by_cases h136 : t = SEI_TYPE_TIME_CODE
    · rw [if_pos h136]
      obtain ⟨e, he⟩ := parseTimecode_total dec self.sequentialFrameCounter
      rw [he]
      exact ⟨_, rfl⟩
    · rw [if_neg h136]
      exact ⟨_, rfl⟩

theorem seiMessage_total (self : SEIParser) {mem : List Byte} {seiData seiSize : Nat}
    (pos : Nat) (entries : List SEIEntry)
    (hin : seiData + seiSize ≤ mem.length) (hnw : 256 * seiSize ≤ SIZE_T_MOD) :
    ∃ o, seiMessage self mem seiData seiSize pos entries = .ok o := by
  unfold seiMessage
  obtain ⟨⟨typeAcc, pos1⟩, h1⟩ := readEscape_total hin (seiSize + 1) 0 pos (by omega)
  rw [h1]
  simp only []
  by_cases c1 : pos1 ≥ seiSize
  · rw [if_pos c1]
    exact ⟨_, rfl⟩
  obtain ⟨tb, htb⟩ : ∃ b, readByte mem (seiData + pos1) = .ok b :=
    ⟨_, readByte_of_lt (by omega)⟩
  rw [if_neg c1, htb]
  simp only []
  obtain ⟨⟨sizeAcc, pos2⟩, h2⟩ := readEscape_total hin (seiSize + 1) 0 (pos1 + 1) (by omega)
  obtain ⟨hb1, hb2⟩ := readEscape_bound _ _ _ _ _ h2
  rw [h2]
  simp only []
  by_cases c2 : pos2 ≥ seiSize
  · rw [if_pos c2]
    exact ⟨_, rfl⟩
  obtain ⟨sb, hsbr⟩ : ∃ b, readByte mem (seiData + pos2) = .ok b :=
    ⟨_, readByte_of_lt (by omega)⟩
  rw [if_neg c2, hsbr]
  simp only []
  have hsb := sb.isLt
  have hle := Nat.mod_le (sizeAcc + sb.val) UINT32_MOD
  generalize (sizeAcc + sb.val) % UINT32_MOD = payloadSize at hle
  generalize (typeAcc + tb.val) % UINT32_MOD = payloadType
  have hm1 : (pos2 + 1 + payloadSize) % SIZE_T_MOD = pos2 + 1 + payloadSize :=
    mod_size (by omega)
  rw [hm1]
  by_cases c3 : pos2 + 1 + payloadSize > seiSize
  · rw [if_pos c3]
    exact ⟨_, rfl⟩
  rw [if_neg c3, rbspDecode_eq (by omega)]
  simp only []
  obtain ⟨⟨entries1, self1⟩, hd⟩ := dispatchPayload_total self payloadType
    (unescapeList (slice mem (seiData + (pos2 + 1)) payloadSize)) entries
  rw [hd]
  simp only []
  by_cases c4 : pos2 + 1 + payloadSize < seiSize
  · obtain ⟨ab, hab⟩ : ∃ b, readByte mem (seiData + (pos2 + 1 + payloadSize)) = .ok b :=
      ⟨_, readByte_of_lt (by omega)⟩
    rw [if_pos c4, hab]
    simp only []
    by_cases c5 : ab = 0x80
    · rw [if_pos c5]
      exact ⟨_, rfl⟩
    · rw [if_neg c5]
      exact ⟨_, rfl⟩
  · rw [if_neg c4]
    exact ⟨_, rfl⟩

theorem parseSEILoop_total {mem : List Byte} {seiData seiSize : Nat}
    (hin : seiData + seiSize ≤ mem.length) (hnw : 256 * seiSize ≤ SIZE_T_MOD) :
    ∀ (fuel pos : Nat) (entries : List SEIEntry) (self : SEIParser), seiSize - pos ≤ fuel →
      ∃ r, parseSEILoop mem seiData seiSize fuel pos entries self = .ok r := by
  intro fuel
  induction fuel with
  | zero =>
    intro pos entries self h
    rw [parseSEILoop_done (by omega)]
    exact ⟨_, rfl⟩
  | succ fuel ih =>
    intro pos entries self h
    rw [parseSEILoop]
    by_cases hp : pos < seiSize
    · rw [if_pos hp]
      obtain ⟨o, ho⟩ := seiMessage_total self pos entries hin hnw
      rw [ho]
      cases o with
      | none => exact ⟨_, rfl⟩
      | some r =>
        obtain ⟨p1, entries1, self1⟩ := r
        have := seiMessage_progress hnw ho
        simp only []
        exact ih _ _ _ (by omega)
    · rw [if_neg hp]
      exact ⟨_, rfl⟩

/-- The extractor returns on every unit that lies inside the buffer and is shorter
than `2 ^ 24` bytes. -/
theorem parseSEINAL_total (self : SEIParser) {mem : List Byte} {nalData nalSize : Nat}
    (entries : List SEIEntry) (hin : nalData + nalSize ≤ mem.length)
    (hsmall : nalSize < 2 ^ 24) :
    ∃ r, parseSEINAL self mem nalData nalSize entries = .ok r := by
  unfold parseSEINAL
  by_cases h3 : nalSize < 3
  · rw [if_pos h3]
    exact ⟨_, rfl⟩
  · rw [if_neg h3]
    exact parseSEILoop_total (by omega)
      (nowrap_of_lt (show nalSize - 2 < 2 ^ 24 from by omega)) _ _ _ _ (by omega)

theorem parseUnits_total {data : List Byte} (hsmall : data.length < 2 ^ 24) :
    ∀ (units : List (Nat × Nat)) (self : SEIParser) (entries : List SEIEntry),
      (∀ u ∈ units, u.1 + u.2 ≤ data.length) →
      ∃ r, parseUnits data units self entries = .ok r := by
  intro units
  induction units with
  | nil => intro self entries _; exact ⟨_, rfl⟩
  | cons u rest ih =>
    intro self entries hin
    obtain ⟨o, l⟩ := u
    have hol : o + l ≤ data.length := hin (o, l) (List.mem_cons_self _ _)
    have hrest : ∀ u ∈ rest, u.1 + u.2 ≤ data.length :=
      fun u hu => hin u (List.mem_cons_of_mem _ hu)
    rw [parseUnits]
    by_cases hl : l < 2
    · rw [if_pos hl]
      exact ih _ _ hrest
    · obtain ⟨h0, hh0⟩ : ∃ b, readByte data o = .ok b := ⟨_, readByte_of_lt (by omega)⟩
      rw [if_neg hl, hh0]
      simp only []
      by_cases hsei : (h0.val >>> 1) &&& 0x3F = HEVC_NAL_SEI_PREFIX
          ∨ (h0.val >>> 1) &&& 0x3F = HEVC_NAL_SEI_SUFFIX
      · rw [if_pos hsei]
        obtain ⟨⟨entries1, self1⟩, hr⟩ := parseSEINAL_total self entries hol
          (show l < 2 ^ 24 from by omega)
        rw [hr]
        exact ih _ _ hrest
      · rw [if_neg hsei]
        exact ih _ _ hrest

/-- The parser returns on every buffer of at least 3 and fewer than `2 ^ 24` bytes. -/
theorem parse_total_of_small (self : SEIParser) {data : List Byte} (h3 : 3 ≤ data.length)
    (hsmall : data.length < 2 ^ 24) : ∃ r, parse self data = .ok r := by
  obtain ⟨units, hn, hu, _⟩ := findNALUnits_total h3
  rw [parse_eq_parseUnits hn]
  exact parseUnits_total hsmall units _ _ (fun u hu1 => (hu u hu1).2.1)

/-! ## Messages of other types -/

theorem parseSEINAL_one_message {self self1 : SEIParser} {entries entries1 : List SEIEntry}
    (h0 h1 : Byte) (t : Nat) (P : List Byte)
    (hsz : (encodeMessage t P).length < SIZE_T_MOD)
    (hdisp : dispatchPayload self (t % UINT32_MOD) (unescapeList P) entries
      = .ok (entries1, self1)) :
    parseSEINAL self ([h0, h1] ++ (encodeMessage t P ++ [])) 0
        ([h0, h1] ++ (encodeMessage t P ++ [])).length entries = .ok (entries1, self1) := by
  have hel := encodeMessage_length t P
  have hL : ([h0, h1] ++ (encodeMessage t P ++ [])).length = (encodeMessage t P).length + 2 := by
    simp only [List.length_append, List.length_cons, List.length_nil]
    omega
  have hstep := @seiMessage_encodeMessage self self1 entries entries1 [h0, h1] [] [] t P
    (by rw [List.nil_append, List.append_nil]; exact hsz) hdisp
  simp only [List.nil_append, List.append_nil, List.length_nil, List.length_cons,
    List.head?_nil, Nat.add_zero] at hstep
  rw [List.append_nil]
  refine parseSEINAL_single_message (by rw [← List.append_nil (encodeMessage t P), hL]; omega) ?_
  rw [← List.append_nil (encodeMessage t P), hL, List.append_nil, Nat.add_sub_cancel]
  simpa using hstep

/-- Counterexample to C13 as stated: the type `2 ^ 32 + 5` is outside `{5, 136}`, yet
its escape (16843009 bytes `0xFF` and the byte `6`) adds up to 5 in the 32-bit
accumulator, so a record of type 5 is produced for the message, while the unit
without the message yields none. -/
theorem parseSEINAL_type_wraps :
    (4294967301 ≠ 5 ∧ 4294967301 ≠ 136)
      ∧ parseSEINAL ⟨0⟩
          ([0x4E, 1] ++ (encodeMessage 4294967301
            [0, 0, 0, 42, 1, 2, 3, 4, 5, 6, 7, 8, 9, 10, 11, 12] ++ [])) 0
          ([0x4E, 1] ++ (encodeMessage 4294967301
            [0, 0, 0, 42, 1, 2, 3, 4, 5, 6, 7, 8, 9, 10, 11, 12] ++ [])).length []
        = .ok ([exampleUserData], ⟨0⟩)
      ∧ parseSEINAL ⟨0⟩ ([0x4E, 1] ++ dropAlign []) 0 ([0x4E, 1] ++ dropAlign []).length []
        = .ok ([], ⟨0⟩) := by
  refine ⟨⟨by decide, by decide⟩, ?_, by with_unfolding_all rfl⟩
  have h5 : 4294967301 % UINT32_MOD = 5 := by
    unfold UINT32_MOD
    decide
  have hrec : parseUserDataUnregistered [0, 0, 0, 42, 1, 2, 3, 4, 5, 6, 7, 8, 9, 10, 11, 12]
      (beU32 [0, 0, 0, 42, 1, 2, 3, 4, 5, 6, 7, 8, 9, 10, 11, 12]) = exampleUserData := by
    with_unfolding_all rfl
  refine parseSEINAL_one_message 0x4E 1 4294967301 _ ?_ ?_
  · rw [encodeMessage_length]
    unfold SIZE_T_MOD
    decide
  · rw [h5, show unescapeList [0, 0, 0, 42, 1, 2, 3, 4, 5, 6, 7, 8, 9, 10, 11, 12]
        = [0, 0, 0, 42, 1, 2, 3, 4, 5, 6, 7, 8, 9, 10, 11, 12] from by with_unfolding_all rfl,
      dispatchPayload_user_data [] (by decide), hrec]
    rfl

/-- C13 (amended). In an SEI NAL unit shorter than `2 ^ 24` bytes (so that neither the
32-bit type and size accumulators nor `pos + payloadSize` wrap around), made of a
2-byte header, a message of a type `t` other than 5 and 136 with its `s`-byte payload
`P` (type and size in the `0xFF` escape) and a remainder `R`, `parseSEINAL` returns,
and returns the same records and the same timecode counter as on the header followed
by `R` without one leading `0x80`. -/
theorem parseSEINAL_skips_other_type (self : SEIParser) (entries : List SEIEntry)
    (h0 h1 : Byte) (t : Nat) (P R : List Byte) (h5 : t ≠ 5) (h136 : t ≠ 136)
    (hlen : ([h0, h1] ++ (encodeMessage t P ++ R)).length < 2 ^ 24) :
    ∃ r, parseSEINAL self ([h0, h1] ++ (encodeMessage t P ++ R)) 0
          ([h0, h1] ++ (encodeMessage t P ++ R)).length entries = .ok r
      ∧ parseSEINAL self ([h0, h1] ++ dropAlign R) 0 ([h0, h1] ++ dropAlign R).length entries
          = .ok r := by
  obtain ⟨r, hr⟩ := @parseSEINAL_total self ([h0, h1] ++ (encodeMessage t P ++ R)) 0
    ([h0, h1] ++ (encodeMessage t P ++ R)).length entries (by omega) hlen
  refine ⟨r, hr, ?_⟩
  rw [← parseSEINAL_first_message h0 h1 t P R hlen
    (dispatchPayload_other self entries _ h5 h136)]
  exact hr

theorem parseSEINAL_skips_other_type_witness :
    ∃ r, parseSEINAL ⟨3⟩
          ([0x4E, 1] ++ (encodeMessage 1 [0xAA, 0xBB] ++ [0x80, 136, 2, 0x12, 0x34])) 0
          ([0x4E, 1] ++ (encodeMessage 1 [0xAA, 0xBB] ++ [0x80, 136, 2, 0x12, 0x34])).length []
          = .ok r
      ∧ parseSEINAL ⟨3⟩ ([0x4E, 1] ++ dropAlign [0x80, 136, 2, 0x12, 0x34]) 0
          ([0x4E, 1] ++ dropAlign [0x80, 136, 2, 0x12, 0x34]).length [] = .ok r :=
  parseSEINAL_skips_other_type ⟨3⟩ [] 0x4E 1 1 [0xAA, 0xBB] [0x80, 136, 2, 0x12, 0x34]
    (by decide) (by decide) (by decide)

/-! ## Short user data is consumed without a record -/

/-- C8 (amended). A UserDataUnregistered message whose de-escaped payload is shorter
than 16 bytes is consumed without a record: `parse` of a unit that carries one such
message returns no record; every type-5 record `parse` returns has at least 16
payload bytes; and in a unit shorter than `2 ^ 24` bytes that begins with such a
message, `parseSEINAL` returns, with exactly the records and the timecode counter it
returns on the unit without that message and without one `0x80` after it, so the
messages behind the short one are still decoded.  The degraded record (type 5,
`jsonPayload = "{}"`, empty payload and `rawBytes`) is what
`parseUserDataUnregistered` itself returns for such a payload. -/
theorem short_user_data_is_skipped :
    (∀ (payload : List Byte) (frameNumber : Nat), payload.length < 16 →
      parseUserDataUnregistered payload frameNumber =
        { type := 5, frameNumber := frameNumber, payload := [], jsonPayload := "\x7b\x7d",
          timecodeString := "", rawBytes := "" })
    ∧ (∀ (self : SEIParser) (long : Bool) (h0 h1 n : Byte) (R : List Byte),
      ((h0.val >>> 1) &&& 0x3F = 39 ∨ (h0.val >>> 1) &&& 0x3F = 40) →
      n.val = R.length → n ≠ 0xFF → containsTriple 0 0 1 (h0 :: h1 :: 5 :: n :: R) = false →
      (unescapeList R).length < 16 →
      rbspDecode (startCode long ++ [h0, h1, 5, n] ++ R) ((startCode long).length + 4) n.val
          = .ok (unescapeList R)
        ∧ parse self (startCode long ++ [h0, h1, 5, n] ++ R)
          = .ok ([], { sequentialFrameCounter := 0 }))
    ∧ (∀ (self self1 : SEIParser) (data : List Byte) (out : List SEIEntry),
      parse self data = .ok (out, self1) →
      ∀ e ∈ out, e.type = SEI_TYPE_USER_DATA_UNREGISTERED → 16 ≤ e.payload.length)
    ∧ (∀ (self : SEIParser) (entries : List SEIEntry) (h0 h1 : Byte) (P R d : List Byte),
      rbspDecode P 0 P.length = .ok d → d.length < 16 →
      ([h0, h1] ++ (encodeMessage 5 P ++ R)).length < 2 ^ 24 →
      ∃ r, parseSEINAL self ([h0, h1] ++ (encodeMessage 5 P ++ R)) 0
            ([h0, h1] ++ (encodeMessage 5 P ++ R)).length entries = .ok r
        ∧ parseSEINAL self ([h0, h1] ++ dropAlign R) 0 ([h0, h1] ++ dropAlign R).length
            entries = .ok r) := by
  refine ⟨?_, ?_, ?_, ?_⟩
  · intro payload frameNumber h
    unfold parseUserDataUnregistered
    simp only [if_pos h, SEI_TYPE_USER_DATA_UNREGISTERED]
  · intro self long h0 h1 n R htype hn hnff hbody hshort
    have hdata : startCode long ++ [h0, h1, 5, n] ++ R
        = startCode long ++ (h0 :: h1 :: 5 :: n :: R) := by simp
    constructor
    · have hl : (startCode long ++ [h0, h1, 5, n] ++ R).length
          = (startCode long).length + 4 + R.length := by
        simp only [List.length_append, List.length_cons, List.length_nil]
      rw [rbspDecode_eq (by rw [hl]; omega), hn]
      have := slice_append_right (startCode long ++ [h0, h1, 5, n]) R
      simp only [List.length_append, List.length_cons, List.length_nil] at this
      rw [show (startCode long).length + 4 = (startCode long).length + (0 + 1 + 1 + 1 + 1)
        from by omega, this]
    · rw [hdata]
      exact parse_single_message_unit self long h0 h1 5 n R htype hn (by decide) hnff hbody
        (dispatchPayload_user_data_short [] hshort)
  · intro self self1 data out h e he ht
    exact (wellNumbered_user_data out _ _ (parse_inv h).1 e he ht).1
  · intro self entries h0 h1 P R d hd hshort hlen
    rw [rbspDecode_whole] at hd
    cases hd
    obtain ⟨r, hr⟩ := @parseSEINAL_total self ([h0, h1] ++ (encodeMessage 5 P ++ R)) 0
      ([h0, h1] ++ (encodeMessage 5 P ++ R)).length entries (by omega) hlen
    refine ⟨r, hr, ?_⟩
    rw [← parseSEINAL_first_message h0 h1 5 P R hlen
      (dispatchPayload_user_data_short entries hshort)]
    exact hr

theorem short_user_data_is_skipped_witness :
    (rbspDecode (startCode false ++ [0x4E, 0x01, 5, 2] ++ [0xAA, 0xBB])
        ((startCode false).length + 4) (2 : Byte).val = .ok (unescapeList [0xAA, 0xBB])
      ∧ parse ⟨0⟩ (startCode false ++ [0x4E, 0x01, 5, 2] ++ [0xAA, 0xBB])
        = .ok ([], { sequentialFrameCounter := 0 }))
    ∧ parseSEINAL ⟨0⟩ ([0x4E, 0x01] ++ (encodeMessage 5 [0xAA, 0xBB] ++ [0x88, 0x00])) 0
          ([0x4E, 0x01] ++ (encodeMessage 5 [0xAA, 0xBB] ++ [0x88, 0x00])).length []
        = .ok ([{ type := 136, frameNumber := 0, payload := [], jsonPayload := "",
                  timecodeString := "--:--:--:--", rawBytes := "" }],
            { sequentialFrameCounter := 1 })
    ∧ [0x4E, 0x01] ++ (encodeMessage 5 [0xAA, 0xBB] ++ [0x88, 0x00])
        = [0x4E, 0x01, 5, 2, 0xAA, 0xBB, 0x88, 0x00]
    ∧ parse ⟨0⟩ [0, 0, 1, 0x4E, 0x01, 5, 2, 0xAA, 0xBB, 0x88, 0x00]
        = .ok ([{ type := 136, frameNumber := 0, payload := [], jsonPayload := "",
                  timecodeString := "--:--:--:--", rawBytes := "" }],
            { sequentialFrameCounter := 1 }) := by
  refine ⟨short_user_data_is_skipped.2.1 ⟨0⟩ false 0x4E 0x01 2 [0xAA, 0xBB] (by decide)
    (by decide) (by decide) (by decide) (by decide), ?_, by decide,
    by with_unfolding_all rfl⟩
  obtain ⟨r, hfull, hrest⟩ := short_user_data_is_skipped.2.2.2 ⟨0⟩ [] 0x4E 0x01 [0xAA, 0xBB]
    [0x88, 0x00] [0xAA, 0xBB] (by with_unfolding_all rfl) (by decide) (by decide)
  rw [hfull, ← hrest]
  with_unfolding_all rfl

end SEI
